import Mathlib

/-!
# Verification of the `tracking_solution` multi-object tracker

Shallow embedding of the C++ sources of the repository, over exact
rationals `ℚ` in place of IEEE `double` (every claim settled here is a
structural / order-theoretic property, none hinges on rounding).

Sources embedded (names kept where Lean allows):
* `include/Tracker.hpp` — data records `Detection`, `Track`, class `Tracker`,
  and the single-header Kuhn–Munkres solver `hungarian`;
* the tracker implementation (8-state Kalman filter): `centre_dist`, `iou`,
  `det2meas`, `set_F`, `set_Q`, `create_kf`, `Tracker::step`;
* the frame driver: `load_frames` (w/h validation), the main loop that calls
  `step` per frame and snapshots `tracker.tracks()`, and `save_tracks`.

Matrices are row-major `List (List ℚ)`, mirroring `cv::Mat` contents and the
`vector<vector<double>>` cost matrix.  `std::hypot` is modelled by
`Rat.sqrt` of the sum of squares; `Rat.sqrt` coincides with the real square
root whenever its argument is a square of a rational, which holds at every
concrete input used below.
-/

namespace Tracking

/-- Row-major rational matrix, standing for `cv::Mat` of doubles and for
`std::vector<std::vector<double>>`. -/
abbrev Mat : Type := List (List ℚ)

/-- Dot product of two rows (missing entries count 0, as lengths always
agree at call sites). -/
def dot (r c : List ℚ) : ℚ := (List.zipWith (· * ·) r c).sum

/-- Matrix–vector product. -/
def matVec (A : Mat) (x : List ℚ) : List ℚ := A.map (fun r => dot r x)

/-- Matrix transpose. -/
def transposeM (A : Mat) : Mat := A.transpose

/-- Matrix product. -/
def matMul (A B : Mat) : Mat :=
  A.map (fun r => (transposeM B).map (fun c => dot r c))

/-- Entrywise sum. -/
def matAdd (A B : Mat) : Mat := List.zipWith (List.zipWith (· + ·)) A B

/-- Entrywise difference. -/
def matSub (A B : Mat) : Mat := List.zipWith (List.zipWith (· - ·)) A B

/-- Scalar multiple. -/
def matScale (a : ℚ) (A : Mat) : Mat := A.map (List.map (a * ·))

/-- Vector sum. -/
def vecAdd (x y : List ℚ) : List ℚ := List.zipWith (· + ·) x y

/-- Vector difference. -/
def vecSub (x y : List ℚ) : List ℚ := List.zipWith (· - ·) x y

/-- `m × n` zero matrix (`cv::Mat::zeros`). -/
def zerosM (m n : ℕ) : Mat := List.replicate m (List.replicate n 0)

/-- `n × n` identity matrix (`cv::Mat::eye`). -/
def eyeM (n : ℕ) : Mat :=
  (List.range n).map (fun i => (List.range n).map (fun j => if i = j then (1 : ℚ) else 0))

/-- Read entry `(i, j)` (`A.at<double>(i, j)`); out of range reads 0, never
exercised at call sites. -/
def getEntry (A : Mat) (i j : ℕ) : ℚ := (A.getD i []).getD j 0

/-- Write entry `(i, j)` (`A.at<double>(i, j) = v`). -/
def setEntry (A : Mat) (i j : ℕ) (v : ℚ) : Mat := A.set i ((A.getD i []).set j v)

/-- Delete element `i` of a list (used to form minors). -/
def dropIdx {α : Type} (l : List α) (i : ℕ) : List α := l.take i ++ l.drop (i + 1)

/-- Minor of `A` obtained by deleting row `i` and column `j`. -/
def minorM (A : Mat) (i j : ℕ) : Mat := (dropIdx A i).map (fun r => dropIdx r j)

/-- Determinant of a `2 × 2` matrix. -/
def det2 (A : Mat) : ℚ :=
  getEntry A 0 0 * getEntry A 1 1 - getEntry A 0 1 * getEntry A 1 0

/-- Determinant of a `3 × 3` matrix (first-row cofactor expansion). -/
def det3 (A : Mat) : ℚ :=
  getEntry A 0 0 * det2 (minorM A 0 0)
    - getEntry A 0 1 * det2 (minorM A 0 1)
    + getEntry A 0 2 * det2 (minorM A 0 2)

/-- Determinant of a `4 × 4` matrix (first-row cofactor expansion). -/
def det4 (A : Mat) : ℚ :=
  getEntry A 0 0 * det3 (minorM A 0 0)
    - getEntry A 0 1 * det3 (minorM A 0 1)
    + getEntry A 0 2 * det3 (minorM A 0 2)
    - getEntry A 0 3 * det3 (minorM A 0 3)

/-- Adjugate of a `4 × 4` matrix. -/
def adj4 (A : Mat) : Mat :=
  (List.range 4).map (fun i => (List.range 4).map (fun j =>
    (if (j + i) % 2 = 0 then (1 : ℚ) else -1) * det3 (minorM A j i)))

/-- Exact inverse of a `4 × 4` rational matrix, modelling the linear solve
inside `cv::KalmanFilter::correct` (`K = P Hᵀ (H P Hᵀ + R)⁻¹`).  The solver
is only ever applied to the innovation covariance `S = H P Hᵀ + R`, which is
invertible at every call site reached below. -/
def inv4 (A : Mat) : Mat := matScale (1 / det4 A) (adj4 A)

/-- An axis-aligned detection rectangle in normalised coordinates
(`struct Detection` of `Tracker.hpp`). -/
structure Detection where
  x : ℚ
  y : ℚ
  w : ℚ
  h : ℚ
deriving DecidableEq, Repr

/-- The state of a `cv::KalmanFilter` as the tracker uses it: the posterior
state/covariance (OpenCV's `predict` copies the prior into the posterior, so
one copy suffices for this client, which always predicts before correcting),
plus the model matrices the tracker assigns. -/
structure KalmanFilter where
  statePost : List ℚ
  errorCovPost : Mat
  transitionMatrix : Mat
  processNoiseCov : Mat
  measurementMatrix : Mat
  measurementNoiseCov : Mat
deriving DecidableEq, Repr

/-- `cv::KalmanFilter::predict`: `s ← F·s`, `P ← F·P·Fᵀ + Q`; the predicted
state is returned and also stored as the posterior. -/
def KalmanFilter.predict (kf : KalmanFilter) : List ℚ × KalmanFilter :=
  let s := matVec kf.transitionMatrix kf.statePost
  let P := matAdd
    (matMul (matMul kf.transitionMatrix kf.errorCovPost) (transposeM kf.transitionMatrix))
    kf.processNoiseCov
  (s, { kf with statePost := s, errorCovPost := P })

/-- `cv::KalmanFilter::correct`: innovation update `y = z − H·s`,
`S = H·P·Hᵀ + R`, `K = P·Hᵀ·S⁻¹`, `s ← s + K·y`, `P ← (I − K·H)·P`;
returns the corrected state. -/
def KalmanFilter.correct (kf : KalmanFilter) (z : List ℚ) : List ℚ × KalmanFilter :=
  let H := kf.measurementMatrix
  let s := kf.statePost
  let P := kf.errorCovPost
  let y := vecSub z (matVec H s)
  let S := matAdd (matMul (matMul H P) (transposeM H)) kf.measurementNoiseCov
  let K := matMul (matMul P (transposeM H)) (inv4 S)
  let s2 := vecAdd s (matVec K y)
  let P2 := matMul (matSub (eyeM 8) (matMul K H)) P
  (s2, { kf with statePost := s2, errorCovPost := P2 })

/-- Per-object record (`struct Track` of `Tracker.hpp`). `rect` holds
`[x, y, w, h]` read from the filter state. -/
structure Track where
  id : ℤ := -1
  kf : KalmanFilter
  rect : List ℚ
  last_ts : ℚ := 0
  age : ℤ := 0
  time_since_update : ℤ := 0
deriving DecidableEq, Repr

/-- Fuelled digit-recursion integer square root (kernel-reducible, unlike
the library's well-founded one); `isqrtFuel n n` is `Nat.sqrt n`. -/
def isqrtFuel : ℕ → ℕ → ℕ
  | 0, _ => 0
  | fuel + 1, n =>
    if n = 0 then 0
    else
      let r := 2 * isqrtFuel fuel (n / 4)
      if (r + 1) * (r + 1) ≤ n then r + 1 else r

/-- Integer square root (agrees with `Nat.sqrt`, see `isqrt_eq_sqrt`). -/
def isqrt (n : ℕ) : ℕ := isqrtFuel n n

/-- Rational square root: square roots of numerator and denominator; equals
the real square root whenever the argument is the square of a rational. -/
def ratSqrt (q : ℚ) : ℚ := mkRat (isqrt q.num.toNat) (isqrt q.den)

/-- `std::hypot`, modelled with the rational square root; exact whenever the
sum of squares is the square of a rational, which holds at every concrete
input below. -/
def hypotQ (a b : ℚ) : ℚ := ratSqrt (a * a + b * b)

/-- `Tracker::centre_dist`: Euclidean distance between the centre of
detection `d` and the centre of track `t`'s rectangle. -/
def centre_dist (d : Detection) (t : Track) : ℚ :=
  let cx_d := d.x + d.w * (1/2)
  let cy_d := d.y + d.h * (1/2)
  let cx_t := t.rect.getD 0 0 + t.rect.getD 2 0 * (1/2)
  let cy_t := t.rect.getD 1 0 + t.rect.getD 3 0 * (1/2)
  hypotQ (cx_d - cx_t) (cy_d - cy_t)

/-- `Tracker::iou`: intersection-over-union of track `t`'s rectangle and
detection `d`; zero when the union is not positive. -/
def iou (t : Track) (d : Detection) : ℚ :=
  let ax := t.rect.getD 0 0
  let ay := t.rect.getD 1 0
  let aw := t.rect.getD 2 0
  let ah := t.rect.getD 3 0
  let x1 := max ax d.x
  let y1 := max ay d.y
  let x2 := min (ax + aw) (d.x + d.w)
  let y2 := min (ay + ah) (d.y + d.h)
  let inter := max 0 (x2 - x1) * max 0 (y2 - y1)
  let uni := aw * ah + d.w * d.h - inter
  if uni > 0 then inter / uni else 0

/-- `Tracker::det2meas`: a detection as a measurement vector `[x, y, w, h]`. -/
def det2meas (d : Detection) : List ℚ := [d.x, d.y, d.w, d.h]

/-- `Tracker::set_F`: write `dt` into entries `(0,2)`, `(1,3)`, `(4,6)`,
`(5,7)` of the transition matrix. -/
def set_F (kf : KalmanFilter) (dt : ℚ) : KalmanFilter :=
  let F := kf.transitionMatrix
  let F := setEntry F 0 2 dt
  let F := setEntry F 1 3 dt
  let F := setEntry F 4 6 dt
  let F := setEntry F 5 7 dt
  { kf with transitionMatrix := F }

/-- `Tracker::set_Q`: constant-acceleration process noise for the
position/velocity block and the size/size-rate block. -/
def set_Q (kf : KalmanFilter) (dt : ℚ) (s : ℚ := 1/100) : KalmanFilter :=
  let dt2 := dt * dt
  let dt3 := dt2 * dt
  let dt4 := dt2 * dt2
  let Q := zerosM 8 8
  let Q := setEntry Q 0 0 (dt4 / 4 * s)
  let Q := setEntry Q 1 1 (dt4 / 4 * s)
  let Q := setEntry Q 0 2 (dt3 / 2 * s)
  let Q := setEntry Q 1 3 (dt3 / 2 * s)
  let Q := setEntry Q 2 0 (dt3 / 2 * s)
  let Q := setEntry Q 3 1 (dt3 / 2 * s)
  let Q := setEntry Q 2 2 (dt2 * s)
  let Q := setEntry Q 3 3 (dt2 * s)
  let Q := setEntry Q 4 4 (dt4 / 4 * s)
  let Q := setEntry Q 5 5 (dt4 / 4 * s)
  let Q := setEntry Q 4 6 (dt3 / 2 * s)
  let Q := setEntry Q 5 7 (dt3 / 2 * s)
  let Q := setEntry Q 6 4 (dt3 / 2 * s)
  let Q := setEntry Q 7 5 (dt3 / 2 * s)
  let Q := setEntry Q 6 6 (dt2 * s)
  let Q := setEntry Q 7 7 (dt2 * s)
  { kf with processNoiseCov := Q }

/-- `Tracker::create_kf`: fresh 8-state filter for detection `d` —
transition with unit velocity coupling, measurement selecting
`(x, y, w, h)` from indices `(0, 1, 4, 5)`, state `(x, y, 0, 0, w, h, 0, 0)`,
identity initial covariance, `R = 10⁻² I`, and `Q` for `dt = 1`. -/
def create_kf (d : Detection) : KalmanFilter :=
  let F : Mat :=
    [[1, 0, 1, 0, 0, 0, 0, 0],
     [0, 1, 0, 1, 0, 0, 0, 0],
     [0, 0, 1, 0, 0, 0, 0, 0],
     [0, 0, 0, 1, 0, 0, 0, 0],
     [0, 0, 0, 0, 1, 0, 1, 0],
     [0, 0, 0, 0, 0, 1, 0, 1],
     [0, 0, 0, 0, 0, 0, 1, 0],
     [0, 0, 0, 0, 0, 0, 0, 1]]
  let H := setEntry (setEntry (setEntry (setEntry (zerosM 4 8) 0 0 1) 1 1 1) 2 4 1) 3 5 1
  let kf : KalmanFilter :=
    { statePost := [d.x, d.y, 0, 0, d.w, d.h, 0, 0]
      errorCovPost := eyeM 8
      transitionMatrix := F
      processNoiseCov := zerosM 8 8
      measurementMatrix := H
      measurementNoiseCov := matScale (1/100) (eyeM 4) }
  set_Q kf 1

/-! ## The single-header Kuhn–Munkres solver (`hungarian.hpp`)

State of the e-maxx style solver: dual potentials `u`, `v`, the column
matching `p` (`p[j]` = row matched to column `j`, `0` = free, with `p[0]`
holding the row being inserted), the parent column `way`, the Dijkstra
labels `minv` (`none` models `+∞`), the visited set `used`, and the current
column `j0`.  All lists have length `n + 1`; columns and rows are 1-based
as in the source. -/
structure HState where
  u : List ℚ
  v : List ℚ
  p : List ℕ
  way : List ℕ
  minv : List (Option ℚ)
  used : List Bool
  j0 : ℕ
deriving DecidableEq, Repr

/-- One iteration of the scan `for (j = 1..n) if (!used[j]) {...}`:
update `minv[j]`/`way[j]` with the reduced cost of `(i0, j)`, then fold
`minv[j]` into the running minimum `delta`/`j1`. -/
def scanFold (cost : Mat) (u v : List ℚ) (used : List Bool) (i0 j0 : ℕ)
    (acc : List (Option ℚ) × List ℕ × Option ℚ × ℕ) (j : ℕ) :
    List (Option ℚ) × List ℕ × Option ℚ × ℕ :=
  let (minv, way, delta, j1) := acc
  if used.getD j false then (minv, way, delta, j1)
  else
    let cur := getEntry cost (i0 - 1) (j - 1) - u.getD i0 0 - v.getD j 0
    let upd : Bool :=
      match minv.getD j none with
      | none => true
      | some m => decide (cur < m)
    let minv := if upd then minv.set j (some cur) else minv
    let way := if upd then way.set j j0 else way
    match minv.getD j none, delta with
    | some m, none => (minv, way, some m, j)
    | some m, some dlt =>
        if m < dlt then (minv, way, some m, j) else (minv, way, delta, j1)
    | none, _ => (minv, way, delta, j1)

/-- The body of the potential-update loop `for (j = 0..n)`: at a used
column `j`, raise `u[p[j]]` and lower `v[j]` by `delta`; at an unused one,
lower `minv[j]` (`+∞` stays `+∞`). -/
def potStep (pp : List ℕ) (usedL : List Bool) (dlt : ℚ)
    (acc : List ℚ × List ℚ × List (Option ℚ)) (j : ℕ) :
    List ℚ × List ℚ × List (Option ℚ) :=
  let (u, v, mv) := acc
  if usedL.getD j false then
    let pj := pp.getD j 0
    (u.set pj (u.getD pj 0 + dlt), v.set j (v.getD j 0 - dlt), mv)
  else (u, v, mv.set j ((mv.getD j none).map (· - dlt)))

/-- One iteration of the solver's `do {...} while (p[j0] != 0)` body:
mark `j0` used, scan the unused columns from row `i0 = p[j0]`, then apply
the potential update with `delta` and move to the minimising column `j1`.
When every column `1..n` is already used, `delta` stays `+∞`; the C code
never reaches that state on a finite cost matrix (the update would be
meaningless there), and the model then leaves the potentials unchanged. -/
def innerStep (cost : Mat) (n : ℕ) (s : HState) : HState :=
  let used := s.used.set s.j0 true
  let i0 := s.p.getD s.j0 0
  let scanned := ((List.range n).map (· + 1)).foldl
    (scanFold cost s.u s.v used i0 s.j0) (s.minv, s.way, none, 0)
  let minv := scanned.1
  let way := scanned.2.1
  let delta := scanned.2.2.1
  let j1 := scanned.2.2.2
  match delta with
  | some dlt =>
    let upd := (List.range (n + 1)).foldl (potStep s.p used dlt) (s.u, s.v, minv)
    { u := upd.1, v := upd.2.1, p := s.p, way := way, minv := upd.2.2,
      used := used, j0 := j1 }
  | none => { s with used := used, way := way, minv := minv, j0 := j1 }

/-- The solver's inner `do {...} while (p[j0] != 0)` loop, fuelled; the fuel
`n + 1` passed by callers is shown sufficient in the proofs below. -/
def innerLoop (cost : Mat) (n : ℕ) : ℕ → HState → HState
  | 0, s => s
  | fuel + 1, s =>
    let s2 := innerStep cost n s
    if s2.p.getD s2.j0 0 ≠ 0 then innerLoop cost n fuel s2 else s2

/-- The augmenting pass `do { j1 = way[j0]; p[j0] = p[j1]; j0 = j1; } while (j0)`. -/
def augmentLoop (way : List ℕ) : ℕ → ℕ → List ℕ → List ℕ
  | 0, _, p => p
  | fuel + 1, j0, p =>
    let j1 := way.getD j0 0
    let p := p.set j0 (p.getD j1 0)
    if j1 ≠ 0 then augmentLoop way fuel j1 p else p

/-- Duals and matching threaded through the outer `for (i = 1..n)` loop. -/
structure OuterState where
  u : List ℚ
  v : List ℚ
  p : List ℕ
  way : List ℕ
deriving DecidableEq, Repr

/-- Insertion of row `i`: seed `p[0] = i`, reset `minv` and `used`, run the
Dijkstra loop, then flip the matching along the augmenting path. -/
def hungarianRow (cost : Mat) (n : ℕ) (os : OuterState) (i : ℕ) : OuterState :=
  let s0 : HState :=
    { u := os.u, v := os.v, p := os.p.set 0 i, way := os.way,
      minv := List.replicate (n + 1) none,
      used := List.replicate (n + 1) false, j0 := 0 }
  let s1 := innerLoop cost n (n + 1) s0
  let p2 := augmentLoop s1.way (n + 1) s1.j0 s1.p
  { u := s1.u, v := s1.v, p := p2, way := s1.way }

/-- `hungarian` of `hungarian.hpp`: minimum-cost perfect matching on the
square matrix `cost`; returns `rowsol` (column assigned to each row,
`-1` initialised) and the reported total `-v[0]`. -/
def hungarian (cost : Mat) : List ℤ × ℚ :=
  let n := cost.length
  let os0 : OuterState :=
    { u := List.replicate (n + 1) 0, v := List.replicate (n + 1) 0,
      p := List.replicate (n + 1) 0, way := List.replicate (n + 1) 0 }
  let osF := ((List.range n).map (· + 1)).foldl (hungarianRow cost n) os0
  let rowsol := ((List.range n).map (· + 1)).foldl
    (fun (rs : List ℤ) j =>
      if osF.p.getD j 0 ≠ 0 then rs.set (osF.p.getD j 0 - 1) (Int.ofNat (j - 1)) else rs)
    (List.replicate n (-1 : ℤ))
  (rowsol, -(osF.v.getD 0 0))

/-! ## The tracker engine (`Tracker::step`) -/

/-- The gating sentinel `BIG = 1e6` of `Tracker::step`. -/
def BIG : ℚ := 1000000

/-- Placeholder detection for out-of-range `getD` reads (never hit at the
indices used). -/
def dDet : Detection := ⟨0, 0, 0, 0⟩

/-- Placeholder filter for out-of-range `getD` reads. -/
def dKF : KalmanFilter := ⟨[], [], [], [], [], []⟩

/-- Placeholder track for out-of-range `getD` reads. -/
def dTrack : Track := { kf := dKF, rect := [] }

/-- `Tracker` data members: gating distance, cost weight, coasting bound,
the identity counter and the owned track list. -/
structure Tracker where
  max_dist_ : ℚ
  alpha_ : ℚ
  max_age_ : ℤ
  next_id_ : ℤ
  tracks_ : List Track
deriving DecidableEq, Repr

/-- The `Tracker` constructor (defaults `max_dist = 0.15`, `max_age = 5`,
`alpha = 0.7` in the header): counter starts at `0`, no tracks. -/
def Tracker.init (max_dist : ℚ) (max_age : ℤ) (alpha : ℚ) : Tracker :=
  ⟨max_dist, alpha, max_age, 0, []⟩

/-- The degenerate-time guard `if (dt <= 0) dt = 1e-6;`. -/
def dtGuard (dt : ℚ) : ℚ := if dt ≤ 0 then 1 / 1000000 else dt

/-- The predict phase of `Tracker::step` for one track: rebuild `F(dt)` and
`Q(dt)`, predict, refresh `rect` from predicted state indices
`(0, 1, 4, 5)`, and bump both counters. -/
def predictTrack (ts : ℚ) (t : Track) : Track :=
  let dt := dtGuard (ts - t.last_ts)
  let kf1 := set_Q (set_F t.kf dt) dt
  let pr := kf1.predict
  { t with
    kf := pr.2
    rect := [pr.1.getD 0 0, pr.1.getD 1 0, pr.1.getD 4 0, pr.1.getD 5 0]
    age := t.age + 1
    time_since_update := t.time_since_update + 1 }

/-- The body of the cost-matrix double loop: compute `centre_dist`, gate by
`max_dist`, compute `iou`, gate by `0.01`, else write the blended cost. -/
def costAssign (md a : ℚ) (tracks : List Track) (dets : List Detection)
    (c : Mat) (ti di : ℕ) : Mat :=
  let t := tracks.getD ti dTrack
  let d := dets.getD di dDet
  let dist := centre_dist d t
  if dist > md then c
  else
    let i := iou t d
    if i < 1 / 100 then c
    else setEntry c ti di (a * (1 - i) + (1 - a) * dist)

/-- The `N × N` cost matrix of `Tracker::step`: initialised to `BIG`, real
(track, detection) cells written by the gated double loop, then the padding
rows `i ≥ nT` and columns `j ≥ nD` zeroed. -/
def buildCost (md a : ℚ) (tracks : List Track) (dets : List Detection)
    (nT nD N : ℕ) : Mat :=
  let c0 : Mat := List.replicate N (List.replicate N BIG)
  let c1 := (List.range nT).foldl
    (fun c ti => (List.range nD).foldl
      (fun c di => costAssign md a tracks dets c ti di) c) c0
  let c2 := (List.range' nT (N - nT)).foldl
    (fun (c : Mat) i => c.set i (List.replicate N 0)) c1
  (List.range N).foldl
    (fun c i => (List.range' nD (N - nD)).foldl (fun c j => setEntry c i j 0) c) c2

/-- The match-recording loop: for each row `i < nT` with `j = assign[i]`,
record `(i, j)` in `tr2det`/`det2tr` when `0 ≤ j < nD` and
`cost[i][j] < BIG`. -/
def recordMatches (cost : Mat) (assign : List ℤ) (nT nD : ℕ) :
    List ℤ × List ℤ :=
  (List.range nT).foldl
    (fun (acc : List ℤ × List ℤ) i =>
      let j := assign.getD i (-1)
      if 0 ≤ j ∧ j < (nD : ℤ) ∧ getEntry cost i j.toNat < BIG then
        (acc.1.set i j, acc.2.set j.toNat (Int.ofNat i))
      else acc)
    (List.replicate nT (-1), List.replicate nD (-1))

/-- The update phase for one matched track: correct with the detection's
measurement, refresh `rect` from corrected state indices `(0, 1, 4, 5)`,
stamp `last_ts`, reset `time_since_update`. -/
def correctTrack (ts : ℚ) (d : Detection) (t : Track) : Track :=
  let co := t.kf.correct (det2meas d)
  { t with
    kf := co.2
    rect := [co.1.getD 0 0, co.1.getD 1 0, co.1.getD 4 0, co.1.getD 5 0]
    last_ts := ts
    time_since_update := 0 }

/-- The `// Update matched tracks` loop: track `ti` is corrected with
detection `tr2det[ti]` when that entry is not `-1`. -/
def updateMatched (ts : ℚ) (dets : List Detection) (tr2det : List ℤ)
    (tracks : List Track) : List Track :=
  tracks.mapIdx (fun ti t =>
    let di := tr2det.getD ti (-1)
    if di = -1 then t else correctTrack ts (dets.getD di.toNat dDet) t)

/-- The `// Add unmatched detections as new tracks` loop: each detection
with `det2tr[di] = -1` spawns a track with the next id, a fresh filter, the
raw rectangle, and `last_ts = ts`. -/
def spawnNew (ts : ℚ) (dets : List Detection) (det2tr : List ℤ)
    (nid : ℤ) (tracks : List Track) : List Track × ℤ :=
  (List.range dets.length).foldl
    (fun (acc : List Track × ℤ) di =>
      if det2tr.getD di (-1) = -1 then
        let d := dets.getD di dDet
        (acc.1 ++ [{ id := acc.2, kf := create_kf d, rect := det2meas d,
                     last_ts := ts, age := 0, time_since_update := 0 }],
         acc.2 + 1)
      else acc)
    (tracks, nid)

/-- `Tracker::step`: predict, build the gated cost matrix, solve the
assignment, record the real matches, correct matched tracks, spawn tracks
for unmatched detections, and cull tracks with
`time_since_update > max_age`. -/
def Tracker.step (st : Tracker) (ts : ℚ) (dets : List Detection) : Tracker :=
  let tracks1 := st.tracks_.map (predictTrack ts)
  let nT := tracks1.length
  let nD := dets.length
  let N := max nT nD
  let cost := buildCost st.max_dist_ st.alpha_ tracks1 dets nT nD N
  let assign := (hungarian cost).1
  let md := recordMatches cost assign nT nD
  let tracks2 := updateMatched ts dets md.1 tracks1
  let sp := spawnNew ts dets md.2 st.next_id_ tracks2
  let tracks3 := sp.1.filter (fun t => ! decide (st.max_age_ < t.time_since_update))
  { st with tracks_ := tracks3, next_id_ := sp.2 }

/-! ## The frame driver (`main`, `load_frames`, `save_tracks`) -/

/-- A parsed input frame: timestamp (seconds) and its detections. -/
structure Frame where
  ts : ℚ
  dets : List Detection
deriving DecidableEq, Repr

/-- The driver's main loop: step the tracker on each frame in order and
snapshot `(ts, tracker.tracks())` into the dump. -/
def runDump (st : Tracker) : List Frame → List (ℚ × List Track)
  | [] => []
  | f :: fs =>
    let st2 := st.step f.ts f.dets
    (f.ts, st2.tracks_) :: runDump st2 fs

/-- The tracker states the driver's loop passes through: the initial state
followed by the state after each frame. -/
def runStates (st : Tracker) : List Frame → List Tracker
  | [] => [st]
  | f :: fs => st :: runStates (st.step f.ts f.dets) fs

/-- One `"tracks"` entry written by `save_tracks`: the id and the four
components of the track's `rect`. -/
def trackEntry (t : Track) : ℤ × ℚ × ℚ × ℚ × ℚ :=
  (t.id, t.rect.getD 0 0, t.rect.getD 1 0, t.rect.getD 2 0, t.rect.getD 3 0)

/-- `save_tracks`: one output object per dumped frame, with one entry per
track in the snapshot, in snapshot order. -/
def save_tracks (dump : List (ℚ × List Track)) :
    List (ℚ × List (ℤ × ℚ × ℚ × ℚ × ℚ)) :=
  dump.map (fun e => (e.1, e.2.map trackEntry))

/-- A detection as read from the input JSON, before validation. -/
structure RawDet where
  x : ℚ
  y : ℚ
  w : ℚ
  h : ℚ
deriving DecidableEq, Repr

/-- An input frame as read from the JSON: its timestamp string, the value
`parse_iso` yields for it, and its raw detections. -/
structure RawFrame where
  tsStr : String
  ts : ℚ
  dets : List RawDet
deriving DecidableEq, Repr

/-- The message of the exception `load_frames` throws on a detection with
non-positive width or height (numeric rendering abstracted by `toString`). -/
def invalidMsg (tsStr : String) (w h : ℚ) : String :=
  "Invalid detection at " ++ tsStr ++ " with w=" ++ toString w ++ ", h=" ++ toString h

/-- The inner detection loop of `load_frames`: reject the first detection
with `w ≤ 0 || h ≤ 0`, naming the enclosing frame's timestamp, else keep
every detection in order. -/
def loadDets (tsStr : String) : List RawDet → Except String (List Detection)
  | [] => .ok []
  | d :: ds =>
    if d.w ≤ 0 ∨ d.h ≤ 0 then .error (invalidMsg tsStr d.w d.h)
    else (loadDets tsStr ds).map (fun rest => ⟨d.x, d.y, d.w, d.h⟩ :: rest)

/-- `load_frames`: validate and collect the frames in order; the first
offending detection aborts the whole load. -/
def load_frames : List RawFrame → Except String (List Frame)
  | [] => .ok []
  | f :: fs =>
    match loadDets f.tsStr f.dets with
    | .error e => .error e
    | .ok dets =>
      match load_frames fs with
      | .error e => .error e
      | .ok rest => .ok (⟨f.ts, dets⟩ :: rest)

/-- The whole driver run: load (and validate) the frames, then run the
tracking loop and serialise the dump; an invalid input stream yields the
error and no tracking output. -/
def runMain (md : ℚ) (ma : ℤ) (al : ℚ) (raws : List RawFrame) :
    Except String (List (ℚ × List (ℤ × ℚ × ℚ × ℚ × ℚ))) :=
  (load_frames raws).map (fun frames =>
    save_tracks (runDump (Tracker.init md ma al) frames))

/-! ## Named intermediate stages of `Tracker::step`

The following definitions name the values of the local variables of
`Tracker::step` (`step` itself computes exactly these, see `step_eq`), so
that theorems can speak about the predict, match, update and spawn phases. -/

/-- The track list after the predict phase of `step`. -/
def stepPredicted (st : Tracker) (ts : ℚ) : List Track :=
  st.tracks_.map (predictTrack ts)

/-- The cost matrix `step` hands to the assignment solver. -/
def stepCost (st : Tracker) (ts : ℚ) (dets : List Detection) : Mat :=
  buildCost st.max_dist_ st.alpha_ (stepPredicted st ts) dets
    (stepPredicted st ts).length dets.length
    (max (stepPredicted st ts).length dets.length)

/-- The `(tr2det, det2tr)` association tables `step` records. -/
def stepMatches (st : Tracker) (ts : ℚ) (dets : List Detection) :
    List ℤ × List ℤ :=
  recordMatches (stepCost st ts dets) ((hungarian (stepCost st ts dets)).1)
    (stepPredicted st ts).length dets.length

/-- The track list after the correction phase of `step`. -/
def stepUpdated (st : Tracker) (ts : ℚ) (dets : List Detection) : List Track :=
  updateMatched ts dets (stepMatches st ts dets).1 (stepPredicted st ts)

/-- Track list and counter after the spawn phase of `step`. -/
def stepSpawnedPair (st : Tracker) (ts : ℚ) (dets : List Detection) :
    List Track × ℤ :=
  spawnNew ts dets (stepMatches st ts dets).2 st.next_id_ (stepUpdated st ts dets)

/-- Only the tracks freshly spawned during this `step`. -/
def stepNewTracks (st : Tracker) (ts : ℚ) (dets : List Detection) : List Track :=
  (spawnNew ts dets (stepMatches st ts dets).2 st.next_id_ []).1

/-- The survivor predicate of the cull phase. -/
def keepTrack (ma : ℤ) (t : Track) : Bool := ! decide (ma < t.time_since_update)

/-- Modelled from the spec §4.1: the transition matrix `F(dt)`, the `8 × 8`
identity except `F[0,2] = F[1,3] = F[4,6] = F[5,7] = dt`; stated separately
from the code's `set_F`/`create_kf` so the two can be compared. -/
def Fmat (dt : ℚ) : Mat :=
  [[1, 0, dt, 0, 0, 0, 0, 0],
   [0, 1, 0, dt, 0, 0, 0, 0],
   [0, 0, 1, 0, 0, 0, 0, 0],
   [0, 0, 0, 1, 0, 0, 0, 0],
   [0, 0, 0, 0, 1, 0, dt, 0],
   [0, 0, 0, 0, 0, 1, 0, dt],
   [0, 0, 0, 0, 0, 0, 1, 0],
   [0, 0, 0, 0, 0, 0, 0, 1]]

/-- A track whose filter carries a transition matrix of the shape `F(dt)`;
every track the engine ever owns has this shape. -/
def FShape (t : Track) : Prop := ∃ d : ℚ, t.kf.transitionMatrix = Fmat d

/-- Identity-allocation invariant of a tracker state: the counter is
non-negative, every owned track's id lies in `[0, next_id_)` and ids are
pairwise distinct. -/
def StepInv (st : Tracker) : Prop :=
  0 ≤ st.next_id_ ∧
    (∀ t ∈ st.tracks_, 0 ≤ t.id ∧ t.id < st.next_id_) ∧
    (st.tracks_.map Track.id).Nodup

/-- Total cost of an assignment `sol` (row `i` to column `sol[i]`) on a
square cost matrix. -/
def solCost (cost : Mat) (sol : List ℤ) : ℚ :=
  ∑ i ∈ Finset.range cost.length, getEntry cost i (sol.getD i (-1)).toNat

/-! ## Concrete scenario inputs used by counterexamples and witnesses -/

/-- The tracker with the documented default parameters
(`max_dist = 0.15`, `max_age = 5`, `alpha = 0.7`). -/
def tracker0 : Tracker := Tracker.init (15/100) 5 (7/10)

/-- A single stationary detection. -/
def detA : Detection := ⟨1/2, 1/2, 1/10, 1/10⟩

/-- A detection frame followed by an empty frame: the surviving track
coasts through frame 1, which has no detections. -/
def framesA : List Frame := [⟨0, [detA]⟩, ⟨1, []⟩]

/-- Left detection of the two-object scenario. -/
def detL : Detection := ⟨1/10, 1/2, 1/10, 1/10⟩

/-- Right detection of the two-object scenario (same row, `0.4` apart, so
the cross pairs are gated while aligned pairs coincide). -/
def detR : Detection := ⟨1/2, 1/2, 1/10, 1/10⟩

/-- Frame 2 of the two-object scenario presents the same two rectangles in
the opposite order. -/
def detsSwapped : List Detection := [detR, detL]

/-- State after frame 1 of the two-object scenario: track 0 at `detL`,
track 1 at `detR`. -/
def stLR : Tracker := tracker0.step 0 [detL, detR]

/-- The track spawned from `detA` at time 0, as `Tracker::step` builds it. -/
def trackA0 : Track :=
  { id := 0, kf := create_kf detA, rect := det2meas detA, last_ts := 0 }

/-- A concrete 2×2 non-negative cost matrix exercising the solver. -/
def ccostC2 : Mat := [[0, 1], [1, 0]]

/-! ## Proof-side notions for the assignment solver

The solver works 1-based: row `i` and column `j` of the mathematical
problem are entries `(i-1, j-1)` of the cost matrix, and index `0` of the
working arrays is special. -/

/-- The cost entry for 1-based row `i` and column `j`. -/
def cEnt (cost : Mat) (i j : ℕ) : ℚ := getEntry cost (i - 1) (j - 1)

/-- Reduced cost of column `j` against row `i0` under the current duals —
the `cur` of the solver's scan. -/
def scanCur (cost : Mat) (u v : List ℚ) (i0 j : ℕ) : ℚ :=
  cEnt cost i0 j - u.getD i0 0 - v.getD j 0

/-- Value of `minv[j]` after the scan of row `i0` visits unused column `j`. -/
def scanNewMinv (cost : Mat) (u v : List ℚ) (i0 : ℕ)
    (minv0 : List (Option ℚ)) (j : ℕ) : ℚ :=
  match minv0.getD j none with
  | none => scanCur cost u v i0 j
  | some m => if scanCur cost u v i0 j < m then scanCur cost u v i0 j else m

/-- Value of `way[j]` after the scan of row `i0` visits unused column `j`. -/
def scanNewWay (cost : Mat) (u v : List ℚ) (i0 j0 : ℕ)
    (minv0 : List (Option ℚ)) (way0 : List ℕ) (j : ℕ) : ℕ :=
  match minv0.getD j none with
  | none => j0
  | some m => if scanCur cost u v i0 j < m then j0 else way0.getD j 0

/-- One step of the running minimum the scan keeps in `(delta, j1)`. -/
def minStep (cost : Mat) (u v : List ℚ) (used : List Bool) (i0 : ℕ)
    (minv0 : List (Option ℚ)) (acc : Option ℚ × ℕ) (j : ℕ) : Option ℚ × ℕ :=
  if used.getD j false then acc
  else
    match acc.1 with
    | none => (some (scanNewMinv cost u v i0 minv0 j), j)
    | some d =>
      if scanNewMinv cost u v i0 minv0 j < d
      then (some (scanNewMinv cost u v i0 minv0 j), j) else acc

/-- The running minimum the scan keeps in `(delta, j1)`, factored out of
`scanFold`: it folds the final label `scanNewMinv` of each unused column. -/
def minFold (cost : Mat) (u v : List ℚ) (used : List Bool) (i0 : ℕ)
    (minv0 : List (Option ℚ)) (js : List ℕ) (acc : Option ℚ × ℕ) :
    Option ℚ × ℕ :=
  js.foldl (minStep cost u v used i0 minv0) acc

/-- The augmenting chain: the columns visited from `x` following `way`
until a column whose `way` parent is `0`. -/
def chainList (way : List ℕ) : ℕ → ℕ → List ℕ
  | 0, x => [x]
  | fuel + 1, x =>
    x :: (if way.getD x 0 = 0 then [] else chainList way fuel (way.getD x 0))

/-- The chain from `x` reaches its end (a column with parent `0`) within
`fuel` steps. -/
def chainDone (way : List ℕ) : ℕ → ℕ → Bool
  | 0, x => way.getD x 0 = 0
  | fuel + 1, x => way.getD x 0 = 0 || chainDone way fuel (way.getD x 0)

/-- The partial matching of the first `k` rows: column `j` is matched to
row `p[j]` (`0` = free), row values stay in `[1, k]`, distinct columns hold
distinct rows, and every row in `[1, k]` is held by some column. -/
structure MatchInv (n k : ℕ) (p : List ℕ) : Prop where
  bound : ∀ j, 1 ≤ j → j ≤ n → p.getD j 0 ≤ k
  inj : ∀ j j2, 1 ≤ j → j ≤ n → 1 ≤ j2 → j2 ≤ n → p.getD j 0 ≠ 0 →
    p.getD j 0 = p.getD j2 0 → j = j2
  surj : ∀ i, 1 ≤ i → i ≤ k → ∃ j, 1 ≤ j ∧ j ≤ n ∧ p.getD j 0 = i

/-- The dual certificate over the first `k` rows: feasibility
`u[i] + v[j] ≤ c(i,j)`, complementary slackness on matched pairs,
non-positive column potentials, and untouched row potentials beyond `k`. -/
structure DualInv (cost : Mat) (n k : ℕ) (u v : List ℚ) (p : List ℕ) : Prop where
  feas : ∀ i j, 1 ≤ i → i ≤ k → 1 ≤ j → j ≤ n →
    u.getD i 0 + v.getD j 0 ≤ cEnt cost i j
  tight : ∀ j, 1 ≤ j → j ≤ n → p.getD j 0 ≠ 0 →
    u.getD (p.getD j 0) 0 + v.getD j 0 = cEnt cost (p.getD j 0) j
  vnp : ∀ j, j ≤ n → v.getD j 0 ≤ 0
  uhz : ∀ i, k < i → u.getD i 0 = 0

/-- Invariant of the outer loop after the first `k` rows are inserted. -/
structure OsInv (cost : Mat) (n k : ℕ) (os : OuterState) : Prop where
  ulen : os.u.length = n + 1
  vlen : os.v.length = n + 1
  plen : os.p.length = n + 1
  wlen : os.way.length = n + 1
  mtch : MatchInv n k os.p
  dual : DualInv cost n k os.u os.v os.p

/-- Invariant of the solver's Dijkstra loop at its `while` test, during the
insertion of row `k`.  `ord` lists the used columns in marking order
(column `0` first); `j0` is the pending column just selected. -/
structure InnerInv (cost : Mat) (n k : ℕ) (ord : List ℕ) (s : HState) : Prop where
  ulen : s.u.length = n + 1
  vlen : s.v.length = n + 1
  plen : s.p.length = n + 1
  wlen : s.way.length = n + 1
  mlen : s.minv.length = n + 1
  slen : s.used.length = n + 1
  p0 : s.p.getD 0 0 = k
  mtch : MatchInv n (k - 1) s.p
  ordn : ∀ x ∈ ord, x ≤ n
  ordd : ord.Nodup
  ordh : ord.head? = some 0
  usediff : ∀ j, s.used.getD j false = true ↔ j ∈ ord
  ordway : ∀ j ∈ ord, j ≠ 0 →
    s.way.getD j 0 ∈ ord ∧ ord.indexOf (s.way.getD j 0) < ord.indexOf j
  usedp : ∀ j ∈ ord, j ≠ 0 → s.p.getD j 0 ≠ 0
  j0n : 1 ≤ s.j0 ∧ s.j0 ≤ n
  j0u : s.j0 ∉ ord
  j0m : s.minv.getD s.j0 none = some 0
  dual : DualInv cost n k s.u s.v s.p
  wayt : ∀ j ∈ ord, j ≠ 0 →
    s.u.getD (s.p.getD (s.way.getD j 0) 0) 0 + s.v.getD j 0 =
      cEnt cost (s.p.getD (s.way.getD j 0) 0) j
  mw : ∀ j, 1 ≤ j → j ≤ n → j ∉ ord →
    ∃ m, s.minv.getD j none = some m ∧ 0 ≤ m ∧
      (s.way.getD j 0 ∈ ord ∧
        m = cEnt cost (s.p.getD (s.way.getD j 0) 0) j -
          s.u.getD (s.p.getD (s.way.getD j 0) 0) 0 - s.v.getD j 0) ∧
      ∀ j2 ∈ ord, m ≤ cEnt cost (s.p.getD j2 0) j -
        s.u.getD (s.p.getD j2 0) 0 - s.v.getD j 0

/-! ## Supporting lemmas -/

/-- `Tracker.step` is the pipeline of its named stages. -/
theorem step_eq (st : Tracker) (ts : ℚ) (dets : List Detection) :
    st.step ts dets =
      { st with
        tracks_ := (stepSpawnedPair st ts dets).1.filter (keepTrack st.max_age_)
        next_id_ := (stepSpawnedPair st ts dets).2 } := rfl

/-- Reading another index of a list after `set` is unchanged. -/
theorem getD_set_ne {α : Type} (l : List α) (i j : ℕ) (v d : α) (h : i ≠ j) :
    (l.set i v).getD j d = l.getD j d := by
  simp [List.getD_eq_getElem?_getD, List.getElem?_set_ne h]

/-- Reading a within-range index of a list just `set` yields the new value. -/
theorem getD_set_self {α : Type} (l : List α) (i : ℕ) (v d : α)
    (h : i < l.length) : (l.set i v).getD i d = v := by
  simp [List.getD_eq_getElem?_getD, List.getElem?_set_self h]

/-- `getD` of `replicate` is the replicated value at in-range indices. -/
theorem getD_replicate {α : Type} (n i : ℕ) (v d : α) (h : i < n) :
    (List.replicate n v).getD i d = v := by
  simp [List.getD_eq_getElem?_getD, List.getElem?_replicate, h]

/-- Writing one matrix entry leaves every other entry unchanged. -/
theorem getEntry_setEntry_ne (A : Mat) (i j i2 j2 : ℕ) (v : ℚ)
    (h : ¬(i = i2 ∧ j = j2)) :
    getEntry (setEntry A i j v) i2 j2 = getEntry A i2 j2 := by
  unfold getEntry setEntry
  by_cases hi : i = i2
  · subst hi
    have hj : j ≠ j2 := fun hj => h ⟨rfl, hj⟩
    by_cases hlen : i < A.length
    · rw [getD_set_self _ _ _ _ hlen, getD_set_ne _ _ _ _ _ hj]
    · rw [List.set_eq_of_length_le (Nat.le_of_not_lt hlen)]
  · rw [getD_set_ne _ _ _ _ _ hi]

/-! ## C5 — cull bound -/

/-- C5: after every call to `step` returns, every track remaining in the
tracker's track list has `time_since_update ≤ max_age`; no track with
`time_since_update > max_age` survives past the step boundary (the final
phase of `Tracker::step` erases exactly those tracks). -/
theorem c5_cull_bound (st : Tracker) (ts : ℚ) (dets : List Detection) :
    ∀ t ∈ (st.step ts dets).tracks_, t.time_since_update ≤ st.max_age_ := by
  rw [step_eq]
  intro t ht
  have h2 := (List.mem_filter.mp ht).2
  simp only [keepTrack, Bool.not_eq_true', decide_eq_false_iff_not, not_lt] at h2
  exact h2

/-- Witness for C5 at a concrete step: the single spawned track of the
one-detection frame satisfies the bound. -/
theorem c5_cull_bound_witness :
    ((tracker0.step 0 [detA]).tracks_.getD 0 dTrack).time_since_update ≤
      tracker0.max_age_ :=
  c5_cull_bound tracker0 0 [detA] _ (by with_unfolding_all decide)

/-! ## C7 — determinism -/

/-- C7: the whole run is a pure function of the parameters and the input
stream: two runs on equal parameters and equal frame streams produce equal
output dumps (the engine holds no other state and the embedding of
`Tracker::step` and the driver loop is deterministic by construction, as
the C++ uses no randomness, time, or unordered iteration). -/
theorem c7_deterministic (md md2 : ℚ) (ma ma2 : ℤ) (al al2 : ℚ)
    (raws raws2 : List RawFrame) (h1 : md = md2) (h2 : ma = ma2)
    (h3 : al = al2) (h4 : raws = raws2) :
    runMain md ma al raws = runMain md2 ma2 al2 raws2 := by
  subst h1; subst h2; subst h3; subst h4; rfl

/-- Witness for C7: two runs of the driver on the same concrete stream. -/
theorem c7_deterministic_witness :
    runMain (15/100) 5 (7/10) [⟨"2024-01-01T00:00:00", 0, [⟨1/2, 1/2, 1/10, 1/10⟩]⟩] =
      runMain (15/100) 5 (7/10) [⟨"2024-01-01T00:00:00", 0, [⟨1/2, 1/2, 1/10, 1/10⟩]⟩] :=
  c7_deterministic _ _ _ _ _ _ _ _ rfl rfl rfl rfl

/-- A property preserved by every step of a fold holds of the fold. -/
theorem foldl_preserve {α β : Type} (P : β → Prop) (f : β → α → β)
    (l : List α) (b : β) (hb : P b) (hf : ∀ c, P c → ∀ x ∈ l, P (f c x)) :
    P (l.foldl f b) :=
  List.foldlRecOn l f b hb (fun c hc x hx => hf c hc x hx)

/-- Replacing a whole other row leaves an entry unchanged. -/
theorem getEntry_set_row_ne (A : Mat) (i ti di : ℕ) (r : List ℚ)
    (h : i ≠ ti) : getEntry (A.set i r) ti di = getEntry A ti di := by
  unfold getEntry
  rw [getD_set_ne _ _ _ _ _ h]

/-! ## C3 — gating -/

/-- At a gated (track, detection) pair the cost matrix keeps the sentinel
`BIG`: the double loop skips the pair and the padding loops touch only
rows `≥ nT` and columns `≥ nD`. -/
theorem buildCost_gated (md a : ℚ) (tracks : List Track)
    (dets : List Detection) (nT nD N : ℕ) (ti di : ℕ)
    (hti : ti < nT) (hdi : di < nD) (hTN : nT ≤ N) (hDN : nD ≤ N)
    (hg : md < centre_dist (dets.getD di dDet) (tracks.getD ti dTrack) ∨
      iou (tracks.getD ti dTrack) (dets.getD di dDet) < 1 / 100) :
    getEntry (buildCost md a tracks dets nT nD N) ti di = BIG := by
  have base : getEntry (List.replicate N (List.replicate N BIG)) ti di = BIG := by
    unfold getEntry
    rw [getD_replicate _ _ _ _ (lt_of_lt_of_le hti hTN),
      getD_replicate _ _ _ _ (lt_of_lt_of_le hdi hDN)]
  have hca : ∀ c ti' di', getEntry c ti di = BIG →
      getEntry (costAssign md a tracks dets c ti' di') ti di = BIG := by
    intro c ti' di' hc
    unfold costAssign
    dsimp only
    by_cases hpair : ti' = ti ∧ di' = di
    · obtain ⟨rfl, rfl⟩ := hpair
      rcases hg with hgd | hgi
      · rw [if_pos hgd]; exact hc
      · by_cases hd : centre_dist (dets.getD di' dDet) (tracks.getD ti' dTrack) > md
        · rw [if_pos hd]; exact hc
        · rw [if_neg hd, if_pos hgi]; exact hc
    · by_cases hd : centre_dist (dets.getD di' dDet) (tracks.getD ti' dTrack) > md
      · rw [if_pos hd]; exact hc
      · rw [if_neg hd]
        by_cases hio : iou (tracks.getD ti' dTrack) (dets.getD di' dDet) < 1 / 100
        · rw [if_pos hio]; exact hc
        · rw [if_neg hio, getEntry_setEntry_ne _ _ _ _ _ _ hpair]; exact hc
  unfold buildCost
  apply foldl_preserve (fun c => getEntry c ti di = BIG)
  · apply foldl_preserve (fun c => getEntry c ti di = BIG)
    · apply foldl_preserve (fun c => getEntry c ti di = BIG)
      · exact base
      · intro c hc ti' _
        apply foldl_preserve (fun c => getEntry c ti di = BIG)
        · exact hc
        · intro c2 hc2 di' _
          exact hca c2 ti' di' hc2
    · intro c hc i hi
      have hnt : nT ≤ i := (List.mem_range'_1.mp hi).1
      rw [getEntry_set_row_ne _ _ _ _ _ (by omega)]
      exact hc
  · intro c hc i _
    apply foldl_preserve (fun c => getEntry c ti di = BIG)
    · exact hc
    · intro c2 hc2 j hj
      have hnd : nD ≤ j := (List.mem_range'_1.mp hj).1
      rw [getEntry_setEntry_ne _ _ _ _ _ _ (fun hp => by omega)]
      exact hc2

/-- The match-recording loop never records a pair whose cost cell still
holds `BIG` (the guard demands `cost[i][j] < BIG`). -/
theorem recordMatches_gated (cost : Mat) (assign : List ℤ) (nT nD ti di : ℕ)
    (hti : ti < nT) (hdi : di < nD) (hBIG : getEntry cost ti di = BIG) :
    (recordMatches cost assign nT nD).1.getD ti (-1) ≠ (di : ℤ) ∧
      (recordMatches cost assign nT nD).2.getD di (-1) ≠ (ti : ℤ) := by
  unfold recordMatches
  have H := foldl_preserve
    (fun (acc : List ℤ × List ℤ) => acc.1.length = nT ∧ acc.2.length = nD ∧
      acc.1.getD ti (-1) ≠ (di : ℤ) ∧ acc.2.getD di (-1) ≠ (ti : ℤ))
    (fun (acc : List ℤ × List ℤ) i =>
      let j := assign.getD i (-1)
      if 0 ≤ j ∧ j < (nD : ℤ) ∧ getEntry cost i j.toNat < BIG then
        (acc.1.set i j, acc.2.set j.toNat (Int.ofNat i))
      else acc)
    (List.range nT) (List.replicate nT (-1), List.replicate nD (-1))
    ?base ?pres
  · exact ⟨H.2.2.1, H.2.2.2⟩
  case base =>
    refine ⟨by simp, by simp, ?_, ?_⟩
    · rw [getD_replicate _ _ _ _ hti]; omega
    · rw [getD_replicate _ _ _ _ hdi]; omega
  case pres =>
    intro acc hacc i hi
    obtain ⟨hl1, hl2, hv1, hv2⟩ := hacc
    have hiT : i < nT := List.mem_range.mp hi
    dsimp only
    split_ifs with hguard
    · obtain ⟨hj0, hjn, hcost⟩ := hguard
      refine ⟨by simp [hl1], by simp [hl2], ?_, ?_⟩
      · by_cases hcase : i = ti
        · subst hcase
          rw [getD_set_self _ _ _ _ (by omega)]
          intro hjdi
          rw [hjdi] at hcost
          simp only [Int.toNat_natCast] at hcost
          rw [hBIG] at hcost
          exact absurd hcost (lt_irrefl _)
        · rw [getD_set_ne _ _ _ _ _ hcase]; exact hv1
      · by_cases hcase : (assign.getD i (-1)).toNat = di
        · rw [hcase, getD_set_self _ _ _ _ (by omega)]
          intro hit
          have hieq : i = ti := by
            simp only [Int.ofNat_eq_natCast] at hit
            exact_mod_cast hit
          subst hieq
          rw [hcase, hBIG] at hcost
          exact absurd hcost (lt_irrefl _)
        · rw [getD_set_ne _ _ _ _ _ hcase]; exact hv2
    · exact ⟨hl1, hl2, hv1, hv2⟩

/-- C3: a gated pair is never associated.  For every step and every
(track, detection) pair whose centre distance exceeds `max_dist` or whose
IoU is below `0.01` (computed, as in the code, on the track predicted to
the frame's timestamp), the recorded association tables pair neither the
track with that detection nor the detection with that track; since the
correction phase corrects track `ti` only with detection `tr2det[ti]` and
the engine emits no other (id, detection) pairing, the pair is never
associated in any output. -/
theorem c3_gating (st : Tracker) (ts : ℚ) (dets : List Detection) (ti di : ℕ)
    (hti : ti < (stepPredicted st ts).length) (hdi : di < dets.length)
    (hg : st.max_dist_ <
        centre_dist (dets.getD di dDet) ((stepPredicted st ts).getD ti dTrack) ∨
      iou ((stepPredicted st ts).getD ti dTrack) (dets.getD di dDet) < 1 / 100) :
    (stepMatches st ts dets).1.getD ti (-1) ≠ (di : ℤ) ∧
      (stepMatches st ts dets).2.getD di (-1) ≠ (ti : ℤ) := by
  unfold stepMatches
  exact recordMatches_gated _ _ _ _ _ _ hti hdi
    (buildCost_gated _ _ _ _ _ _ _ _ _ hti hdi (le_max_left _ _)
      (le_max_right _ _) hg)

/-- Witness for C3: after frame 1 of the two-object scenario, track 0
(at `detL`) versus a detection at `detR` is `0.4` apart, beyond
`max_dist = 0.15`, and indeed stays unassociated. -/
theorem c3_gating_witness :
    (stepMatches stLR 1 [detR]).1.getD 0 (-1) ≠ ((0 : ℕ) : ℤ) ∧
      (stepMatches stLR 1 [detR]).2.getD 0 (-1) ≠ ((0 : ℕ) : ℤ) :=
  c3_gating stLR 1 [detR] 0 0 (by with_unfolding_all decide)
    (by with_unfolding_all decide) (by with_unfolding_all decide)

/-! ## C8 — transition matrix -/

/-- `set_F` turns any `F(d)`-shaped transition matrix into `F(dt)`. -/
theorem set_F_Fmat (kf : KalmanFilter) (d dt : ℚ)
    (h : kf.transitionMatrix = Fmat d) :
    (set_F kf dt).transitionMatrix = Fmat dt := by
  unfold set_F
  simp only [h, Fmat, setEntry, getEntry]
  rfl

/-- `create_kf` installs the transition matrix `F(1)`. -/
theorem create_kf_F (d : Detection) : (create_kf d).transitionMatrix = Fmat 1 := rfl

/-- The predict phase rebuilds the transition matrix to `F(dt)` with the
guarded time step. -/
theorem predictTrack_F (t : Track) (ts : ℚ) (h : FShape t) :
    (predictTrack ts t).kf.transitionMatrix = Fmat (dtGuard (ts - t.last_ts)) := by
  obtain ⟨d, hd⟩ := h
  unfold predictTrack KalmanFilter.predict set_Q
  dsimp only
  exact set_F_Fmat t.kf d _ hd

/-- A predicted track has an `F(dt)`-shaped filter. -/
theorem predictTrack_FShape (t : Track) (ts : ℚ) (h : FShape t) :
    FShape (predictTrack ts t) :=
  ⟨dtGuard (ts - t.last_ts), predictTrack_F t ts h⟩

/-- The correction phase leaves the transition matrix unchanged. -/
theorem correctTrack_F (t : Track) (ts : ℚ) (d : Detection) :
    (correctTrack ts d t).kf.transitionMatrix = t.kf.transitionMatrix := rfl

/-- Every track of a stepped state has an `F(dt)`-shaped filter provided
the incoming tracks do. -/
theorem step_FShape (st : Tracker) (ts : ℚ) (dets : List Detection)
    (h : ∀ t ∈ st.tracks_, FShape t) :
    ∀ t ∈ (st.step ts dets).tracks_, FShape t := by
  rw [step_eq]
  intro t ht
  have ht2 := (List.mem_filter.mp ht).1
  have hupd : ∀ x ∈ stepUpdated st ts dets, FShape x := by
    intro x hx
    unfold stepUpdated updateMatched at hx
    rw [List.mapIdx_eq_ofFn] at hx
    obtain ⟨i, hi⟩ := (List.mem_ofFn _ _).mp hx
    dsimp only at hi
    have hpred : FShape ((stepPredicted st ts).get i) := by
      have hlen : (i : ℕ) < st.tracks_.length := by
        have hl := i.isLt
        simpa [stepPredicted] using hl
      have hget : (stepPredicted st ts).get i =
          predictTrack ts (st.tracks_.getD (i : ℕ) dTrack) := by
        simp [stepPredicted, List.get_eq_getElem, List.getElem_map,
          List.getD_eq_getElem?_getD, List.getElem?_eq_getElem hlen]
      rw [hget]
      refine predictTrack_FShape _ _ (h _ ?_)
      rw [List.getD_eq_getElem?_getD, List.getElem?_eq_getElem hlen]
      exact List.getElem_mem _
    split at hi
    · rw [← hi]; exact hpred
    · rw [← hi]
      obtain ⟨d', hd'⟩ := hpred
      exact ⟨d', by rw [← hd']; rfl⟩
  have := foldl_preserve (fun (acc : List Track × ℤ) => ∀ x ∈ acc.1, FShape x)
    (fun (acc : List Track × ℤ) di =>
      if (stepMatches st ts dets).2.getD di (-1) = -1 then
        (acc.1 ++ [{ id := acc.2, kf := create_kf (dets.getD di dDet),
                     rect := det2meas (dets.getD di dDet),
                     last_ts := ts, age := 0, time_since_update := 0 }],
         acc.2 + 1)
      else acc)
    (List.range dets.length) (stepUpdated st ts dets, st.next_id_)
    hupd ?pres
  · exact this t ht2
  case pres =>
    intro acc hacc di _
    dsimp only
    split
    · intro x hx
      rcases List.mem_append.mp hx with hx1 | hx2
      · exact hacc x hx1
      · rcases List.mem_singleton.mp hx2 with rfl
        exact ⟨1, create_kf_F _⟩
    · exact hacc

/-- C8: for every time step `dt`, the transition matrix used to predict a
track is the `8 × 8` identity except that entries `(0,2)`, `(1,3)`,
`(4,6)`, `(5,7)` equal `dt` — position and size advance by their own rates
with decoupled dynamics.  Conjuncts: a fresh filter carries `F(1)`; the
predict phase of `step` rebuilds `F(dt)` for the guarded `dt`; `F(dt)` is
exactly the identity-except pattern; and every track the engine ever owns
keeps an `F(dt)`-shaped matrix, so the hypothesis of the second conjunct
holds along every run. -/
theorem c8_transition_matrix :
    (∀ d : Detection, (create_kf d).transitionMatrix = Fmat 1) ∧
    (∀ (t : Track) (ts : ℚ), FShape t →
      (predictTrack ts t).kf.transitionMatrix = Fmat (dtGuard (ts - t.last_ts))) ∧
    (∀ (dt : ℚ) (i j : ℕ), i < 8 → j < 8 →
      getEntry (Fmat dt) i j =
        if (i = 0 ∧ j = 2) ∨ (i = 1 ∧ j = 3) ∨ (i = 4 ∧ j = 6) ∨ (i = 5 ∧ j = 7)
        then dt else if i = j then 1 else 0) ∧
    (∀ (st : Tracker) (ts : ℚ) (dets : List Detection),
      (∀ t ∈ st.tracks_, FShape t) → ∀ t ∈ (st.step ts dets).tracks_, FShape t) := by
  refine ⟨create_kf_F, predictTrack_F, ?_, step_FShape⟩
  intro dt i j hi hj
  interval_cases i <;> interval_cases j <;> simp [Fmat, getEntry]

/-- Witness for C8: the spawned track of the one-detection frame has the
`F(1)` matrix, and predicting it to time 1 rebuilds `F(1)` for `dt = 1`;
the step-preservation conjunct applied to the empty initial state. -/
theorem c8_transition_matrix_witness :
    (predictTrack 1 trackA0).kf.transitionMatrix = Fmat (dtGuard (1 - trackA0.last_ts)) ∧
      (∀ t ∈ (tracker0.step 0 [detA]).tracks_, FShape t) :=
  ⟨c8_transition_matrix.2.1 trackA0 1 ⟨1, create_kf_F detA⟩,
    c8_transition_matrix.2.2.2 tracker0 0 [detA] (by intro t ht; cases ht)⟩

/-! ## C4 — identity allocation -/

/-- The predict phase does not touch ids. -/
theorem stepPredicted_ids (st : Tracker) (ts : ℚ) :
    (stepPredicted st ts).map Track.id = st.tracks_.map Track.id := by
  unfold stepPredicted
  rw [List.map_map]
  rfl

/-- The correction phase does not touch ids. -/
theorem updateMatched_ids (ts : ℚ) (dets : List Detection) (m : List ℤ)
    (tracks : List Track) :
    (updateMatched ts dets m tracks).map Track.id = tracks.map Track.id := by
  unfold updateMatched
  rw [List.mapIdx_eq_ofFn, List.map_ofFn]
  conv_rhs => rw [← List.ofFn_get tracks, List.map_ofFn]
  congr 1
  funext i
  dsimp only [Function.comp]
  split <;> rfl

/-- The spawn phase appends, after the existing tracks, tracks carrying the
consecutive ids `nid, nid+1, …`, and advances the counter by their count. -/
theorem spawnNew_ids (ts : ℚ) (dets : List Detection) (m : List ℤ)
    (nid : ℤ) (tracks : List Track) :
    ∃ k : ℕ, (spawnNew ts dets m nid tracks).2 = nid + k ∧
      (spawnNew ts dets m nid tracks).1.map Track.id =
        tracks.map Track.id ++ List.map (fun j : ℕ => nid + (j : ℤ)) (List.range k) := by
  unfold spawnNew
  apply foldl_preserve (fun (acc : List Track × ℤ) => ∃ k : ℕ,
    acc.2 = nid + k ∧ acc.1.map Track.id =
      tracks.map Track.id ++ List.map (fun j : ℕ => nid + (j : ℤ)) (List.range k))
  · exact ⟨0, by simp, by simp⟩
  · intro acc hacc di _
    obtain ⟨k, hk2, hk1⟩ := hacc
    dsimp only
    split
    · refine ⟨k + 1, by push_cast; omega, ?_⟩
      rw [List.map_append, hk1, List.range_succ, List.map_append,
        List.append_assoc]
      simp [hk2]
    · exact ⟨k, hk2, hk1⟩

/-- `Tracker::step` advances the id counter monotonically. -/
theorem step_next_id_le (st : Tracker) (ts : ℚ) (dets : List Detection) :
    st.next_id_ ≤ (st.step ts dets).next_id_ := by
  obtain ⟨k, hk2, -⟩ := spawnNew_ids ts dets (stepMatches st ts dets).2
    st.next_id_ (stepUpdated st ts dets)
  rw [step_eq]
  dsimp only
  unfold stepSpawnedPair
  omega

/-- The id multiset of the stepped state: surviving old ids (each below the
old counter) followed by the freshly allocated block. -/
theorem step_ids_decomp (st : Tracker) (ts : ℚ) (dets : List Detection) :
    ∃ k : ℕ, (st.step ts dets).next_id_ = st.next_id_ + k ∧
      ((st.step ts dets).tracks_.map Track.id).Sublist
        (st.tracks_.map Track.id ++
          List.map (fun j : ℕ => st.next_id_ + (j : ℤ)) (List.range k)) := by
  obtain ⟨k, hk2, hk1⟩ := spawnNew_ids ts dets (stepMatches st ts dets).2
    st.next_id_ (stepUpdated st ts dets)
  refine ⟨k, by rw [step_eq]; exact hk2, ?_⟩
  rw [step_eq]
  dsimp only
  have hsub : ((stepSpawnedPair st ts dets).1.filter
      (keepTrack st.max_age_)).map Track.id |>.Sublist
      ((stepSpawnedPair st ts dets).1.map Track.id) :=
    (List.filter_sublist _).map Track.id
  have hupd : (stepUpdated st ts dets).map Track.id =
      st.tracks_.map Track.id := by
    unfold stepUpdated
    rw [updateMatched_ids, stepPredicted_ids]
  have : (stepSpawnedPair st ts dets).1.map Track.id =
      st.tracks_.map Track.id ++
        List.map (fun j : ℕ => st.next_id_ + (j : ℤ)) (List.range k) := by
    unfold stepSpawnedPair
    rw [hk1, hupd]
  rw [← this]
  exact hsub

/-- `Tracker::step` preserves the identity-allocation invariant. -/
theorem step_StepInv (st : Tracker) (ts : ℚ) (dets : List Detection)
    (h : StepInv st) : StepInv (st.step ts dets) := by
  obtain ⟨h0, hall, hnd⟩ := h
  obtain ⟨k, hk2, hsub⟩ := step_ids_decomp st ts dets
  have hnext : 0 ≤ (st.step ts dets).next_id_ := by omega
  refine ⟨hnext, ?_, ?_⟩
  · intro t ht
    have hmem : t.id ∈ (st.step ts dets).tracks_.map Track.id :=
      List.mem_map_of_mem Track.id ht
    have := hsub.subset hmem
    rcases List.mem_append.mp this with hold | hnew
    · obtain ⟨t', ht', hid⟩ := List.mem_map.mp hold
      have := hall t' ht'
      omega
    · obtain ⟨j, hj, hid⟩ := List.mem_map.mp hnew
      have hjk := List.mem_range.mp hj
      omega
  · refine hsub.nodup ?_
    refine List.Nodup.append hnd ?_ ?_
    · refine List.Nodup.map ?_ (List.nodup_range k)
      intro a b hab
      dsimp only at hab
      omega
    · intro x hx hx2
      obtain ⟨t', ht', hid⟩ := List.mem_map.mp hx
      obtain ⟨j, hj, hid2⟩ := List.mem_map.mp hx2
      have := hall t' ht'
      omega

/-- C4: ids come from a single counter starting at 0 that only grows over
the run; within every reached state ids are distinct and lie below the
counter (so an id retired by the cull is never reissued), and every track
of a successor state whose id is at least the predecessor's counter — i.e.
every freshly spawned track — has an id strictly larger than every id
present in the predecessor state. -/
theorem c4_identity_allocation (md : ℚ) (ma : ℤ) (al : ℚ)
    (frames : List Frame) :
    (Tracker.init md ma al).next_id_ = 0 ∧
      (∀ s ∈ runStates (Tracker.init md ma al) frames, StepInv s) ∧
      List.Chain'
        (fun s s2 => s.next_id_ ≤ s2.next_id_ ∧
          ∀ t ∈ s2.tracks_, s.next_id_ ≤ t.id →
            ∀ t' ∈ s.tracks_, t'.id < t.id)
        (runStates (Tracker.init md ma al) frames) := by
  have key : ∀ (frames : List Frame) (st : Tracker), StepInv st →
      (∀ s ∈ runStates st frames, StepInv s) ∧
        List.Chain'
          (fun s s2 => s.next_id_ ≤ s2.next_id_ ∧
            ∀ t ∈ s2.tracks_, s.next_id_ ≤ t.id →
              ∀ t' ∈ s.tracks_, t'.id < t.id)
          (runStates st frames) := by
    intro frames
    induction frames with
    | nil =>
      intro st hst
      exact ⟨by intro s hs; rw [List.mem_singleton.mp hs]; exact hst,
        List.chain'_singleton st⟩
    | cons f fs ih =>
      intro st hst
      have hst2 : StepInv (st.step f.ts f.dets) := step_StepInv st f.ts f.dets hst
      obtain ⟨ihall, ihchain⟩ := ih (st.step f.ts f.dets) hst2
      constructor
      · intro s hs
        rcases List.mem_cons.mp hs with rfl | hs2
        · exact hst
        · exact ihall s hs2
      · rw [show runStates st (f :: fs) =
          st :: runStates (st.step f.ts f.dets) fs from rfl]
        rw [List.chain'_cons']
        refine ⟨?_, ihchain⟩
        intro b hb
        have hbhead : st.step f.ts f.dets = b := by
          cases fs with
          | nil => simpa [runStates] using hb
          | cons g gs => simpa [runStates] using hb
        subst hbhead
        refine ⟨step_next_id_le st f.ts f.dets, ?_⟩
        intro t ht hge t' ht'
        have := hst.2.1 t' ht'
        omega
  obtain ⟨hall, hchain⟩ := key frames (Tracker.init md ma al)
    ⟨le_refl 0, fun t ht => absurd ht (List.not_mem_nil t), List.nodup_nil⟩
  exact ⟨rfl, hall, hchain⟩

/-- Witness for C4 on a concrete two-frame run: the invariant holds in the
final state and the spawned track of frame 1 has an id beyond the initial
counter. -/
theorem c4_identity_allocation_witness :
    StepInv (tracker0.step 0 [detA]) ∧ (Tracker.init (15/100) 5 (7/10)).next_id_ = 0 :=
  ⟨(c4_identity_allocation (15/100) 5 (7/10) [⟨0, [detA]⟩]).2.1
      (tracker0.step 0 [detA])
      (List.mem_cons.mpr (Or.inr (List.mem_singleton.mpr rfl))),
    (c4_identity_allocation (15/100) 5 (7/10) []).1⟩

/-! ## C9 — input validation -/

/-- With every detection strictly positive, the detection loop keeps all
detections, in order. -/
theorem loadDets_ok (tsStr : String) (ds : List RawDet)
    (h : ∀ d ∈ ds, 0 < d.w ∧ 0 < d.h) :
    loadDets tsStr ds = .ok (ds.map (fun d => ⟨d.x, d.y, d.w, d.h⟩)) := by
  induction ds with
  | nil => rfl
  | cons d ds ih =>
    have hd := h d (List.mem_cons_self d ds)
    have hguard : ¬(d.w ≤ 0 ∨ d.h ≤ 0) := by
      push_neg
      exact ⟨hd.1, hd.2⟩
    unfold loadDets
    rw [if_neg hguard, ih (fun x hx => h x (List.mem_cons_of_mem d hx))]
    rfl

/-- With some non-positive detection present, the detection loop throws,
naming the enclosing timestamp. -/
theorem loadDets_error (tsStr : String) (ds : List RawDet)
    (h : ∃ d ∈ ds, d.w ≤ 0 ∨ d.h ≤ 0) :
    ∃ d ∈ ds, (d.w ≤ 0 ∨ d.h ≤ 0) ∧
      loadDets tsStr ds = .error (invalidMsg tsStr d.w d.h) := by
  induction ds with
  | nil => obtain ⟨d, hd, -⟩ := h; cases hd
  | cons d ds ih =>
    by_cases hbad : d.w ≤ 0 ∨ d.h ≤ 0
    · refine ⟨d, List.mem_cons_self d ds, hbad, ?_⟩
      unfold loadDets
      rw [if_pos hbad]
    · obtain ⟨d', hd', hbad', -⟩ | ⟨d', hd', hbad'⟩ :=
        (by
          obtain ⟨x, hx, hbx⟩ := h
          rcases List.mem_cons.mp hx with rfl | hx2
          · exact Or.inl ⟨x, hx, hbx, trivial⟩
          · exact Or.inr ⟨x, hx2, hbx⟩ :
          (∃ d' ∈ d :: ds, (d'.w ≤ 0 ∨ d'.h ≤ 0) ∧ True) ∨
            ∃ d' ∈ ds, d'.w ≤ 0 ∨ d'.h ≤ 0)
      · rcases List.mem_cons.mp hd' with rfl | hd2
        · exact absurd hbad' hbad
        · obtain ⟨d2, hd2m, hb2, herr⟩ := ih ⟨d', hd2, hbad'⟩
          refine ⟨d2, List.mem_cons_of_mem d hd2m, hb2, ?_⟩
          unfold loadDets
          rw [if_neg hbad, herr]
          rfl
      · obtain ⟨d2, hd2m, hb2, herr⟩ := ih ⟨d', hd', hbad'⟩
        refine ⟨d2, List.mem_cons_of_mem d hd2m, hb2, ?_⟩
        unfold loadDets
        rw [if_neg hbad, herr]
        rfl

/-- C9: the driver rejects a stream containing any detection with
`w ≤ 0` or `h ≤ 0` with an error naming the offending frame's timestamp
(`invalidMsg` embeds the timestamp string), and then produces no tracking
output; a stream whose detections are all strictly positive loads with
every frame and detection preserved in order. -/
theorem c9_input_validation :
    (∀ raws : List RawFrame, (∀ f ∈ raws, ∀ d ∈ f.dets, 0 < d.w ∧ 0 < d.h) →
      load_frames raws = .ok (raws.map (fun f =>
        ⟨f.ts, f.dets.map (fun d => ⟨d.x, d.y, d.w, d.h⟩)⟩))) ∧
    (∀ raws : List RawFrame,
      (∃ f ∈ raws, ∃ d ∈ f.dets, d.w ≤ 0 ∨ d.h ≤ 0) →
      ∃ f ∈ raws, ∃ d ∈ f.dets, (d.w ≤ 0 ∨ d.h ≤ 0) ∧
        load_frames raws = .error (invalidMsg f.tsStr d.w d.h) ∧
        ∀ (md : ℚ) (ma : ℤ) (al : ℚ),
          runMain md ma al raws = .error (invalidMsg f.tsStr d.w d.h)) := by
  constructor
  · intro raws h
    induction raws with
    | nil => rfl
    | cons f fs ih =>
      unfold load_frames
      rw [loadDets_ok f.tsStr f.dets (h f (List.mem_cons_self f fs)),
        ih (fun g hg => h g (List.mem_cons_of_mem f hg))]
      rfl
  · intro raws h
    induction raws with
    | nil => obtain ⟨f, hf, -⟩ := h; cases hf
    | cons f fs ih =>
      by_cases hfbad : ∃ d ∈ f.dets, d.w ≤ 0 ∨ d.h ≤ 0
      · obtain ⟨d, hd, hbad, herr⟩ := loadDets_error f.tsStr f.dets hfbad
        refine ⟨f, List.mem_cons_self f fs, d, hd, hbad, ?_, ?_⟩
        · unfold load_frames
          rw [herr]
        · intro md ma al
          unfold runMain load_frames
          rw [herr]
          rfl
      · have hfs : ∃ g ∈ fs, ∃ d ∈ g.dets, d.w ≤ 0 ∨ d.h ≤ 0 := by
          obtain ⟨g, hg, d, hd, hbad⟩ := h
          rcases List.mem_cons.mp hg with rfl | hg2
          · exact absurd ⟨d, hd, hbad⟩ hfbad
          · exact ⟨g, hg2, d, hd, hbad⟩
        obtain ⟨g, hg, d, hd, hbad, herr, hrun⟩ := ih hfs
        have hok : ∀ d ∈ f.dets, 0 < d.w ∧ 0 < d.h := by
          intro d2 hd2
          by_contra hc
          push_neg at hc
          refine hfbad ⟨d2, hd2, ?_⟩
          rcases le_or_lt d2.w 0 with hw | hw
          · exact Or.inl hw
          · exact Or.inr (hc hw)
        refine ⟨g, List.mem_cons_of_mem f hg, d, hd, hbad, ?_, ?_⟩
        · unfold load_frames
          rw [loadDets_ok f.tsStr f.dets hok, herr]
        · intro md ma al
          unfold runMain load_frames
          rw [loadDets_ok f.tsStr f.dets hok, herr]
          rfl

/-- Witness for C9: a valid one-frame stream loads intact, and a stream
with a zero-width detection is rejected with the timestamped message. -/
theorem c9_input_validation_witness :
    load_frames [⟨"2024-01-01T00:00:00", 0, [⟨1/2, 1/2, 1/10, 1/10⟩]⟩] =
        .ok [⟨0, [⟨1/2, 1/2, 1/10, 1/10⟩]⟩] ∧
      ∃ f ∈ [(⟨"2024-01-01T00:00:01", 1, [⟨1/2, 1/2, 0, 1/10⟩]⟩ : RawFrame)],
        ∃ d ∈ f.dets, (d.w ≤ 0 ∨ d.h ≤ 0) ∧
          load_frames [⟨"2024-01-01T00:00:01", 1, [⟨1/2, 1/2, 0, 1/10⟩]⟩] =
            .error (invalidMsg f.tsStr d.w d.h) ∧
          ∀ (md : ℚ) (ma : ℤ) (al : ℚ),
            runMain md ma al [⟨"2024-01-01T00:00:01", 1, [⟨1/2, 1/2, 0, 1/10⟩]⟩] =
              .error (invalidMsg f.tsStr d.w d.h) :=
  ⟨c9_input_validation.1 [⟨"2024-01-01T00:00:00", 0, [⟨1/2, 1/2, 1/10, 1/10⟩]⟩]
      (by with_unfolding_all decide),
    c9_input_validation.2 [⟨"2024-01-01T00:00:01", 1, [⟨1/2, 1/2, 0, 1/10⟩]⟩]
      (by refine ⟨_, List.mem_cons_self _ _, ⟨1/2, 1/2, 0, 1/10⟩,
            List.mem_cons_self _ _, ?_⟩
          exact Or.inl (le_refl 0))⟩

/-! ## C10, C1, C6 — what the driver dumps, and in which order -/

/-- The correction phase at an in-range index: the track is predicted, and
then corrected with detection `tr2det[ti]` exactly when that entry is
not `-1`. -/
theorem stepUpdated_getD (st : Tracker) (ts : ℚ) (dets : List Detection)
    (ti : ℕ) (hti : ti < st.tracks_.length) :
    (stepUpdated st ts dets).getD ti dTrack =
      (if (stepMatches st ts dets).1.getD ti (-1) = -1
       then predictTrack ts (st.tracks_.getD ti dTrack)
       else correctTrack ts
         (dets.getD ((stepMatches st ts dets).1.getD ti (-1)).toNat dDet)
         (predictTrack ts (st.tracks_.getD ti dTrack))) := by
  have hlen : ti < (stepPredicted st ts).length := by
    simpa [stepPredicted] using hti
  have hget : ∀ h2, (stepPredicted st ts).get ⟨ti, h2⟩ =
      predictTrack ts (st.tracks_.getD ti dTrack) := by
    intro h2
    simp [stepPredicted, List.get_eq_getElem, List.getElem_map,
      List.getD_eq_getElem?_getD, List.getElem?_eq_getElem hti]
  unfold stepUpdated updateMatched
  rw [List.mapIdx_eq_ofFn]
  rw [List.getD_eq_getElem?_getD,
    List.getElem?_eq_getElem (by simpa using hlen)]
  rw [List.getElem_ofFn]
  dsimp only
  rw [hget]
  rfl

/-- A fold whose step appends to the first accumulator component a block
depending only on the second component, and evolves the second component
independently of the first, splits off its initial first component. -/
theorem foldl_acc_append {α β γ : Type} (f : List α × β → γ → List α × β)
    (hf : ∀ (tr : List α) (n : β) (x : γ),
      (f (tr, n) x).1 = tr ++ (f ([], n) x).1 ∧
        (f (tr, n) x).2 = (f ([], n) x).2) :
    ∀ (l : List γ) (tr : List α) (n : β),
      (l.foldl f (tr, n)).1 = tr ++ (l.foldl f ([], n)).1 ∧
        (l.foldl f (tr, n)).2 = (l.foldl f ([], n)).2 := by
  intro l
  induction l with
  | nil => intro tr n; simp
  | cons x l ih =>
    intro tr n
    dsimp only [List.foldl_cons]
    obtain ⟨h1, h2⟩ := hf tr n x
    have hpair : f (tr, n) x = (tr ++ (f ([], n) x).1, (f ([], n) x).2) :=
      Prod.ext h1 h2
    have hpair0 : f ([], n) x = ((f ([], n) x).1, (f ([], n) x).2) := rfl
    rw [hpair]
    obtain ⟨ha, hb⟩ := ih (tr ++ (f ([], n) x).1) (f ([], n) x).2
    obtain ⟨hc, hd⟩ := ih (f ([], n) x).1 (f ([], n) x).2
    rw [hpair0]
    constructor
    · rw [ha, hc, List.append_assoc]
    · rw [hb, hd]

/-- Spawning with any starting track list appends the same new tracks the
empty-start spawn produces, and advances the counter identically. -/
theorem spawnNew_append (ts : ℚ) (dets : List Detection) (m : List ℤ)
    (nid : ℤ) (tracks : List Track) :
    (spawnNew ts dets m nid tracks).1 =
        tracks ++ (spawnNew ts dets m nid []).1 ∧
      (spawnNew ts dets m nid tracks).2 = (spawnNew ts dets m nid []).2 := by
  unfold spawnNew
  apply foldl_acc_append
  intro tr n di
  dsimp only
  split
  · exact ⟨by simp, by simp⟩
  · exact ⟨by simp, by simp⟩

/-- Every track the spawn phase creates starts with a zero miss counter. -/
theorem stepNewTracks_tsu (st : Tracker) (ts : ℚ) (dets : List Detection) :
    ∀ t ∈ stepNewTracks st ts dets, t.time_since_update = 0 := by
  unfold stepNewTracks spawnNew
  apply foldl_preserve
    (fun (acc : List Track × ℤ) => ∀ t ∈ acc.1, t.time_since_update = 0)
  · intro t ht; cases ht
  · intro acc hacc di _
    dsimp only
    split
    · intro t ht
      rcases List.mem_append.mp ht with h1 | h2
      · exact hacc t h1
      · rw [List.mem_singleton.mp h2]
    · exact hacc

/-- Every track the spawn phase creates carries the raw rectangle of one of
the frame's detections. -/
theorem stepNewTracks_raw_rect (st : Tracker) (ts : ℚ) (dets : List Detection) :
    ∀ t ∈ stepNewTracks st ts dets, ∃ j, j < dets.length ∧
      t.rect = det2meas (dets.getD j dDet) := by
  unfold stepNewTracks spawnNew
  apply foldl_preserve
    (fun (acc : List Track × ℤ) => ∀ t ∈ acc.1, ∃ j, j < dets.length ∧
      t.rect = det2meas (dets.getD j dDet))
  · intro t ht; cases ht
  · intro acc hacc di hdi
    dsimp only
    split
    · intro t ht
      rcases List.mem_append.mp ht with h1 | h2
      · exact hacc t h1
      · rw [List.mem_singleton.mp h2]
        exact ⟨di, List.mem_range.mp hdi, rfl⟩
    · exact hacc

/-- C10: the driver records, per frame, exactly one output entry per track
alive after that frame's step, in track-list order (coasting tracks
included), and an old track's record after the update phase is its
predicted state when it matched no detection (`tr2det[ti] = -1`, so its
`rect` is the slice `(0,1,4,5)` of the predicted filter state installed by
`predictTrack`) and the corrected state when it matched
(`correctTrack` installs the slice of the corrected filter state). -/
theorem c10_output_entries (st : Tracker) (ts : ℚ) (dets : List Detection) :
    save_tracks (runDump st [⟨ts, dets⟩]) =
        [(ts, (st.step ts dets).tracks_.map trackEntry)] ∧
      ∀ ti, ti < st.tracks_.length →
        (stepUpdated st ts dets).getD ti dTrack =
          (if (stepMatches st ts dets).1.getD ti (-1) = -1
           then predictTrack ts (st.tracks_.getD ti dTrack)
           else correctTrack ts
             (dets.getD ((stepMatches st ts dets).1.getD ti (-1)).toNat dDet)
             (predictTrack ts (st.tracks_.getD ti dTrack))) :=
  ⟨rfl, fun ti hti => stepUpdated_getD st ts dets ti hti⟩

/-- Witness for C10 at the swapped two-detection frame: track 0 matched
detection 1 and was corrected with it. -/
theorem c10_output_entries_witness :
    (stepUpdated stLR 1 detsSwapped).getD 0 dTrack =
      (if (stepMatches stLR 1 detsSwapped).1.getD 0 (-1) = -1
       then predictTrack 1 (stLR.tracks_.getD 0 dTrack)
       else correctTrack 1
         (detsSwapped.getD ((stepMatches stLR 1 detsSwapped).1.getD 0 (-1)).toNat dDet)
         (predictTrack 1 (stLR.tracks_.getD 0 dTrack))) :=
  (c10_output_entries stLR 1 detsSwapped).2 0 (by with_unfolding_all decide)

/-- C1 counterexample: on `framesA` the coasting track is dumped for the
empty frame 1, so that frame emits one entry while having zero input
detections — the emitted count exceeds the input-detection count and the
entry's rectangle (read from the predicted filter state) equals no raw
detection of that frame, refuting the claim as stated. -/
theorem c1_counterexample :
    ¬ (∀ k, k < framesA.length →
        ((save_tracks (runDump tracker0 framesA)).getD k (0, [])).2.length ≤
          (framesA.getD k ⟨0, []⟩).dets.length) :=
  fun h => absurd (h 1 (by decide)) (by with_unfolding_all decide)

/-- C1 amended: each frame's output holds one entry per track alive after
the step — the count equals the alive-track count (it may exceed the
frame's detection count) — and the entries guaranteed to equal a raw input
rectangle are those of tracks spawned this frame, whose `rect` is set to
`det2meas` of their detection. -/
theorem c1_raw_rect_amended (st : Tracker) (ts : ℚ) (dets : List Detection) :
    ((save_tracks (runDump st [⟨ts, dets⟩])).getD 0 (0, [])).2.length =
        (st.step ts dets).tracks_.length ∧
      ∀ t ∈ stepNewTracks st ts dets, ∃ j, j < dets.length ∧
        t.rect = det2meas (dets.getD j dDet) :=
  ⟨List.length_map _ _, stepNewTracks_raw_rect st ts dets⟩

/-- Witness for C1 (amended): the track spawned from `detA` carries the raw
rectangle of detection 0. -/
theorem c1_raw_rect_amended_witness :
    (((save_tracks (runDump tracker0 [⟨0, [detA]⟩])).getD 0 (0, [])).2.length =
        (tracker0.step 0 [detA]).tracks_.length) ∧
      ∃ j, j < [detA].length ∧
        ((stepNewTracks tracker0 0 [detA]).getD 0 dTrack).rect =
          det2meas ([detA].getD j dDet) :=
  ⟨(c1_raw_rect_amended tracker0 0 [detA]).1,
    (c1_raw_rect_amended tracker0 0 [detA]).2 _ (by with_unfolding_all decide)⟩

/-- C6 counterexample: in the swapped two-detection frame both detections
are associated (`det2tr = [1, 0]`), the dump lists the tracks in
track-list order `[0, 1]`, so the entry associated with detection 0 is at
dump position 1 while the entry associated with detection 1 is at dump
position 0 — the output order follows track creation order, not the
frame's detection order, refuting the claim as stated. -/
theorem c6_counterexample :
    (stepMatches stLR 1 detsSwapped).2.getD 0 (-1) = 1 ∧
      (stepMatches stLR 1 detsSwapped).2.getD 1 (-1) = 0 ∧
      ((stLR.step 1 detsSwapped).tracks_.map Track.id = [0, 1]) ∧
      ¬ ((stepMatches stLR 1 detsSwapped).2.getD 0 (-1) <
          (stepMatches stLR 1 detsSwapped).2.getD 1 (-1)) := by
  with_unfolding_all decide

/-- C6 amended: the emitted entries appear in track-list order — the
surviving old tracks in their existing relative order followed by the
tracks spawned this frame in detection order — not in the order of the
frame's input detections. -/
theorem c6_order_amended (st : Tracker) (ts : ℚ) (dets : List Detection)
    (h0 : 0 ≤ st.max_age_) :
    (st.step ts dets).tracks_ =
      (stepUpdated st ts dets).filter (keepTrack st.max_age_) ++
        stepNewTracks st ts dets := by
  rw [step_eq]
  dsimp only
  have hdec := spawnNew_append ts dets (stepMatches st ts dets).2 st.next_id_
    (stepUpdated st ts dets)
  unfold stepSpawnedPair
  rw [hdec.1, List.filter_append]
  congr 1
  apply List.filter_eq_self.mpr
  intro t ht
  have htsu := stepNewTracks_tsu st ts dets t ht
  unfold keepTrack
  simp [htsu]
  omega

/-- Witness for C6 (amended) on the swapped frame. -/
theorem c6_order_amended_witness :
    (stLR.step 1 detsSwapped).tracks_ =
      (stepUpdated stLR 1 detsSwapped).filter (keepTrack stLR.max_age_) ++
        stepNewTracks stLR 1 detsSwapped :=
  c6_order_amended stLR 1 detsSwapped (by with_unfolding_all decide)

/-! ## C2 — the assignment solver

### Scan characterization -/

section ScanSpec

variable (cost : Mat) (u v : List ℚ) (used : List Bool) (i0 j0 : ℕ)
variable (minv0 : List (Option ℚ)) (way0 : List ℕ)

/-- `minStep` skips used columns. -/
theorem minStep_used (acc : Option ℚ × ℕ) (j : ℕ)
    (hu : used.getD j false = true) :
    minStep cost u v used i0 minv0 acc j = acc := by
  unfold minStep
  rw [if_pos hu]

/-- `minStep` seeds an empty minimum from the column's label. -/
theorem minStep_none (jx j : ℕ) (hu : used.getD j false = false) :
    minStep cost u v used i0 minv0 (none, jx) j =
      (some (scanNewMinv cost u v i0 minv0 j), j) := by
  unfold minStep
  rw [hu]
  rfl

/-- `minStep` adopts a strictly smaller label. -/
theorem minStep_some_lt (d : ℚ) (jx j : ℕ) (hu : used.getD j false = false)
    (hlt : scanNewMinv cost u v i0 minv0 j < d) :
    minStep cost u v used i0 minv0 (some d, jx) j =
      (some (scanNewMinv cost u v i0 minv0 j), j) := by
  unfold minStep
  rw [hu]
  rw [if_neg Bool.false_ne_true]
  dsimp only
  rw [if_pos hlt]

/-- `minStep` keeps a minimum not beaten by the column's label. -/
theorem minStep_some_ge (d : ℚ) (jx j : ℕ) (hu : used.getD j false = false)
    (hge : ¬ scanNewMinv cost u v i0 minv0 j < d) :
    minStep cost u v used i0 minv0 (some d, jx) j = (some d, jx) := by
  unfold minStep
  rw [hu]
  rw [if_neg Bool.false_ne_true]
  dsimp only
  rw [if_neg hge]

/-- A `some` accumulator never reverts to `none` and only decreases. -/
theorem minFold_some (js : List ℕ) :
    ∀ (d : ℚ) (jx : ℕ),
      ∃ d2, (minFold cost u v used i0 minv0 js (some d, jx)).1 = some d2 ∧
        d2 ≤ d := by
  induction js with
  | nil => intro d jx; exact ⟨d, rfl, le_refl d⟩
  | cons j rest ih =>
    intro d jx
    rw [show minFold cost u v used i0 minv0 (j :: rest) (some d, jx) =
      minFold cost u v used i0 minv0 rest
        (minStep cost u v used i0 minv0 (some d, jx) j) from rfl]
    by_cases hu : used.getD j false = true
    · rw [minStep_used cost u v used i0 minv0 _ _ hu]
      exact ih d jx
    · have hu2 : used.getD j false = false := by
        cases h : used.getD j false
        · rfl
        · exact absurd h hu
      by_cases hlt : scanNewMinv cost u v i0 minv0 j < d
      · rw [minStep_some_lt cost u v used i0 minv0 _ _ _ hu2 hlt]
        obtain ⟨d2, h2, hle⟩ := ih (scanNewMinv cost u v i0 minv0 j) j
        exact ⟨d2, h2, le_trans hle (le_of_lt hlt)⟩
      · rw [minStep_some_ge cost u v used i0 minv0 _ _ _ hu2 hlt]
        exact ih d jx

/-- If some unused column is scanned, the running minimum ends `some`. -/
theorem minFold_isSome (js : List ℕ) :
    ∀ (acc : Option ℚ × ℕ),
      (∃ j ∈ js, used.getD j false = false) →
      ∃ d, (minFold cost u v used i0 minv0 js acc).1 = some d := by
  induction js with
  | nil => intro acc h; obtain ⟨j, hj, -⟩ := h; cases hj
  | cons j rest ih =>
    intro acc h
    obtain ⟨od, jx⟩ := acc
    rw [show minFold cost u v used i0 minv0 (j :: rest) (od, jx) =
      minFold cost u v used i0 minv0 rest
        (minStep cost u v used i0 minv0 (od, jx) j) from rfl]
    by_cases hu : used.getD j false = true
    · rw [minStep_used cost u v used i0 minv0 _ _ hu]
      obtain ⟨j2, hj2, hju⟩ := h
      rcases List.mem_cons.mp hj2 with rfl | hmem
      · rw [hu] at hju; cases hju
      · exact ih (od, jx) ⟨j2, hmem, hju⟩
    · have hu2 : used.getD j false = false := by
        cases hx : used.getD j false
        · rfl
        · exact absurd hx hu
      cases od with
      | none =>
        rw [minStep_none cost u v used i0 minv0 _ _ hu2]
        obtain ⟨d2, h2, -⟩ :=
          minFold_some cost u v used i0 minv0 rest
            (scanNewMinv cost u v i0 minv0 j) j
        exact ⟨d2, h2⟩
      | some d =>
        by_cases hlt : scanNewMinv cost u v i0 minv0 j < d
        · rw [minStep_some_lt cost u v used i0 minv0 _ _ _ hu2 hlt]
          obtain ⟨d2, h2, -⟩ :=
            minFold_some cost u v used i0 minv0 rest
              (scanNewMinv cost u v i0 minv0 j) j
          exact ⟨d2, h2⟩
        · rw [minStep_some_ge cost u v used i0 minv0 _ _ _ hu2 hlt]
          obtain ⟨d2, h2, -⟩ := minFold_some cost u v used i0 minv0 rest d jx
          exact ⟨d2, h2⟩

/-- The final minimum is below the label of every unused scanned column. -/
theorem minFold_lb (js : List ℕ) :
    ∀ (acc : Option ℚ × ℕ) (j : ℕ), j ∈ js → used.getD j false = false →
      ∀ d, (minFold cost u v used i0 minv0 js acc).1 = some d →
        d ≤ scanNewMinv cost u v i0 minv0 j := by
  induction js with
  | nil => intro acc j hj; cases hj
  | cons j2 rest ih =>
    intro acc j hj hju d hd
    obtain ⟨od, jx⟩ := acc
    rw [show minFold cost u v used i0 minv0 (j2 :: rest) (od, jx) =
      minFold cost u v used i0 minv0 rest
        (minStep cost u v used i0 minv0 (od, jx) j2) from rfl] at hd
    rcases List.mem_cons.mp hj with rfl | hmem
    · cases od with
      | none =>
        rw [minStep_none cost u v used i0 minv0 _ _ hju] at hd
        obtain ⟨d2, h2, hle⟩ :=
          minFold_some cost u v used i0 minv0 rest
            (scanNewMinv cost u v i0 minv0 j) j
        rw [hd] at h2
        cases h2
        exact hle
      | some a =>
        by_cases hlt : scanNewMinv cost u v i0 minv0 j < a
        · rw [minStep_some_lt cost u v used i0 minv0 _ _ _ hju hlt] at hd
          obtain ⟨d2, h2, hle⟩ :=
            minFold_some cost u v used i0 minv0 rest
              (scanNewMinv cost u v i0 minv0 j) j
          rw [hd] at h2
          cases h2
          exact hle
        · rw [minStep_some_ge cost u v used i0 minv0 _ _ _ hju hlt] at hd
          obtain ⟨d2, h2, hle⟩ := minFold_some cost u v used i0 minv0 rest a jx
          rw [hd] at h2
          cases h2
          exact le_trans hle (le_of_not_lt hlt)
    · by_cases hu : used.getD j2 false = true
      · rw [minStep_used cost u v used i0 minv0 _ _ hu] at hd
        exact ih (od, jx) j hmem hju d hd
      · have hu2 : used.getD j2 false = false := by
          cases hx : used.getD j2 false
          · rfl
          · exact absurd hx hu
        cases od with
        | none =>
          rw [minStep_none cost u v used i0 minv0 _ _ hu2] at hd
          exact ih _ j hmem hju d hd
        | some a =>
          by_cases hlt : scanNewMinv cost u v i0 minv0 j2 < a
          · rw [minStep_some_lt cost u v used i0 minv0 _ _ _ hu2 hlt] at hd
            exact ih _ j hmem hju d hd
          · rw [minStep_some_ge cost u v used i0 minv0 _ _ _ hu2 hlt] at hd
            exact ih _ j hmem hju d hd

/-- Where the final minimum comes from: the accumulator unchanged, or an
unused scanned column whose label it equals, which is also the reported
index. -/
theorem minFold_wit (js : List ℕ) :
    ∀ (acc : Option ℚ × ℕ) (d : ℚ),
      (minFold cost u v used i0 minv0 js acc).1 = some d →
      (minFold cost u v used i0 minv0 js acc) = acc ∨
        ∃ j ∈ js, used.getD j false = false ∧
          d = scanNewMinv cost u v i0 minv0 j ∧
          (minFold cost u v used i0 minv0 js acc).2 = j := by
  induction js with
  | nil => intro acc d h; exact Or.inl rfl
  | cons j rest ih =>
    intro acc d hd
    obtain ⟨od, jx⟩ := acc
    have hstep : minFold cost u v used i0 minv0 (j :: rest) (od, jx) =
        minFold cost u v used i0 minv0 rest
          (minStep cost u v used i0 minv0 (od, jx) j) := rfl
    rw [hstep] at hd ⊢
    by_cases hu : used.getD j false = true
    · rw [minStep_used cost u v used i0 minv0 _ _ hu] at hd ⊢
      rcases ih (od, jx) d hd with h | ⟨j2, hj2, hju, hde, hres⟩
      · exact Or.inl h
      · exact Or.inr ⟨j2, List.mem_cons_of_mem j hj2, hju, hde, hres⟩
    · have hu2 : used.getD j false = false := by
        cases hx : used.getD j false
        · rfl
        · exact absurd hx hu
      cases od with
      | none =>
        rw [minStep_none cost u v used i0 minv0 _ _ hu2] at hd ⊢
        rcases ih _ d hd with h | ⟨j2, hj2, hju, hde, hres⟩
        · refine Or.inr ⟨j, List.mem_cons_self j rest, hu2, ?_, ?_⟩
          · have h1 := congrArg Prod.fst h
            dsimp only at h1
            rw [hd] at h1
            cases h1
            rfl
          · have h2 := congrArg Prod.snd h
            dsimp only at h2
            rw [h2]
        · exact Or.inr ⟨j2, List.mem_cons_of_mem j hj2, hju, hde, hres⟩
      | some a =>
        by_cases hlt : scanNewMinv cost u v i0 minv0 j < a
        · rw [minStep_some_lt cost u v used i0 minv0 _ _ _ hu2 hlt] at hd ⊢
          rcases ih _ d hd with h | ⟨j2, hj2, hju, hde, hres⟩
          · refine Or.inr ⟨j, List.mem_cons_self j rest, hu2, ?_, ?_⟩
            · have h1 := congrArg Prod.fst h
              dsimp only at h1
              rw [hd] at h1
              cases h1
              rfl
            · have h2 := congrArg Prod.snd h
              dsimp only at h2
              rw [h2]
          · exact Or.inr ⟨j2, List.mem_cons_of_mem j hj2, hju, hde, hres⟩
        · rw [minStep_some_ge cost u v used i0 minv0 _ _ _ hu2 hlt] at hd ⊢
          rcases ih _ d hd with h | ⟨j2, hj2, hju, hde, hres⟩
          · exact Or.inl h
          · exact Or.inr ⟨j2, List.mem_cons_of_mem j hj2, hju, hde, hres⟩

/-- `scanNewMinv` only reads `minv0` at `j`. -/
theorem scanNewMinv_congr (m1 m2 : List (Option ℚ)) (j : ℕ)
    (h : m1.getD j none = m2.getD j none) :
    scanNewMinv cost u v i0 m1 j = scanNewMinv cost u v i0 m2 j := by
  unfold scanNewMinv
  rw [h]

/-- `scanNewWay` only reads `minv0` and `way0` at `j`. -/
theorem scanNewWay_congr (m1 m2 : List (Option ℚ)) (w1 w2 : List ℕ) (j : ℕ)
    (hm : m1.getD j none = m2.getD j none) (hw : w1.getD j 0 = w2.getD j 0) :
    scanNewWay cost u v i0 j0 m1 w1 j = scanNewWay cost u v i0 j0 m2 w2 j := by
  unfold scanNewWay
  rw [hm, hw]

/-- `minFold` only reads `minv0` at the scanned columns. -/
theorem minFold_congr (js : List ℕ) :
    ∀ (m1 m2 : List (Option ℚ)) (acc : Option ℚ × ℕ),
      (∀ j ∈ js, m1.getD j none = m2.getD j none) →
      minFold cost u v used i0 m1 js acc = minFold cost u v used i0 m2 js acc := by
  induction js with
  | nil => intro m1 m2 acc h; rfl
  | cons j rest ih =>
    intro m1 m2 acc h
    have hj := h j (List.mem_cons_self j rest)
    have hstep : minStep cost u v used i0 m1 acc j =
        minStep cost u v used i0 m2 acc j := by
      unfold minStep
      rw [scanNewMinv_congr cost u v i0 m1 m2 j hj]
    rw [show minFold cost u v used i0 m1 (j :: rest) acc =
      minFold cost u v used i0 m1 rest (minStep cost u v used i0 m1 acc j) from rfl]
    rw [show minFold cost u v used i0 m2 (j :: rest) acc =
      minFold cost u v used i0 m2 rest (minStep cost u v used i0 m2 acc j) from rfl]
    rw [hstep]
    exact ih m1 m2 _ (fun j2 hj2 => h j2 (List.mem_cons_of_mem j hj2))

/-- One step of the solver's scan, characterised: used columns are
skipped; an unused column's labels are rewritten to `scanNewMinv` and
`scanNewWay`, other entries stay, and the running minimum advances by
`minStep`. -/
theorem scanFold_step_used (mv : List (Option ℚ)) (wy : List ℕ)
    (dj : Option ℚ × ℕ) (j : ℕ) (hu : used.getD j false = true) :
    scanFold cost u v used i0 j0 (mv, wy, dj) j = (mv, wy, dj) := by
  unfold scanFold
  rw [hu]
  rfl

/-- One unused step of the solver's scan. -/
theorem scanFold_step_unused (mv : List (Option ℚ)) (wy : List ℕ)
    (dj : Option ℚ × ℕ) (j : ℕ) (hu : used.getD j false = false)
    (hjm : j < mv.length) (hjw : j < wy.length) :
    ∃ mv2 wy2,
      scanFold cost u v used i0 j0 (mv, wy, dj) j =
        (mv2, wy2, minStep cost u v used i0 mv dj j) ∧
      mv2.length = mv.length ∧ wy2.length = wy.length ∧
      mv2.getD j none = some (scanNewMinv cost u v i0 mv j) ∧
      wy2.getD j 0 = scanNewWay cost u v i0 j0 mv wy j ∧
      (∀ j2, j2 ≠ j →
        mv2.getD j2 none = mv.getD j2 none ∧ wy2.getD j2 0 = wy.getD j2 0) := by
  obtain ⟨od, jx⟩ := dj
  unfold scanFold
  rw [hu]
  dsimp only
  rw [if_neg Bool.false_ne_true]
  rw [show getEntry cost (i0 - 1) (j - 1) - u.getD i0 0 - v.getD j 0 =
    scanCur cost u v i0 j from rfl]
  cases hmj : mv.getD j none with
  | none =>
    dsimp only
    rw [if_pos rfl, if_pos rfl]
    have hm2 : (mv.set j (some (scanCur cost u v i0 j))).getD j none =
        some (scanNewMinv cost u v i0 mv j) := by
      rw [getD_set_self _ _ _ _ hjm]
      unfold scanNewMinv
      rw [hmj]
    refine ⟨mv.set j (some (scanCur cost u v i0 j)), wy.set j j0, ?_,
      by simp, by simp, hm2, ?_, ?_⟩
    · rw [hm2]
      unfold minStep
      rw [hu]
      rw [if_neg Bool.false_ne_true]
      cases od with
      | none => rfl
      | some dlt =>
        dsimp only
        unfold scanNewMinv
        rw [hmj]
        split <;> rfl
    · rw [getD_set_self _ _ _ _ hjw]
      unfold scanNewWay
      rw [hmj]
    · intro j2 hj2
      exact ⟨getD_set_ne _ _ _ _ _ (fun h => hj2 h.symm),
        getD_set_ne _ _ _ _ _ (fun h => hj2 h.symm)⟩
  | some m =>
    dsimp only
    by_cases hlt : scanCur cost u v i0 j < m
    · rw [if_pos (by rw [decide_eq_true_iff]; exact hlt),
        if_pos (by rw [decide_eq_true_iff]; exact hlt)]
      have hm2 : (mv.set j (some (scanCur cost u v i0 j))).getD j none =
          some (scanNewMinv cost u v i0 mv j) := by
        rw [getD_set_self _ _ _ _ hjm]
        unfold scanNewMinv
        rw [hmj]
        dsimp only
        rw [if_pos hlt]
      refine ⟨mv.set j (some (scanCur cost u v i0 j)), wy.set j j0, ?_,
        by simp, by simp, hm2, ?_, ?_⟩
      · rw [hm2]
        unfold minStep
        rw [hu]
        rw [if_neg Bool.false_ne_true]
        cases od with
        | none => rfl
        | some dlt =>
          dsimp only
          unfold scanNewMinv
          rw [hmj]
          dsimp only
          rw [if_pos hlt]
          split <;> rfl
      · rw [getD_set_self _ _ _ _ hjw]
        unfold scanNewWay
        rw [hmj]
        dsimp only
        rw [if_pos hlt]
      · intro j2 hj2
        exact ⟨getD_set_ne _ _ _ _ _ (fun h => hj2 h.symm),
          getD_set_ne _ _ _ _ _ (fun h => hj2 h.symm)⟩
    · rw [if_neg (by rw [decide_eq_true_iff]; exact hlt),
        if_neg (by rw [decide_eq_true_iff]; exact hlt)]
      have hm2 : mv.getD j none = some (scanNewMinv cost u v i0 mv j) := by
        unfold scanNewMinv
        rw [hmj]
        dsimp only
        rw [if_neg hlt]
      refine ⟨mv, wy, ?_, rfl, rfl, hm2, ?_, ?_⟩
      · rw [hm2]
        unfold minStep
        rw [hu]
        rw [if_neg Bool.false_ne_true]
        cases od with
        | none => rfl
        | some dlt =>
          dsimp only
          unfold scanNewMinv
          rw [hmj]
          dsimp only
          rw [if_neg hlt]
          split <;> rfl
      · unfold scanNewWay
        rw [hmj]
        dsimp only
        rw [if_neg hlt]
      · intro j2 hj2
        exact ⟨rfl, rfl⟩

/-- Full characterisation of the solver's scan over a duplicate-free
column list: unused scanned columns get the labels `scanNewMinv` and
`scanNewWay`, every other entry is untouched, and the running minimum is
`minFold`. -/
theorem scanFold_spec (js : List ℕ) (hnd : js.Nodup) :
    ∀ (mv : List (Option ℚ)) (wy : List ℕ) (dj : Option ℚ × ℕ),
      (∀ j ∈ js, j < mv.length ∧ j < wy.length) →
      (js.foldl (scanFold cost u v used i0 j0) (mv, wy, dj)).1.length = mv.length ∧
      (js.foldl (scanFold cost u v used i0 j0) (mv, wy, dj)).2.1.length = wy.length ∧
      (∀ j ∈ js, used.getD j false = false →
        (js.foldl (scanFold cost u v used i0 j0) (mv, wy, dj)).1.getD j none =
            some (scanNewMinv cost u v i0 mv j) ∧
          (js.foldl (scanFold cost u v used i0 j0) (mv, wy, dj)).2.1.getD j 0 =
            scanNewWay cost u v i0 j0 mv wy j) ∧
      (∀ j, (j ∉ js ∨ used.getD j false = true) →
        (js.foldl (scanFold cost u v used i0 j0) (mv, wy, dj)).1.getD j none =
            mv.getD j none ∧
          (js.foldl (scanFold cost u v used i0 j0) (mv, wy, dj)).2.1.getD j 0 =
            wy.getD j 0) ∧
      (js.foldl (scanFold cost u v used i0 j0) (mv, wy, dj)).2.2 =
        minFold cost u v used i0 mv js dj := by
  induction js with
  | nil =>
    intro mv wy dj hjs
    exact ⟨rfl, rfl, fun j hj => absurd hj (List.not_mem_nil j),
      fun j hj => ⟨rfl, rfl⟩, rfl⟩
  | cons j rest ih =>
    have hjr : j ∉ rest := (List.nodup_cons.mp hnd).1
    have hndr : rest.Nodup := (List.nodup_cons.mp hnd).2
    intro mv wy dj hjs
    have hfold : (j :: rest).foldl (scanFold cost u v used i0 j0) (mv, wy, dj) =
        rest.foldl (scanFold cost u v used i0 j0)
          (scanFold cost u v used i0 j0 (mv, wy, dj) j) := rfl
    by_cases hu : used.getD j false = true
    · rw [hfold, scanFold_step_used cost u v used i0 j0 mv wy dj j hu]
      obtain ⟨l1, l2, hch, hun, hdj⟩ := ih hndr mv wy dj
        (fun j2 hj2 => hjs j2 (List.mem_cons_of_mem j hj2))
      refine ⟨l1, l2, ?_, ?_, ?_⟩
      · intro j2 hj2 hju2
        rcases List.mem_cons.mp hj2 with rfl | hmem
        · rw [hju2] at hu; cases hu
        · exact hch j2 hmem hju2
      · intro j2 hj2
        rcases hj2 with hnm | hu2
        · exact hun j2 (Or.inl (fun h => hnm (List.mem_cons_of_mem j h)))
        · exact hun j2 (Or.inr hu2)
      · rw [hdj]
        rw [show minFold cost u v used i0 mv (j :: rest) dj =
          minFold cost u v used i0 mv rest
            (minStep cost u v used i0 mv dj j) from rfl]
        rw [minStep_used cost u v used i0 mv dj j hu]
    · have hu2 : used.getD j false = false := by
        cases hx : used.getD j false
        · rfl
        · exact absurd hx hu
      obtain ⟨hjm, hjw⟩ := hjs j (List.mem_cons_self j rest)
      obtain ⟨mv2, wy2, hstep, hl1, hl2, hmv2j, hwy2j, hoth⟩ :=
        scanFold_step_unused cost u v used i0 j0 mv wy dj j hu2 hjm hjw
      rw [hfold, hstep]
      obtain ⟨l1, l2, hch, hun, hdj⟩ := ih hndr mv2 wy2
        (minStep cost u v used i0 mv dj j)
        (fun j2 hj2 => by
          obtain ⟨a, b⟩ := hjs j2 (List.mem_cons_of_mem j hj2)
          exact ⟨by rw [hl1]; exact a, by rw [hl2]; exact b⟩)
      refine ⟨by rw [l1, hl1], by rw [l2, hl2], ?_, ?_, ?_⟩
      · intro j2 hj2 hju2
        rcases List.mem_cons.mp hj2 with rfl | hmem
        · obtain ⟨e1, e2⟩ := hun j2 (Or.inl hjr)
          rw [e1, e2, hmv2j, hwy2j]
          exact ⟨rfl, rfl⟩
        · have hne : j2 ≠ j := fun h => hjr (h ▸ hmem)
          obtain ⟨e1, e2⟩ := hoth j2 hne
          obtain ⟨f1, f2⟩ := hch j2 hmem hju2
          rw [f1, f2]
          exact ⟨by rw [scanNewMinv_congr cost u v i0 mv2 mv j2 e1],
            by rw [scanNewWay_congr cost u v i0 j0 mv2 mv wy2 wy j2 e1 e2]⟩
      · intro j2 hj2
        have hne : j2 ≠ j := by
          rintro rfl
          rcases hj2 with hnm | hx
          · exact hnm (List.mem_cons_self j2 rest)
          · rw [hx] at hu2; cases hu2
        obtain ⟨e1, e2⟩ := hoth j2 hne
        have hj2r : j2 ∉ rest ∨ used.getD j2 false = true := by
          rcases hj2 with hnm | hx
          · exact Or.inl (fun h => hnm (List.mem_cons_of_mem j h))
          · exact Or.inr hx
        obtain ⟨f1, f2⟩ := hun j2 hj2r
        exact ⟨by rw [f1, e1], by rw [f2, e2]⟩
      · rw [hdj]
        rw [minFold_congr cost u v used i0 rest mv2 mv _
          (fun j2 hj2 => (hoth j2 (fun h => hjr (h ▸ hj2))).1)]
        rfl

end ScanSpec

section PotSpec

variable (pp : List ℕ) (usedL : List Bool) (dlt : ℚ)

/-- Characterisation of the potential-update loop over a duplicate-free
column list: with distinct matched rows at used columns, each used
column's row potential rises once by `delta`, its column potential falls
by `delta`, each unused column's label falls by `delta`, everything else
is untouched. -/
theorem potFold_spec (js : List ℕ) (hnd : js.Nodup) :
    ∀ (u0 v0 : List ℚ) (mv0 : List (Option ℚ)),
      (∀ j ∈ js, usedL.getD j false = true → pp.getD j 0 < u0.length) →
      (∀ j j2, j ∈ js → j2 ∈ js → usedL.getD j false = true →
        usedL.getD j2 false = true → pp.getD j 0 = pp.getD j2 0 → j = j2) →
      (∀ j ∈ js, j < v0.length ∧ j < mv0.length) →
      (js.foldl (potStep pp usedL dlt) (u0, v0, mv0)).1.length = u0.length ∧
      (js.foldl (potStep pp usedL dlt) (u0, v0, mv0)).2.1.length = v0.length ∧
      (js.foldl (potStep pp usedL dlt) (u0, v0, mv0)).2.2.length = mv0.length ∧
      (∀ i, (∃ j ∈ js, usedL.getD j false = true ∧ pp.getD j 0 = i) →
        (js.foldl (potStep pp usedL dlt) (u0, v0, mv0)).1.getD i 0 =
          u0.getD i 0 + dlt) ∧
      (∀ i, (¬∃ j ∈ js, usedL.getD j false = true ∧ pp.getD j 0 = i) →
        (js.foldl (potStep pp usedL dlt) (u0, v0, mv0)).1.getD i 0 =
          u0.getD i 0) ∧
      (∀ j, j ∈ js → usedL.getD j false = true →
        (js.foldl (potStep pp usedL dlt) (u0, v0, mv0)).2.1.getD j 0 =
          v0.getD j 0 - dlt) ∧
      (∀ j, ¬(j ∈ js ∧ usedL.getD j false = true) →
        (js.foldl (potStep pp usedL dlt) (u0, v0, mv0)).2.1.getD j 0 =
          v0.getD j 0) ∧
      (∀ j, j ∈ js → usedL.getD j false = false →
        (js.foldl (potStep pp usedL dlt) (u0, v0, mv0)).2.2.getD j none =
          (mv0.getD j none).map (· - dlt)) ∧
      (∀ j, ¬(j ∈ js ∧ usedL.getD j false = false) →
        (js.foldl (potStep pp usedL dlt) (u0, v0, mv0)).2.2.getD j none =
          mv0.getD j none) := by
  induction js with
  | nil =>
    intro u0 v0 mv0 hp hinj hr
    exact ⟨rfl, rfl, rfl,
      fun i hi => absurd hi (by simp),
      fun i _ => rfl,
      fun j hj => absurd hj (List.not_mem_nil j),
      fun j _ => rfl,
      fun j hj => absurd hj (List.not_mem_nil j),
      fun j _ => rfl⟩
  | cons j rest ih =>
    have hjr : j ∉ rest := (List.nodup_cons.mp hnd).1
    have hndr : rest.Nodup := (List.nodup_cons.mp hnd).2
    intro u0 v0 mv0 hp hinj hr
    have hfold : (j :: rest).foldl (potStep pp usedL dlt) (u0, v0, mv0) =
        rest.foldl (potStep pp usedL dlt) (potStep pp usedL dlt (u0, v0, mv0) j) :=
      rfl
    obtain ⟨hjv, hjm⟩ := hr j (List.mem_cons_self j rest)
    by_cases hu : usedL.getD j false = true
    · have hpj : pp.getD j 0 < u0.length := hp j (List.mem_cons_self j rest) hu
      have hstep : potStep pp usedL dlt (u0, v0, mv0) j =
          (u0.set (pp.getD j 0) (u0.getD (pp.getD j 0) 0 + dlt),
            v0.set j (v0.getD j 0 - dlt), mv0) := by
        unfold potStep
        rw [hu]
        rfl
      rw [hfold, hstep]
      obtain ⟨l1, l2, l3, hupos, huneg, hvpos, hvneg, hmpos, hmneg⟩ :=
        ih hndr (u0.set (pp.getD j 0) (u0.getD (pp.getD j 0) 0 + dlt))
          (v0.set j (v0.getD j 0 - dlt)) mv0
          (fun j2 hj2 hu2 => by
            rw [List.length_set]
            exact hp j2 (List.mem_cons_of_mem j hj2) hu2)
          (fun j2 j3 hj2 hj3 => hinj j2 j3 (List.mem_cons_of_mem j hj2)
            (List.mem_cons_of_mem j hj3))
          (fun j2 hj2 => by
            obtain ⟨a, b⟩ := hr j2 (List.mem_cons_of_mem j hj2)
            exact ⟨by rw [List.length_set]; exact a, b⟩)
      refine ⟨by rw [l1]; simp, by rw [l2]; simp, l3, ?_, ?_, ?_, ?_, ?_, ?_⟩
      · intro i hi
        obtain ⟨j2, hj2, hu2, hp2⟩ := hi
        rcases List.mem_cons.mp hj2 with rfl | hmem
        · by_cases hwr : ∃ j3 ∈ rest, usedL.getD j3 false = true ∧ pp.getD j3 0 = i
          · obtain ⟨j3, hj3, hu3, hp3⟩ := hwr
            have : j3 = j2 := hinj j3 j2 (List.mem_cons_of_mem j2 hj3)
              (List.mem_cons_self j2 rest) hu3 hu2 (by rw [hp3, hp2])
            rw [this] at hj3
            exact absurd hj3 hjr
          · rw [huneg i hwr, ← hp2, getD_set_self _ _ _ _ hpj, hp2]
        · rw [hupos i ⟨j2, hmem, hu2, hp2⟩]
          have hne : pp.getD j 0 ≠ i := by
            intro h
            have : j = j2 := hinj j j2 (List.mem_cons_self j rest)
              (List.mem_cons_of_mem j hmem) hu hu2 (by rw [h, hp2])
            rw [this] at hjr
            exact hjr hmem
          rw [getD_set_ne _ _ _ _ _ hne]
      · intro i hi
        have hir : ¬∃ j3 ∈ rest, usedL.getD j3 false = true ∧ pp.getD j3 0 = i :=
          fun ⟨j3, hj3, hu3, hp3⟩ => hi ⟨j3, List.mem_cons_of_mem j hj3, hu3, hp3⟩
        rw [huneg i hir]
        have hne : pp.getD j 0 ≠ i := fun h =>
          hi ⟨j, List.mem_cons_self j rest, hu, h⟩
        rw [getD_set_ne _ _ _ _ _ hne]
      · intro j2 hj2 hu2
        rcases List.mem_cons.mp hj2 with rfl | hmem
        · rw [hvneg j2 (fun h => hjr h.1), getD_set_self _ _ _ _ hjv]
        · rw [hvpos j2 hmem hu2,
            getD_set_ne _ _ _ _ _ (fun h => hjr (by rw [h]; exact hmem))]
      · intro j2 hj2
        have hne : j2 ≠ j := by
          rintro rfl
          exact hj2 ⟨List.mem_cons_self j2 rest, hu⟩
        rw [hvneg j2 (fun h => hj2 ⟨List.mem_cons_of_mem j h.1, h.2⟩),
          getD_set_ne _ _ _ _ _ (fun h => hne h.symm)]
      · intro j2 hj2 hu2
        rcases List.mem_cons.mp hj2 with rfl | hmem
        · exact absurd (hu.symm.trans hu2) (by decide)
        · exact hmpos j2 hmem hu2
      · intro j2 hj2
        refine hmneg j2 (fun h => hj2 ⟨List.mem_cons_of_mem j h.1, h.2⟩)
    · have hu2 : usedL.getD j false = false := by
        cases hx : usedL.getD j false
        · rfl
        · exact absurd hx hu
      have hstep : potStep pp usedL dlt (u0, v0, mv0) j =
          (u0, v0, mv0.set j ((mv0.getD j none).map (· - dlt))) := by
        unfold potStep
        rw [hu2]
        rfl
      rw [hfold, hstep]
      obtain ⟨l1, l2, l3, hupos, huneg, hvpos, hvneg, hmpos, hmneg⟩ :=
        ih hndr u0 v0 (mv0.set j ((mv0.getD j none).map (· - dlt)))
          (fun j2 hj2 hu3 => hp j2 (List.mem_cons_of_mem j hj2) hu3)
          (fun j2 j3 hj2 hj3 => hinj j2 j3 (List.mem_cons_of_mem j hj2)
            (List.mem_cons_of_mem j hj3))
          (fun j2 hj2 => by
            obtain ⟨a, b⟩ := hr j2 (List.mem_cons_of_mem j hj2)
            exact ⟨a, by rw [List.length_set]; exact b⟩)
      refine ⟨l1, l2, by rw [l3]; simp, ?_, ?_, ?_, ?_, ?_, ?_⟩
      · intro i hi
        obtain ⟨j2, hj2, hu3, hp2⟩ := hi
        rcases List.mem_cons.mp hj2 with rfl | hmem
        · exact absurd (hu3.symm.trans hu2) (by decide)
        · exact hupos i ⟨j2, hmem, hu3, hp2⟩
      · intro i hi
        exact huneg i (fun ⟨j3, hj3, hu3, hp3⟩ =>
          hi ⟨j3, List.mem_cons_of_mem j hj3, hu3, hp3⟩)
      · intro j2 hj2 hu3
        rcases List.mem_cons.mp hj2 with rfl | hmem
        · exact absurd (hu3.symm.trans hu2) (by decide)
        · exact hvpos j2 hmem hu3
      · intro j2 hj2
        exact hvneg j2 (fun h => hj2 ⟨List.mem_cons_of_mem j h.1, h.2⟩)
      · intro j2 hj2 hu3
        rcases List.mem_cons.mp hj2 with rfl | hmem
        · rw [hmneg j2 (fun h => hjr h.1), getD_set_self _ _ _ _ hjm]
        · rw [hmpos j2 hmem hu3,
            getD_set_ne _ _ _ _ _ (fun h => hjr (by rw [h]; exact hmem))]
      · intro j2 hj2
        have hne : j2 ≠ j := by
          rintro rfl
          exact hj2 ⟨List.mem_cons_self j2 rest, hu2⟩
        rw [hmneg j2 (fun h => hj2 ⟨List.mem_cons_of_mem j h.1, h.2⟩),
          getD_set_ne _ _ _ _ _ (fun h => hne h.symm)]

end PotSpec

/-- Membership in the 1-based column list `[1..n]`. -/
theorem mem_oneTo (n j : ℕ) : j ∈ (List.range n).map (· + 1) ↔ 1 ≤ j ∧ j ≤ n := by
  simp only [List.mem_map, List.mem_range]
  constructor
  · rintro ⟨a, ha, rfl⟩
    omega
  · intro ⟨h1, h2⟩
    exact ⟨j - 1, by omega, by omega⟩

/-- The column list `[1..n]` has no duplicates. -/
theorem nodup_oneTo (n : ℕ) : ((List.range n).map (· + 1)).Nodup :=
  List.Nodup.map (fun a b h => by omega) (List.nodup_range n)

/-- Pigeonhole: a duplicate-free set of at most `n` columns containing `0`
misses some column of `[1..n]`. -/
theorem exists_unused_col (n : ℕ) (S : List ℕ) (hnd : S.Nodup)
    (h0 : 0 ∈ S) (hlen : S.length ≤ n) :
    ∃ j, 1 ≤ j ∧ j ≤ n ∧ j ∉ S := by
  by_contra hc
  push_neg at hc
  have hsub : Finset.range (n + 1) ⊆ S.toFinset := by
    intro x hx
    have hxn : x ≤ n := by
      have := Finset.mem_range.mp hx
      omega
    rcases Nat.eq_zero_or_pos x with rfl | hpos
    · exact List.mem_toFinset.mpr h0
    · exact List.mem_toFinset.mpr (hc x hpos hxn)
  have hcard := Finset.card_le_card hsub
  rw [Finset.card_range, List.toFinset_card_of_nodup hnd] at hcard
  omega

/-- Under the loop invariant, with the pending column matched, the used
columns together with the pending one number at most `k`. -/
theorem used_cols_le (cost : Mat) (n k : ℕ) (ord : List ℕ) (s : HState)
    (hinv : InnerInv cost n k ord s) (hcont : s.p.getD s.j0 0 ≠ 0)
    (hk : 1 ≤ k) : (ord ++ [s.j0]).length ≤ k := by
  classical
  set T : List ℕ := ord ++ [s.j0] with hT
  have hTnd : T.Nodup := by
    rw [hT, List.nodup_append]
    refine ⟨hinv.ordd, List.nodup_singleton _, ?_⟩
    intro x hx hx2
    rw [List.mem_singleton.mp hx2] at hx
    exact hinv.j0u hx
  have h0T : 0 ∈ T := by
    rw [hT]
    refine List.mem_append.mpr (Or.inl ?_)
    have := hinv.ordh
    cases ord with
    | nil => cases this
    | cons a l =>
      cases this
      exact List.mem_cons_self 0 l
  have hinj : Set.InjOn (fun j => s.p.getD j 0) (T.toFinset.erase 0 : Finset ℕ) := by
    intro a ha b hb hab
    have haT := Finset.mem_erase.mp ha
    have hbT := Finset.mem_erase.mp hb
    have haM := List.mem_toFinset.mp haT.2
    have hbM := List.mem_toFinset.mp hbT.2
    have hpa : s.p.getD a 0 ≠ 0 := by
      rw [hT] at haM
      rcases List.mem_append.mp haM with h | h
      · exact hinv.usedp a h haT.1
      · rw [List.mem_singleton.mp h]; exact hcont
    have han : a ≤ n := by
      rw [hT] at haM
      rcases List.mem_append.mp haM with h | h
      · exact hinv.ordn a h
      · rw [List.mem_singleton.mp h]; exact hinv.j0n.2
    have hbn : b ≤ n := by
      rw [hT] at hbM
      rcases List.mem_append.mp hbM with h | h
      · exact hinv.ordn b h
      · rw [List.mem_singleton.mp h]; exact hinv.j0n.2
    exact hinv.mtch.inj a b (Nat.one_le_iff_ne_zero.mpr haT.1) han
      (Nat.one_le_iff_ne_zero.mpr hbT.1) hbn hpa hab
  have hmaps : ∀ a ∈ T.toFinset.erase 0, s.p.getD a 0 ∈ Finset.Icc 1 (k - 1) := by
    intro a ha
    have haT := Finset.mem_erase.mp ha
    have haM := List.mem_toFinset.mp haT.2
    have hpa : s.p.getD a 0 ≠ 0 := by
      rw [hT] at haM
      rcases List.mem_append.mp haM with h | h
      · exact hinv.usedp a h haT.1
      · rw [List.mem_singleton.mp h]; exact hcont
    have han : a ≤ n := by
      rw [hT] at haM
      rcases List.mem_append.mp haM with h | h
      · exact hinv.ordn a h
      · rw [List.mem_singleton.mp h]; exact hinv.j0n.2
    have hb := hinv.mtch.bound a (Nat.one_le_iff_ne_zero.mpr haT.1) han
    exact Finset.mem_Icc.mpr ⟨Nat.one_le_iff_ne_zero.mpr hpa, hb⟩
  have hcard : (T.toFinset.erase 0).card ≤ (Finset.Icc 1 (k - 1)).card :=
    Finset.card_le_card_of_injOn _ hmaps hinj
  rw [Nat.card_Icc] at hcard
  have h1 : T.toFinset.card = T.length := List.toFinset_card_of_nodup hTnd
  have h2 : (T.toFinset.erase 0).card = T.toFinset.card - 1 :=
    Finset.card_erase_of_mem (List.mem_toFinset.mpr h0T)
  have h3 : 1 ≤ T.toFinset.card :=
    Finset.card_pos.mpr ⟨0, List.mem_toFinset.mpr h0T⟩
  omega

/-- Full characterisation of one `innerStep` when some column of `[1..n]`
remains unvisited after marking `j0`: the scan labels every unvisited
column, the minimising column `j1` becomes pending, and the potential
update shifts `u` on the rows of visited columns, `v` on visited columns,
and the labels of unvisited ones, all by the minimum `dlt`. -/
theorem innerStep_run (cost : Mat) (n : ℕ) (s : HState)
    (hul : s.u.length = n + 1) (hvl : s.v.length = n + 1)
    (hpl : s.p.length = n + 1) (hwl : s.way.length = n + 1)
    (hml : s.minv.length = n + 1) (hsl : s.used.length = n + 1)
    (hexists : ∃ j, 1 ≤ j ∧ j ≤ n ∧
      (s.used.set s.j0 true).getD j false = false)
    (hpinj : ∀ j j2, j ≤ n → j2 ≤ n →
      (s.used.set s.j0 true).getD j false = true →
      (s.used.set s.j0 true).getD j2 false = true →
      s.p.getD j 0 = s.p.getD j2 0 → j = j2)
    (hpb : ∀ j, j ≤ n → (s.used.set s.j0 true).getD j false = true →
      s.p.getD j 0 ≤ n) :
    ∃ (dlt : ℚ) (j1 : ℕ),
      (∀ j, 1 ≤ j → j ≤ n → (s.used.set s.j0 true).getD j false = false →
        (innerStep cost n s).minv.getD j none =
            some (scanNewMinv cost s.u s.v (s.p.getD s.j0 0) s.minv j - dlt) ∧
          (innerStep cost n s).way.getD j 0 =
            scanNewWay cost s.u s.v (s.p.getD s.j0 0) s.j0 s.minv s.way j) ∧
      (∀ j, (s.used.set s.j0 true).getD j false = true →
        (innerStep cost n s).minv.getD j none = s.minv.getD j none ∧
          (innerStep cost n s).way.getD j 0 = s.way.getD j 0) ∧
      (∀ j, 1 ≤ j → j ≤ n → (s.used.set s.j0 true).getD j false = false →
        dlt ≤ scanNewMinv cost s.u s.v (s.p.getD s.j0 0) s.minv j) ∧
      (1 ≤ j1 ∧ j1 ≤ n ∧ (s.used.set s.j0 true).getD j1 false = false ∧
        dlt = scanNewMinv cost s.u s.v (s.p.getD s.j0 0) s.minv j1) ∧
      (∀ i, (∃ j, j ≤ n ∧ (s.used.set s.j0 true).getD j false = true ∧
          s.p.getD j 0 = i) →
        (innerStep cost n s).u.getD i 0 = s.u.getD i 0 + dlt) ∧
      (∀ i, (¬∃ j, j ≤ n ∧ (s.used.set s.j0 true).getD j false = true ∧
          s.p.getD j 0 = i) →
        (innerStep cost n s).u.getD i 0 = s.u.getD i 0) ∧
      (∀ j, j ≤ n → (s.used.set s.j0 true).getD j false = true →
        (innerStep cost n s).v.getD j 0 = s.v.getD j 0 - dlt) ∧
      (∀ j, ¬(j ≤ n ∧ (s.used.set s.j0 true).getD j false = true) →
        (innerStep cost n s).v.getD j 0 = s.v.getD j 0) ∧
      (innerStep cost n s).p = s.p ∧
      (innerStep cost n s).used = s.used.set s.j0 true ∧
      (innerStep cost n s).j0 = j1 ∧
      (innerStep cost n s).u.length = n + 1 ∧
      (innerStep cost n s).v.length = n + 1 ∧
      (innerStep cost n s).p.length = n + 1 ∧
      (innerStep cost n s).way.length = n + 1 ∧
      (innerStep cost n s).minv.length = n + 1 ∧
      (innerStep cost n s).used.length = n + 1 := by
  classical
  set used1 := s.used.set s.j0 true with hused1
  set i0 := s.p.getD s.j0 0 with hi0
  set js := (List.range n).map (· + 1) with hjs
  obtain ⟨m1len, w1len, hch, hun, hdj⟩ :=
    scanFold_spec cost s.u s.v used1 i0 s.j0 js (nodup_oneTo n)
      s.minv s.way (none, 0)
      (fun j hj => by
        obtain ⟨h1, h2⟩ := (mem_oneTo n j).mp hj
        constructor <;> omega)
  set res := js.foldl (scanFold cost s.u s.v used1 i0 s.j0)
    (s.minv, s.way, none, 0) with hres
  obtain ⟨dlt, hdlt⟩ := by
    refine minFold_isSome cost s.u s.v used1 i0 s.minv js ((none, 0)) ?_
    obtain ⟨j, h1, h2, h3⟩ := hexists
    exact ⟨j, (mem_oneTo n j).mpr ⟨h1, h2⟩, h3⟩
  have hd1 : res.2.2.1 = some dlt := by rw [hdj]; exact hdlt
  set j1 := (minFold cost s.u s.v used1 i0 s.minv js (none, 0)).2 with hj1def
  have hd2 : res.2.2.2 = j1 := by rw [hdj]
  -- unfold innerStep and resolve the match
  have hstep : innerStep cost n s =
      { u := ((List.range (n + 1)).foldl (potStep s.p used1 dlt)
            (s.u, s.v, res.1)).1,
        v := ((List.range (n + 1)).foldl (potStep s.p used1 dlt)
            (s.u, s.v, res.1)).2.1,
        p := s.p, way := res.2.1,
        minv := ((List.range (n + 1)).foldl (potStep s.p used1 dlt)
            (s.u, s.v, res.1)).2.2,
        used := used1, j0 := j1 } := by
    unfold innerStep
    rw [← hused1, ← hi0, ← hjs]
    dsimp only
    rw [← hres, hd1, hd2]
  obtain ⟨pl1, pl2, pl3, hupos, huneg, hvpos, hvneg, hmpos, hmneg⟩ :=
    potFold_spec s.p used1 dlt (List.range (n + 1)) (List.nodup_range (n + 1))
      s.u s.v res.1
      (fun j hj hu => by
        rw [hul]
        have hjn := List.mem_range.mp hj
        have := hpb j (by omega) hu
        omega)
      (fun j j2 hj hj2 hu hu2 => hpinj j j2
        (by have := List.mem_range.mp hj; omega)
        (by have := List.mem_range.mp hj2; omega) hu hu2)
      (fun j hj => by
        have hjn := List.mem_range.mp hj
        constructor
        · omega
        · rw [m1len, hml]; omega)
  have hj1all : 1 ≤ j1 ∧ j1 ≤ n ∧ used1.getD j1 false = false ∧
      dlt = scanNewMinv cost s.u s.v i0 s.minv j1 := by
    rcases minFold_wit cost s.u s.v used1 i0 s.minv js (none, 0) dlt hdlt
      with h | ⟨j2, hj2, hju2, hde, hr2⟩
    · exfalso
      have h1 := congrArg Prod.fst h
      dsimp only at h1
      rw [hdlt] at h1
      cases h1
    · obtain ⟨a, b⟩ := (mem_oneTo n j2).mp hj2
      rw [hj1def, hr2]
      exact ⟨a, b, hju2, hde⟩
  obtain ⟨hj1a, hj1b, hj1c, hj1d⟩ := hj1all
  refine ⟨dlt, j1, ?_, ?_, ?_, ⟨hj1a, hj1b, hj1c, hj1d⟩, ?_, ?_, ?_, ?_,
    by rw [hstep], by rw [hstep], by rw [hstep], ?_, ?_, by rw [hstep, hpl],
    by rw [hstep, w1len, hwl], ?_, by rw [hstep, hused1, List.length_set, hsl]⟩
  · intro j h1 h2 h3
    constructor
    · rw [hstep]
      dsimp only
      rw [hmpos j (List.mem_range.mpr (by omega)) h3]
      rw [(hch j ((mem_oneTo n j).mpr ⟨h1, h2⟩) h3).1]
      rfl
    · rw [hstep]
      dsimp only
      exact (hch j ((mem_oneTo n j).mpr ⟨h1, h2⟩) h3).2
  · intro j hju
    constructor
    · rw [hstep]
      dsimp only
      rw [hmneg j (fun hc => by rw [hju] at hc; exact absurd hc.2 (by decide))]
      by_cases hjn : j ∈ js
      · exact (hun j (Or.inr hju)).1
      · exact (hun j (Or.inl hjn)).1
    · rw [hstep]
      dsimp only
      by_cases hjn : j ∈ js
      · exact (hun j (Or.inr hju)).2
      · exact (hun j (Or.inl hjn)).2
  · intro j h1 h2 h3
    exact minFold_lb cost s.u s.v used1 i0 s.minv js (none, 0) j
      ((mem_oneTo n j).mpr ⟨h1, h2⟩) h3 dlt hdlt
  · intro i hi
    rw [hstep]
    dsimp only
    refine hupos i ?_
    obtain ⟨j, hj, hju, hpj⟩ := hi
    exact ⟨j, List.mem_range.mpr (by omega), hju, hpj⟩
  · intro i hi
    rw [hstep]
    dsimp only
    refine huneg i ?_
    intro ⟨j, hj, hju, hpj⟩
    exact hi ⟨j, by have := List.mem_range.mp hj; omega, hju, hpj⟩
  · intro j h1 h2
    rw [hstep]
    dsimp only
    exact hvpos j (List.mem_range.mpr (by omega)) h2
  · intro j hj
    rw [hstep]
    dsimp only
    refine hvneg j ?_
    intro ⟨hj2, hju⟩
    exact hj ⟨by have := List.mem_range.mp hj2; omega, hju⟩
  · rw [hstep]
    dsimp only
    rw [pl1, hul]
  · rw [hstep]
    dsimp only
    rw [pl2, hvl]
  · rw [hstep]
    dsimp only
    rw [pl3, m1len, hml]

/-- `indexOf` into an append when the element misses the left part. -/
theorem indexOf_append_right (a : ℕ) (l1 l2 : List ℕ) (h : a ∉ l1) :
    (l1 ++ l2).indexOf a = l1.length + l2.indexOf a := by
  induction l1 with
  | nil => simp
  | cons b t ih =>
    have hb : b ≠ a := fun hc => h (hc ▸ List.mem_cons_self b t)
    rw [List.cons_append, List.indexOf_cons_ne _ hb,
      ih (fun hc => h (List.mem_cons_of_mem b hc))]
    simp [List.length_cons]
    omega

/-- The head of a list survives appending on the right. -/
theorem head?_append_some {α : Type} (l l2 : List α) (a : α)
    (h : l.head? = some a) : (l ++ l2).head? = some a := by
  cases l with
  | nil => exact Option.noConfusion h
  | cons b t => exact h

/-- The head of a list is a member. -/
theorem mem_of_head?_some {α : Type} (l : List α) (a : α)
    (h : l.head? = some a) : a ∈ l := by
  cases l with
  | nil => exact Option.noConfusion h
  | cons b t =>
    have hba := Option.some.inj (show some b = some a from h)
    exact List.mem_cons.mpr (Or.inl hba.symm)

/-- One guarded iteration of the Dijkstra loop preserves the inner
invariant: the pending column joins the used order and the minimising
column of the scan becomes pending. -/
theorem innerStep_preserve (cost : Mat) (n k : ℕ) (ord : List ℕ) (s : HState)
    (hinv : InnerInv cost n k ord s) (hcont : s.p.getD s.j0 0 ≠ 0)
    (hkn : k ≤ n) :
    InnerInv cost n k (ord ++ [s.j0]) (innerStep cost n s) := by
  classical
  have hj01 : 1 ≤ s.j0 := hinv.j0n.1
  have hj0n2 : s.j0 ≤ n := hinv.j0n.2
  have hi0b : s.p.getD s.j0 0 ≤ k - 1 := hinv.mtch.bound s.j0 hj01 hj0n2
  have hi01 : 1 ≤ s.p.getD s.j0 0 := Nat.one_le_iff_ne_zero.mpr hcont
  have h2k : 2 ≤ k := by omega
  have hmemT : ∀ j, j ∈ ord ++ [s.j0] ↔ j ∈ ord ∨ j = s.j0 := by
    intro j; rw [List.mem_append, List.mem_singleton]
  have husediff1 : ∀ j, (s.used.set s.j0 true).getD j false = true ↔
      j ∈ ord ++ [s.j0] := by
    intro j
    by_cases hj : j = s.j0
    · subst hj
      constructor
      · intro _; exact (hmemT _).mpr (Or.inr rfl)
      · intro _
        exact getD_set_self _ _ _ _ (by rw [hinv.slen]; omega)
    · rw [getD_set_ne _ _ _ _ _ (fun h => hj h.symm), hinv.usediff, hmemT]
      constructor
      · exact Or.inl
      · rintro (h | h)
        · exact h
        · exact absurd h hj
  have husedF : ∀ j, j ∉ ord ++ [s.j0] →
      (s.used.set s.j0 true).getD j false = false := by
    intro j hj
    cases hb : (s.used.set s.j0 true).getD j false
    · rfl
    · exact absurd ((husediff1 j).mp hb) hj
  have hTn : ∀ j ∈ ord ++ [s.j0], j ≤ n := by
    intro j hj
    rcases (hmemT j).mp hj with h | rfl
    · exact hinv.ordn j h
    · exact hj0n2
  have hTp : ∀ j ∈ ord ++ [s.j0], j ≠ 0 → s.p.getD j 0 ≠ 0 ∧ 1 ≤ j := by
    intro j hj hjz
    rcases (hmemT j).mp hj with h | rfl
    · exact ⟨hinv.usedp j h hjz, Nat.one_le_iff_ne_zero.mpr hjz⟩
    · exact ⟨hcont, hj01⟩
  have hTpb : ∀ j ∈ ord ++ [s.j0], j ≠ 0 → s.p.getD j 0 ≤ k - 1 := by
    intro j hj hjz
    exact hinv.mtch.bound j (hTp j hj hjz).2 (hTn j hj)
  have hTnd : (ord ++ [s.j0]).Nodup := by
    rw [List.nodup_append]
    refine ⟨hinv.ordd, List.nodup_singleton _, ?_⟩
    intro x hx hx2
    rw [List.mem_singleton.mp hx2] at hx
    exact hinv.j0u hx
  have h0ord : 0 ∈ ord := mem_of_head?_some ord 0 hinv.ordh
  have h0T : 0 ∈ ord ++ [s.j0] := List.mem_append.mpr (Or.inl h0ord)
  have hTlen : (ord ++ [s.j0]).length ≤ k :=
    used_cols_le cost n k ord s hinv hcont (by omega)
  have hexists : ∃ j, 1 ≤ j ∧ j ≤ n ∧
      (s.used.set s.j0 true).getD j false = false := by
    obtain ⟨j, h1, h2, h3⟩ :=
      exists_unused_col n (ord ++ [s.j0]) hTnd h0T (le_trans hTlen hkn)
    exact ⟨j, h1, h2, husedF j h3⟩
  have hpinj : ∀ j j2, j ≤ n → j2 ≤ n →
      (s.used.set s.j0 true).getD j false = true →
      (s.used.set s.j0 true).getD j2 false = true →
      s.p.getD j 0 = s.p.getD j2 0 → j = j2 := by
    intro j j2 hjn hj2n hu hu2 hpp
    have hjT := (husediff1 j).mp hu
    have hj2T := (husediff1 j2).mp hu2
    by_cases hz : j = 0
    · by_cases hz2 : j2 = 0
      · rw [hz, hz2]
      · exfalso
        have hb := hTpb j2 hj2T hz2
        rw [hz, hinv.p0] at hpp
        omega
    · by_cases hz2 : j2 = 0
      · exfalso
        have hb := hTpb j hjT hz
        rw [hz2, hinv.p0] at hpp
        omega
      · exact hinv.mtch.inj j j2 (hTp j hjT hz).2 (hTn j hjT)
          (hTp j2 hj2T hz2).2 (hTn j2 hj2T) (hTp j hjT hz).1 hpp
  have hpb : ∀ j, j ≤ n → (s.used.set s.j0 true).getD j false = true →
      s.p.getD j 0 ≤ n := by
    intro j hj hu
    have hjT := (husediff1 j).mp hu
    by_cases hz : j = 0
    · rw [hz, hinv.p0]; exact hkn
    · have := hTpb j hjT hz; omega
  obtain ⟨dlt, j1, hpos, hneg, hlb, ⟨hj1a, hj1b, hj1c, hj1d⟩, hup, hun2,
      hvp, hvn, hp2, hu2, hj02, hul2, hvl2, hpl2, hwl2, hml2, hsl2⟩ :=
    innerStep_run cost n s hinv.ulen hinv.vlen hinv.plen hinv.wlen
      hinv.mlen hinv.slen hexists hpinj hpb
  have hsm : ∀ j, 1 ≤ j → j ≤ n → j ∉ ord ++ [s.j0] →
      ∃ m, s.minv.getD j none = some m ∧ 0 ≤ m ∧
        (s.way.getD j 0 ∈ ord ∧
          m = cEnt cost (s.p.getD (s.way.getD j 0) 0) j -
            s.u.getD (s.p.getD (s.way.getD j 0) 0) 0 - s.v.getD j 0) ∧
        (∀ j2 ∈ ord, m ≤ cEnt cost (s.p.getD j2 0) j -
          s.u.getD (s.p.getD j2 0) 0 - s.v.getD j 0) ∧
        scanNewMinv cost s.u s.v (s.p.getD s.j0 0) s.minv j =
          (if scanCur cost s.u s.v (s.p.getD s.j0 0) j < m
            then scanCur cost s.u s.v (s.p.getD s.j0 0) j else m) ∧
        scanNewWay cost s.u s.v (s.p.getD s.j0 0) s.j0 s.minv s.way j =
          (if scanCur cost s.u s.v (s.p.getD s.j0 0) j < m
            then s.j0 else s.way.getD j 0) := by
    intro j h1 h2 hjT
    have hjo : j ∉ ord := fun hc => hjT (List.mem_append.mpr (Or.inl hc))
    obtain ⟨m, hm, hm0, hre, hmin⟩ := hinv.mw j h1 h2 hjo
    refine ⟨m, hm, hm0, hre, hmin, ?_, ?_⟩
    · unfold scanNewMinv
      rw [hm]
    · unfold scanNewWay
      rw [hm]
  have hcur0 : ∀ j, 1 ≤ j → j ≤ n →
      0 ≤ scanCur cost s.u s.v (s.p.getD s.j0 0) j := by
    intro j h1 h2
    have hfe := hinv.dual.feas (s.p.getD s.j0 0) j hi01 (by omega) h1 h2
    unfold scanCur
    linarith
  have hj1T : j1 ∉ ord ++ [s.j0] := by
    intro hc
    have hx := (husediff1 j1).mpr hc
    rw [hj1c] at hx
    exact absurd hx (by decide)
  have hdlt0 : 0 ≤ dlt := by
    obtain ⟨m, hm, hm0, hre, hmin, hsmv, hswv⟩ := hsm j1 hj1a hj1b hj1T
    rw [hj1d, hsmv]
    by_cases hc : scanCur cost s.u s.v (s.p.getD s.j0 0) j1 < m
    · rw [if_pos hc]; exact hcur0 j1 hj1a hj1b
    · rw [if_neg hc]; exact hm0
  have hvused : ∀ j, j ∈ ord ++ [s.j0] →
      (innerStep cost n s).v.getD j 0 = s.v.getD j 0 - dlt :=
    fun j hj => hvp j (hTn j hj) ((husediff1 j).mpr hj)
  have hvunch : ∀ j, j ∉ ord ++ [s.j0] →
      (innerStep cost n s).v.getD j 0 = s.v.getD j 0 := by
    intro j hj
    refine hvn j ?_
    rintro ⟨hjn, hju⟩
    exact hj ((husediff1 j).mp hju)
  refine ⟨hul2, hvl2, hpl2, hwl2, hml2, hsl2, ?_, ?_, hTn, hTnd, ?_, ?_, ?_,
    ?_, ?_, ?_, ?_, ?_, ?_, ?_⟩
  · rw [hp2]; exact hinv.p0
  · rw [hp2]; exact hinv.mtch
  · exact head?_append_some ord [s.j0] 0 hinv.ordh
  · intro j
    rw [hu2]
    exact husediff1 j
  · -- ordway
    intro j hj hjz
    have hju : (s.used.set s.j0 true).getD j false = true := (husediff1 j).mpr hj
    rw [(hneg j hju).2]
    rcases (hmemT j).mp hj with hjo | rfl
    · obtain ⟨hwin, hlt⟩ := hinv.ordway j hjo hjz
      refine ⟨List.mem_append.mpr (Or.inl hwin), ?_⟩
      rw [List.indexOf_append_of_mem hwin, List.indexOf_append_of_mem hjo]
      exact hlt
    · obtain ⟨m, hm, hm0, ⟨hwin, hreal⟩, hmin⟩ := hinv.mw s.j0 hj01 hj0n2 hinv.j0u
      refine ⟨List.mem_append.mpr (Or.inl hwin), ?_⟩
      rw [List.indexOf_append_of_mem hwin, indexOf_append_right _ _ _ hinv.j0u]
      have hlt := List.indexOf_lt_length.mpr hwin
      rw [List.indexOf_cons_self]
      omega
  · -- usedp
    intro j hj hjz
    rw [hp2]
    exact (hTp j hj hjz).1
  · -- j0n
    rw [hj02]
    exact ⟨hj1a, hj1b⟩
  · -- j0u
    rw [hj02]
    exact hj1T
  · -- j0m
    rw [hj02, (hpos j1 hj1a hj1b hj1c).1, ← hj1d, sub_self]
  · -- dual
    refine ⟨?_, ?_, ?_, ?_⟩
    · -- feas
      intro i j h1i h2i h1j h2j
      by_cases hex : ∃ j2, j2 ≤ n ∧ (s.used.set s.j0 true).getD j2 false = true ∧
          s.p.getD j2 0 = i
      · rw [hup i hex]
        by_cases hju : j ∈ ord ++ [s.j0]
        · rw [hvused j hju]
          have := hinv.dual.feas i j h1i h2i h1j h2j
          linarith
        · rw [hvunch j hju]
          obtain ⟨j2, hj2n, hj2u, hj2p⟩ := hex
          have hj2T := (husediff1 j2).mp hj2u
          obtain ⟨m, hm, hm0, ⟨hwin, hreal⟩, hmin, hsmv, hswv⟩ :=
            hsm j h1j h2j hju
          have hdle := hlb j h1j h2j (husedF j hju)
          have hA : scanNewMinv cost s.u s.v (s.p.getD s.j0 0) s.minv j ≤ m := by
            rw [hsmv]
            by_cases hc : scanCur cost s.u s.v (s.p.getD s.j0 0) j < m
            · rw [if_pos hc]; exact le_of_lt hc
            · rw [if_neg hc]
          have hB : scanNewMinv cost s.u s.v (s.p.getD s.j0 0) s.minv j ≤
              scanCur cost s.u s.v (s.p.getD s.j0 0) j := by
            rw [hsmv]
            by_cases hc : scanCur cost s.u s.v (s.p.getD s.j0 0) j < m
            · rw [if_pos hc]
            · rw [if_neg hc]; exact le_of_not_lt hc
          rcases (hmemT j2).mp hj2T with hj2o | rfl
          · have hge := hmin j2 hj2o
            rw [hj2p] at hge
            linarith
          · rw [← hj2p]
            have hscan : scanCur cost s.u s.v (s.p.getD s.j0 0) j =
                cEnt cost (s.p.getD s.j0 0) j -
                  s.u.getD (s.p.getD s.j0 0) 0 - s.v.getD j 0 := rfl
            linarith
      · rw [hun2 i hex]
        have hvle : (innerStep cost n s).v.getD j 0 ≤ s.v.getD j 0 := by
          by_cases hju : j ∈ ord ++ [s.j0]
          · rw [hvused j hju]; linarith
          · rw [hvunch j hju]
        have := hinv.dual.feas i j h1i h2i h1j h2j
        linarith
    · -- tight
      intro j h1j h2j hne
      rw [hp2] at hne ⊢
      by_cases hju : j ∈ ord ++ [s.j0]
      · rw [hup _ ⟨j, hTn j hju, (husediff1 j).mpr hju, rfl⟩, hvused j hju]
        have := hinv.dual.tight j h1j h2j hne
        linarith
      · have hui : (innerStep cost n s).u.getD (s.p.getD j 0) 0 =
            s.u.getD (s.p.getD j 0) 0 := by
          refine hun2 _ ?_
          rintro ⟨j2, hj2n, hj2u, hj2p⟩
          have hj2T := (husediff1 j2).mp hj2u
          by_cases hz : j2 = 0
          · rw [hz, hinv.p0] at hj2p
            have hb := hinv.mtch.bound j h1j h2j
            omega
          · have hx := hTp j2 hj2T hz
            have heq := hinv.mtch.inj j2 j hx.2 (hTn j2 hj2T) h1j h2j hx.1 hj2p
            exact hju (heq ▸ hj2T)
        rw [hui, hvunch j hju]
        exact hinv.dual.tight j h1j h2j hne
    · -- vnp
      intro j hj
      by_cases hju : j ∈ ord ++ [s.j0]
      · rw [hvused j hju]
        have := hinv.dual.vnp j hj
        linarith
      · rw [hvunch j hju]
        exact hinv.dual.vnp j hj
    · -- uhz
      intro i hi
      have hui : (innerStep cost n s).u.getD i 0 = s.u.getD i 0 := by
        refine hun2 i ?_
        rintro ⟨j2, hj2n, hj2u, hj2p⟩
        have hj2T := (husediff1 j2).mp hj2u
        by_cases hz : j2 = 0
        · rw [hz, hinv.p0] at hj2p; omega
        · have := hTpb j2 hj2T hz; omega
      rw [hui]
      exact hinv.dual.uhz i hi
  · -- wayt
    intro j hj hjz
    have hju : (s.used.set s.j0 true).getD j false = true := (husediff1 j).mpr hj
    rw [hp2, (hneg j hju).2]
    rcases (hmemT j).mp hj with hjo | rfl
    · have hw := hinv.ordway j hjo hjz
      rw [hup _ ⟨s.way.getD j 0, hinv.ordn _ hw.1,
          (husediff1 _).mpr (List.mem_append.mpr (Or.inl hw.1)), rfl⟩,
        hvused j hj]
      have := hinv.wayt j hjo hjz
      linarith
    · obtain ⟨m, hm, hm0, ⟨hwin, hreal⟩, hmin⟩ := hinv.mw s.j0 hj01 hj0n2 hinv.j0u
      have hm0' : m = 0 := by
        rw [hinv.j0m] at hm
        exact (Option.some.inj hm).symm
      rw [hup _ ⟨s.way.getD s.j0 0, hinv.ordn _ hwin,
          (husediff1 _).mpr (List.mem_append.mpr (Or.inl hwin)), rfl⟩,
        hvused s.j0 hj]
      rw [hm0'] at hreal
      linarith
  · -- mw
    intro j h1j h2j hjT
    have hjF := husedF j hjT
    obtain ⟨m, hm, hm0, ⟨hwin, hreal⟩, hmin, hsmv, hswv⟩ := hsm j h1j h2j hjT
    have hdle := hlb j h1j h2j hjF
    have hA : scanNewMinv cost s.u s.v (s.p.getD s.j0 0) s.minv j ≤ m := by
      rw [hsmv]
      by_cases hc : scanCur cost s.u s.v (s.p.getD s.j0 0) j < m
      · rw [if_pos hc]; exact le_of_lt hc
      · rw [if_neg hc]
    have hB : scanNewMinv cost s.u s.v (s.p.getD s.j0 0) s.minv j ≤
        scanCur cost s.u s.v (s.p.getD s.j0 0) j := by
      rw [hsmv]
      by_cases hc : scanCur cost s.u s.v (s.p.getD s.j0 0) j < m
      · rw [if_pos hc]
      · rw [if_neg hc]; exact le_of_not_lt hc
    refine ⟨scanNewMinv cost s.u s.v (s.p.getD s.j0 0) s.minv j - dlt,
      (hpos j h1j h2j hjF).1, by linarith, ?_, ?_⟩
    · rw [(hpos j h1j h2j hjF).2, hswv, hp2]
      by_cases hc : scanCur cost s.u s.v (s.p.getD s.j0 0) j < m
      · rw [if_pos hc]
        refine ⟨List.mem_append.mpr (Or.inr (List.mem_singleton.mpr rfl)), ?_⟩
        rw [hup _ ⟨s.j0, hj0n2,
            (husediff1 _).mpr (List.mem_append.mpr (Or.inr (List.mem_singleton.mpr rfl))), rfl⟩,
          hvunch j hjT, hsmv, if_pos hc]
        have hscan : scanCur cost s.u s.v (s.p.getD s.j0 0) j =
            cEnt cost (s.p.getD s.j0 0) j -
              s.u.getD (s.p.getD s.j0 0) 0 - s.v.getD j 0 := rfl
        linarith
      · rw [if_neg hc]
        refine ⟨List.mem_append.mpr (Or.inl hwin), ?_⟩
        rw [hup _ ⟨s.way.getD j 0, hinv.ordn _ hwin,
            (husediff1 _).mpr (List.mem_append.mpr (Or.inl hwin)), rfl⟩,
          hvunch j hjT, hsmv, if_neg hc]
        linarith
    · intro j2 hj2
      rw [hp2, hup _ ⟨j2, hTn j2 hj2, (husediff1 j2).mpr hj2, rfl⟩,
        hvunch j hjT]
      rcases (hmemT j2).mp hj2 with hj2o | rfl
      · have hge := hmin j2 hj2o
        linarith
      · have hscan : scanCur cost s.u s.v (s.p.getD s.j0 0) j =
            cEnt cost (s.p.getD s.j0 0) j -
              s.u.getD (s.p.getD s.j0 0) 0 - s.v.getD j 0 := rfl
        linarith

/-- Entering the Dijkstra loop for row `k`: after seeding `p[0] = k`,
resetting `minv`/`used` and performing the first iteration from column `0`,
the inner invariant holds with used order `[0]`. -/
theorem innerInv_init (cost : Mat) (n k : ℕ) (os : OuterState)
    (hos : OsInv cost n (k - 1) os) (hk1 : 1 ≤ k) (hkn : k ≤ n)
    (hnn : ∀ i j, 1 ≤ i → i ≤ n → 1 ≤ j → j ≤ n → 0 ≤ cEnt cost i j) :
    InnerInv cost n k [0]
      (innerStep cost n
        ⟨os.u, os.v, os.p.set 0 k, os.way,
          List.replicate (n + 1) none, List.replicate (n + 1) false, 0⟩) := by
  classical
  have hp00 : (os.p.set 0 k).getD 0 0 = k :=
    getD_set_self _ _ _ _ (by rw [hos.plen]; omega)
  have huk : os.u.getD k 0 = 0 := hos.dual.uhz k (by omega)
  have hpset : ∀ j, j ≠ 0 → (os.p.set 0 k).getD j 0 = os.p.getD j 0 :=
    fun j hj => getD_set_ne _ _ _ _ _ (fun h => hj h.symm)
  have husedt : ∀ j,
      ((List.replicate (n + 1) false).set 0 true).getD j false = true ↔ j = 0 := by
    intro j
    by_cases hj : j = 0
    · subst hj
      constructor
      · intro _; rfl
      · intro _
        exact getD_set_self _ _ _ _ (by rw [List.length_replicate]; omega)
    · rw [getD_set_ne _ _ _ _ _ (fun h => hj h.symm)]
      constructor
      · intro hx
        by_cases hjn : j < n + 1
        · rw [getD_replicate _ _ _ _ hjn] at hx
          exact absurd hx (by decide)
        · rw [List.getD_eq_default _ _ (by rw [List.length_replicate]; omega)] at hx
          exact absurd hx (by decide)
      · intro hx
        exact absurd hx hj
  have husedf : ∀ j, j ≠ 0 →
      ((List.replicate (n + 1) false).set 0 true).getD j false = false := by
    intro j hj
    cases hb : ((List.replicate (n + 1) false).set 0 true).getD j false
    · rfl
    · exact absurd ((husedt j).mp hb) hj
  have hmv0 : ∀ j, (List.replicate (n + 1) (none : Option ℚ)).getD j none = none := by
    intro j
    by_cases hjn : j < n + 1
    · exact getD_replicate _ _ _ _ hjn
    · exact List.getD_eq_default _ _ (by rw [List.length_replicate]; omega)
  have hsm0 : ∀ j, scanNewMinv cost os.u os.v k (List.replicate (n + 1) none) j =
      scanCur cost os.u os.v k j := by
    intro j
    unfold scanNewMinv
    rw [hmv0 j]
  have hsw0 : ∀ j, scanNewWay cost os.u os.v k 0
      (List.replicate (n + 1) none) os.way j = 0 := by
    intro j
    unfold scanNewWay
    rw [hmv0 j]
  obtain ⟨dlt, j1, hpos, hneg, hlb, ⟨hj1a, hj1b, hj1c, hj1d⟩, hup, hun2,
      hvp, hvn, hp2, hu2, hj02, hul2, hvl2, hpl2, hwl2, hml2, hsl2⟩ :=
    innerStep_run cost n
      ⟨os.u, os.v, os.p.set 0 k, os.way,
        List.replicate (n + 1) none, List.replicate (n + 1) false, 0⟩
      hos.ulen hos.vlen
      (by show (os.p.set 0 k).length = n + 1
          rw [List.length_set]; exact hos.plen)
      hos.wlen
      (by show (List.replicate (n + 1) (none : Option ℚ)).length = n + 1
          exact List.length_replicate _ _)
      (by show (List.replicate (n + 1) false).length = n + 1
          exact List.length_replicate _ _)
      (by refine ⟨1, le_refl 1, by omega, ?_⟩
          show ((List.replicate (n + 1) false).set 0 true).getD 1 false = false
          exact husedf 1 (by omega))
      (by intro j j2 hjn hj2n hu' hu2' hpp
          rw [(husedt j).mp hu', (husedt j2).mp hu2'])
      (by intro j hj hu'
          rw [(husedt j).mp hu']
          show (os.p.set 0 k).getD 0 0 ≤ n
          rw [hp00]; exact hkn)
  dsimp only at hpos hneg hlb hj1a hj1b hj1c hj1d hup hun2 hvp hvn hp2 hu2
  simp only [hp00] at hpos hlb hj1d
  have hdlt0 : 0 ≤ dlt := by
    rw [hj1d, hsm0 j1]
    unfold scanCur
    have h1 := hos.dual.vnp j1 (by omega)
    have h2 := hnn k j1 (by omega) hkn hj1a hj1b
    rw [huk]
    linarith
  refine ⟨hul2, hvl2, hpl2, hwl2, hml2, hsl2, ?_, ?_, ?_, ?_, ?_, ?_, ?_,
    ?_, ?_, ?_, ?_, ?_, ?_, ?_⟩
  · rw [hp2]; exact hp00
  · rw [hp2]
    refine ⟨?_, ?_, ?_⟩
    · intro j h1 h2
      rw [hpset j (by omega)]
      exact hos.mtch.bound j h1 h2
    · intro j j2 h1 h2 h3 h4 hne hpp
      rw [hpset j (by omega)] at hne hpp
      rw [hpset j2 (by omega)] at hpp
      exact hos.mtch.inj j j2 h1 h2 h3 h4 hne hpp
    · intro i h1 h2
      obtain ⟨j, hj1, hj2, hj3⟩ := hos.mtch.surj i h1 h2
      exact ⟨j, hj1, hj2, by rw [hpset j (by omega)]; exact hj3⟩
  · intro x hx
    rw [List.mem_singleton] at hx
    omega
  · exact List.nodup_singleton 0
  · rfl
  · intro j
    rw [hu2, List.mem_singleton]
    exact husedt j
  · intro j hj hjz
    exact absurd (List.mem_singleton.mp hj) hjz
  · intro j hj hjz
    exact absurd (List.mem_singleton.mp hj) hjz
  · rw [hj02]
    exact ⟨hj1a, hj1b⟩
  · rw [hj02, List.mem_singleton]
    omega
  · rw [hj02, (hpos j1 hj1a hj1b (husedf j1 (by omega))).1, ← hj1d, sub_self]
  · refine ⟨?_, ?_, ?_, ?_⟩
    · -- feasibility up to row k
      intro i j h1i h2i h1j h2j
      have hv' := hvn j (by
        rintro ⟨-, hju⟩
        exact absurd ((husedt j).mp hju) (by omega))
      by_cases hik : i = k
      · subst hik
        rw [hup i ⟨0, by omega, (husedt 0).mpr rfl, hp00⟩, hv', huk]
        have hd := hlb j h1j h2j (husedf j (by omega))
        rw [hsm0 j] at hd
        unfold scanCur at hd
        rw [huk] at hd
        linarith
      · rw [hun2 i (by
            rintro ⟨j2, hj2n, hj2u, hj2p⟩
            rw [(husedt j2).mp hj2u, hp00] at hj2p
            exact hik hj2p.symm), hv']
        exact hos.dual.feas i j h1i (by omega) h1j h2j
    · -- tightness on previously matched pairs
      intro j h1j h2j hne
      rw [hp2] at hne ⊢
      rw [hpset j (by omega)] at hne ⊢
      have hpb2 := hos.mtch.bound j h1j h2j
      rw [hun2 _ (by
          rintro ⟨j2, hj2n, hj2u, hj2p⟩
          rw [(husedt j2).mp hj2u, hp00] at hj2p
          omega),
        hvn j (by
          rintro ⟨-, hju⟩
          exact absurd ((husedt j).mp hju) (by omega))]
      exact hos.dual.tight j h1j h2j hne
    · -- column potentials stay non-positive
      intro j hj
      by_cases hj0 : j = 0
      · subst hj0
        rw [hvp 0 (by omega) ((husedt 0).mpr rfl)]
        have := hos.dual.vnp 0 (by omega)
        linarith
      · rw [hvn j (by
          rintro ⟨-, hju⟩
          exact absurd ((husedt j).mp hju) hj0)]
        exact hos.dual.vnp j hj
    · -- rows beyond k untouched
      intro i hi
      rw [hun2 i (by
          rintro ⟨j2, hj2n, hj2u, hj2p⟩
          rw [(husedt j2).mp hj2u, hp00] at hj2p
          omega)]
      exact hos.dual.uhz i (by omega)
  · intro j hj hjz
    exact absurd (List.mem_singleton.mp hj) hjz
  · -- labels of unvisited columns
    intro j h1j h2j hjo
    have hjF := husedf j (by omega)
    have hv' := hvn j (by
      rintro ⟨-, hju⟩
      exact absurd ((husedt j).mp hju) (by omega))
    refine ⟨scanNewMinv cost os.u os.v k (List.replicate (n + 1) none) j - dlt,
      (hpos j h1j h2j hjF).1, ?_, ?_, ?_⟩
    · have hd := hlb j h1j h2j hjF
      linarith
    · rw [(hpos j h1j h2j hjF).2, hsw0 j, hp2, hp00]
      refine ⟨List.mem_singleton.mpr rfl, ?_⟩
      rw [hup k ⟨0, by omega, (husedt 0).mpr rfl, hp00⟩, hv', hsm0 j]
      unfold scanCur
      rw [huk]
      ring
    · intro j2 hj2
      rw [List.mem_singleton] at hj2
      subst hj2
      rw [hp2, hp00, hup k ⟨0, by omega, (husedt 0).mpr rfl, hp00⟩, hv', hsm0 j]
      unfold scanCur
      rw [huk]
      linarith

/-- With enough fuel, the Dijkstra loop reaches a free column: the final
state still satisfies the inner invariant for some used order and its
pending column is unmatched.  Each iteration adds one column to the used
order, and the order can never exceed `k` columns, so `k` iterations
always suffice — the C `do/while` terminates. -/
theorem innerLoop_exit (cost : Mat) (n k : ℕ) (hkn : k ≤ n) :
    ∀ (fuel : ℕ) (ord : List ℕ) (s : HState),
      InnerInv cost n k ord s → s.p.getD s.j0 0 ≠ 0 →
      k ≤ fuel + ord.length →
      ∃ ord2, InnerInv cost n k ord2 (innerLoop cost n fuel s) ∧
        (innerLoop cost n fuel s).p.getD (innerLoop cost n fuel s).j0 0 = 0 := by
  intro fuel
  induction fuel with
  | zero =>
    intro ord s hinv hcont hfuel
    exfalso
    have hp1 : 1 ≤ s.p.getD s.j0 0 := Nat.one_le_iff_ne_zero.mpr hcont
    have hb := hinv.mtch.bound s.j0 hinv.j0n.1 hinv.j0n.2
    have hlen := used_cols_le cost n k ord s hinv hcont (by omega)
    rw [List.length_append, List.length_singleton] at hlen
    omega
  | succ fuel ih =>
    intro ord s hinv hcont hfuel
    have hpres := innerStep_preserve cost n k ord s hinv hcont hkn
    rw [show innerLoop cost n (fuel + 1) s =
      (if (innerStep cost n s).p.getD (innerStep cost n s).j0 0 ≠ 0
        then innerLoop cost n fuel (innerStep cost n s)
        else innerStep cost n s) from rfl]
    by_cases hc : (innerStep cost n s).p.getD (innerStep cost n s).j0 0 ≠ 0
    · rw [if_pos hc]
      refine ih (ord ++ [s.j0]) (innerStep cost n s) hpres hc ?_
      rw [List.length_append, List.length_singleton]
      omega
    · rw [if_neg hc]
      push_neg at hc
      exact ⟨ord ++ [s.j0], hpres, hc⟩

/-- Pointwise description of the augmenting pass: from a starting column
`x`, following `way` through the used columns `ord2`, the loop rewrites
exactly the columns of a chain `C` headed by `x` — giving each chain
column the row of its `way` parent — and leaves every other column of the
matching unchanged.  The chain ends at a column whose parent is `0`. -/
theorem augment_spec (W : List ℕ) (ord2 : List ℕ)
    (hW : ∀ y ∈ ord2, y ≠ 0 → W.getD y 0 ∈ ord2 ∧
      ord2.indexOf (W.getD y 0) < ord2.indexOf y) :
    ∀ (fuel : ℕ) (x : ℕ) (p : List ℕ),
      x ≠ 0 →
      ((x ∉ ord2 ∧ W.getD x 0 ∈ ord2) ∨ x ∈ ord2) →
      ord2.indexOf (W.getD x 0) < fuel →
      x < p.length →
      (∀ y ∈ ord2, y < p.length) →
      ∃ C : List ℕ,
        C.head? = some x ∧
        (∀ i (h : i + 1 < C.length),
          W.getD (C.get ⟨i, by omega⟩) 0 = C.get ⟨i + 1, h⟩) ∧
        (∀ h : C ≠ [], W.getD (C.getLast h) 0 = 0) ∧
        (∀ y ∈ C, y = x ∨ (y ∈ ord2 ∧
          ord2.indexOf y ≤ ord2.indexOf (W.getD x 0) ∧ y ≠ 0)) ∧
        C.Nodup ∧
        (∀ y, y ∉ C → (augmentLoop W fuel x p).getD y 0 = p.getD y 0) ∧
        (∀ y ∈ C, (augmentLoop W fuel x p).getD y 0 =
          p.getD (W.getD y 0) 0) ∧
        (augmentLoop W fuel x p).length = p.length := by
  intro fuel
  induction fuel with
  | zero =>
    intro x p hx0 hx hfu hxp hop
    exact absurd hfu (Nat.not_lt_zero _)
  | succ fuel ih =>
    intro x p hx0 hx hfu hxp hop
    have hunf : augmentLoop W (fuel + 1) x p =
        (if W.getD x 0 ≠ 0
          then augmentLoop W fuel (W.getD x 0) (p.set x (p.getD (W.getD x 0) 0))
          else p.set x (p.getD (W.getD x 0) 0)) := rfl
    rw [hunf]
    by_cases hj1 : W.getD x 0 = 0
    · rw [if_neg (fun hc => hc hj1)]
      refine ⟨[x], rfl, ?_, ?_, ?_, List.nodup_singleton _, ?_, ?_,
        by rw [List.length_set]⟩
      · intro i h
        exact absurd h (by simp)
      · intro h
        rw [List.getLast_singleton]
        exact hj1
      · intro y hy
        exact Or.inl (List.mem_singleton.mp hy)
      · intro y hy
        exact getD_set_ne _ _ _ _ _
          (fun h => hy (List.mem_singleton.mpr h.symm))
      · intro y hy
        rw [List.mem_singleton.mp hy]
        exact getD_set_self _ _ _ _ hxp
    · rw [if_pos hj1]
      have hj1ord : W.getD x 0 ∈ ord2 := by
        rcases hx with ⟨hxo, hxw⟩ | hxo
        · exact hxw
        · exact (hW x hxo hx0).1
      obtain ⟨C', hc1, hc2, hc3, hc4, hc5, hc6, hc7, hc8⟩ :=
        ih (W.getD x 0) (p.set x (p.getD (W.getD x 0) 0)) hj1 (Or.inr hj1ord)
          (by
            have := (hW (W.getD x 0) hj1ord hj1).2
            omega)
          (by rw [List.length_set]; exact hop _ hj1ord)
          (by intro y hy; rw [List.length_set]; exact hop y hy)
      have hxC' : x ∉ C' := by
        intro hxc
        rcases hc4 x hxc with heq | ⟨hxo2, hxi, -⟩
        · rcases hx with ⟨hxo, -⟩ | hxo
          · exact hxo (heq ▸ hj1ord)
          · have := (hW x hxo hx0).2
            rw [← heq] at this
            omega
        · rcases hx with ⟨hxo, -⟩ | hxo
          · exact hxo hxo2
          · have h1 := (hW x hxo hx0).2
            have h2 := (hW (W.getD x 0) hj1ord hj1).2
            omega
      have hWyx : ∀ y ∈ C', W.getD y 0 ≠ x := by
        intro y hy hWy
        have hyo : y ∈ ord2 ∧ y ≠ 0 := by
          rcases hc4 y hy with rfl | ⟨a, b, c⟩
          · exact ⟨hj1ord, hj1⟩
          · exact ⟨a, c⟩
        have hWyy := hW y hyo.1 hyo.2
        rcases hx with ⟨hxo, -⟩ | hxo
        · rw [hWy] at hWyy
          exact hxo hWyy.1
        · have hWx := (hW x hxo hx0).2
          have hyi : ord2.indexOf y ≤ ord2.indexOf (W.getD x 0) := by
            rcases hc4 y hy with rfl | ⟨-, b, -⟩
            · exact le_refl _
            · have := (hW (W.getD x 0) hj1ord hj1).2
              omega
          rw [hWy] at hWyy
          omega
      have hC'ne : C' ≠ [] := by
        intro hc
        rw [hc] at hc1
        exact Option.noConfusion hc1
      refine ⟨x :: C', rfl, ?_, ?_, ?_, List.nodup_cons.mpr ⟨hxC', hc5⟩,
        ?_, ?_, by rw [hc8, List.length_set]⟩
      · intro i h
        cases i with
        | zero =>
          cases C' with
          | nil => exact absurd h (by simp)
          | cons b t =>
            have hb := Option.some.inj
              (show some b = some (W.getD x 0) from hc1)
            exact hb.symm
        | succ i2 =>
          have h2 : i2 + 1 < C'.length := by
            simpa using h
          exact hc2 i2 h2
      · intro h
        rw [List.getLast_cons hC'ne]
        exact hc3 hC'ne
      · intro y hy
        rcases List.mem_cons.mp hy with rfl | hy2
        · exact Or.inl rfl
        · right
          rcases hc4 y hy2 with rfl | ⟨a, b, c⟩
          · exact ⟨hj1ord, le_refl _, hj1⟩
          · refine ⟨a, ?_, c⟩
            have := (hW (W.getD x 0) hj1ord hj1).2
            omega
      · intro y hy
        have hyx : y ≠ x := fun h => hy (h ▸ List.mem_cons_self x C')
        have hyC : y ∉ C' := fun h => hy (List.mem_cons_of_mem x h)
        rw [hc6 y hyC]
        exact getD_set_ne _ _ _ _ _ (fun h => hyx h.symm)
      · intro y hy
        rcases List.mem_cons.mp hy with rfl | hy2
        · rw [hc6 y hxC']
          exact getD_set_self _ _ _ _ hxp
        · rw [hc7 y hy2]
          exact getD_set_ne _ _ _ _ _ (fun h => hWyx y hy2 h.symm)

/-- A duplicate-free list of naturals bounded by `n` has at most `n + 1`
elements. -/
theorem nodup_length_le (l : List ℕ) (hnd : l.Nodup) (n : ℕ)
    (hb : ∀ x ∈ l, x ≤ n) : l.length ≤ n + 1 := by
  classical
  have hsub : l.toFinset ⊆ Finset.range (n + 1) := by
    intro x hx
    have := hb x (List.mem_toFinset.mp hx)
    exact Finset.mem_range.mpr (by omega)
  have hcard := Finset.card_le_card hsub
  rw [List.toFinset_card_of_nodup hnd, Finset.card_range] at hcard
  exact hcard

/-- The entry at index `0` is the head. -/
theorem get_zero_of_head? {α : Type} (l : List α) (a : α)
    (h : l.head? = some a) (h0 : 0 < l.length) : l.get ⟨0, h0⟩ = a := by
  cases l with
  | nil => exact Option.noConfusion h
  | cons b t => exact Option.some.inj (show some b = some a from h)

/-- On an augmenting chain, `way` maps each column to the next one (or to
`0` at the end), so it takes values in the chain and is injective there. -/
theorem chain_w_facts (W C : List ℕ) (hnd : C.Nodup)
    (hlinks : ∀ i (h : i + 1 < C.length),
      W.getD (C.get ⟨i, by omega⟩) 0 = C.get ⟨i + 1, h⟩)
    (hlast : ∀ h : C ≠ [], W.getD (C.getLast h) 0 = 0)
    (h0C : 0 ∉ C) :
    (∀ y ∈ C, W.getD y 0 = 0 ∨ W.getD y 0 ∈ C) ∧
    (∀ y ∈ C, ∀ y2 ∈ C, W.getD y 0 = W.getD y2 0 → y = y2) := by
  have hWi : ∀ (i : ℕ) (hi : i < C.length), W.getD (C.get ⟨i, hi⟩) 0 =
      if h : i + 1 < C.length then C.get ⟨i + 1, h⟩ else 0 := by
    intro i hi
    by_cases h : i + 1 < C.length
    · rw [dif_pos h]
      exact hlinks i h
    · rw [dif_neg h]
      have hCne : C ≠ [] := by
        intro hc
        rw [hc] at hi
        exact absurd hi (by simp)
      have hieq : i = C.length - 1 := by omega
      subst hieq
      have hg : C.get ⟨C.length - 1, hi⟩ = C.getLast hCne := by
        rw [List.getLast_eq_get]
      rw [hg]
      exact hlast hCne
  constructor
  · intro y hy
    obtain ⟨⟨i, hi⟩, rfl⟩ := List.mem_iff_get.mp hy
    rw [hWi i hi]
    by_cases h : i + 1 < C.length
    · rw [dif_pos h]
      exact Or.inr (List.get_mem C _ _)
    · rw [dif_neg h]
      exact Or.inl rfl
  · intro y hy y2 hy2 heq
    obtain ⟨⟨i, hi⟩, rfl⟩ := List.mem_iff_get.mp hy
    obtain ⟨⟨i2, hi2⟩, rfl⟩ := List.mem_iff_get.mp hy2
    rw [hWi i hi, hWi i2 hi2] at heq
    by_cases h : i + 1 < C.length
    · by_cases h2 : i2 + 1 < C.length
      · rw [dif_pos h, dif_pos h2] at heq
        have hf := hnd.get_inj_iff.mp heq
        have hii : i = i2 := by
          have := congrArg Fin.val hf
          simpa using this
        exact congrArg (List.get C) (Fin.ext hii)
      · rw [dif_pos h, dif_neg h2] at heq
        exact absurd (heq ▸ List.get_mem C (i + 1) h) h0C
    · by_cases h2 : i2 + 1 < C.length
      · rw [dif_neg h, dif_pos h2] at heq
        exact absurd (heq.symm ▸ List.get_mem C (i2 + 1) h2) h0C
      · have hii : i = i2 := by omega
        exact congrArg (List.get C) (Fin.ext hii)

/-- Inserting row `k` by `hungarianRow` extends the outer invariant from
`k - 1` to `k` matched rows: the Dijkstra loop reaches a free column and
the augmenting pass flips the matching along the tight-edge chain. -/
theorem hungarianRow_inv (cost : Mat) (n k : ℕ) (os : OuterState)
    (hos : OsInv cost n (k - 1) os) (hk1 : 1 ≤ k) (hkn : k ≤ n)
    (hnn : ∀ i j, 1 ≤ i → i ≤ n → 1 ≤ j → j ≤ n → 0 ≤ cEnt cost i j) :
    OsInv cost n k (hungarianRow cost n os k) := by
  classical
  set S0 : HState :=
    ⟨os.u, os.v, os.p.set 0 k, os.way, List.replicate (n + 1) none,
      List.replicate (n + 1) false, 0⟩ with hS0
  have hinit := innerInv_init cost n k os hos hk1 hkn hnn
  rw [← hS0] at hinit
  have hrow : hungarianRow cost n os k =
      { u := (innerLoop cost n (n + 1) S0).u,
        v := (innerLoop cost n (n + 1) S0).v,
        p := augmentLoop (innerLoop cost n (n + 1) S0).way (n + 1)
          (innerLoop cost n (n + 1) S0).j0 (innerLoop cost n (n + 1) S0).p,
        way := (innerLoop cost n (n + 1) S0).way } := by
    rw [hS0]
    rfl
  set t := innerLoop cost n (n + 1) S0 with ht
  rw [hrow]
  have hloop : ∃ ord2, InnerInv cost n k ord2 t ∧ t.p.getD t.j0 0 = 0 := by
    rw [ht]
    rw [show innerLoop cost n (n + 1) S0 =
      (if (innerStep cost n S0).p.getD (innerStep cost n S0).j0 0 ≠ 0
        then innerLoop cost n n (innerStep cost n S0)
        else innerStep cost n S0) from rfl]
    by_cases hc : (innerStep cost n S0).p.getD (innerStep cost n S0).j0 0 ≠ 0
    · rw [if_pos hc]
      refine innerLoop_exit cost n k hkn n [0] (innerStep cost n S0) hinit hc ?_
      rw [List.length_singleton]
      omega
    · rw [if_neg hc]
      push_neg at hc
      exact ⟨[0], hinit, hc⟩
  obtain ⟨ord2, hinv2, hexit⟩ := hloop
  have hx0 : t.j0 ≠ 0 := by
    have := hinv2.j0n.1
    omega
  obtain ⟨m, hm, hm0, ⟨hwin, hreal⟩, hmin⟩ :=
    hinv2.mw t.j0 hinv2.j0n.1 hinv2.j0n.2 hinv2.j0u
  have hm0' : m = 0 := by
    rw [hinv2.j0m] at hm
    exact (Option.some.inj hm).symm
  rw [hm0'] at hreal
  have hordlen : ord2.length ≤ n + 1 := nodup_length_le ord2 hinv2.ordd n hinv2.ordn
  obtain ⟨C, hh, hlinks, hlast, hmemC, hndC, hunch, hchain, hlen2⟩ :=
    augment_spec t.way ord2 hinv2.ordway (n + 1) t.j0 t.p hx0
      (Or.inl ⟨hinv2.j0u, hwin⟩)
      (by have := List.indexOf_lt_length.mpr hwin; omega)
      (by rw [hinv2.plen]; have := hinv2.j0n.2; omega)
      (by intro y hy; rw [hinv2.plen]; have := hinv2.ordn y hy; omega)
  have hCne : C ≠ [] := by
    intro h
    rw [h] at hh
    exact Option.noConfusion hh
  have h0C : 0 ∉ C := by
    intro h
    rcases hmemC 0 h with h1 | ⟨-, -, c⟩
    · exact hx0 h1.symm
    · exact c rfl
  obtain ⟨hWC, hWinj⟩ := chain_w_facts t.way C hndC hlinks hlast h0C
  have hCb : ∀ y ∈ C, 1 ≤ y ∧ y ≤ n := by
    intro y hy
    rcases hmemC y hy with rfl | ⟨a, -, c⟩
    · exact hinv2.j0n
    · exact ⟨Nat.one_le_iff_ne_zero.mpr c, hinv2.ordn y a⟩
  have hWord : ∀ y ∈ C, t.way.getD y 0 ≠ 0 → t.way.getD y 0 ∈ ord2 := by
    intro y hy hyz
    rcases hmemC y hy with rfl | ⟨a, -, c⟩
    · exact hwin
    · exact (hinv2.ordway y a c).1
  have hQrow : ∀ y ∈ C, t.way.getD y 0 ≠ 0 →
      t.p.getD (t.way.getD y 0) 0 ≠ 0 ∧ t.p.getD (t.way.getD y 0) 0 ≤ k - 1 := by
    intro y hy hyz
    have ho := hWord y hy hyz
    exact ⟨hinv2.usedp _ ho hyz,
      hinv2.mtch.bound _ (Nat.one_le_iff_ne_zero.mpr hyz) (hinv2.ordn _ ho)⟩
  have hQm : MatchInv n k (augmentLoop t.way (n + 1) t.j0 t.p) := by
    refine ⟨?_, ?_, ?_⟩
    · intro j h1 h2
      by_cases hjC : j ∈ C
      · rw [hchain j hjC]
        rcases hWC j hjC with h0 | hC2
        · rw [h0, hinv2.p0]
        · have hz : t.way.getD j 0 ≠ 0 := fun hc => h0C (hc ▸ hC2)
          have := (hQrow j hjC hz).2
          omega
      · rw [hunch j hjC]
        have := hinv2.mtch.bound j h1 h2
        omega
    · intro j j2 h1 h2 h3 h4 hne hpp
      by_cases hjC : j ∈ C <;> by_cases hj2C : j2 ∈ C
      · rw [hchain j hjC] at hne hpp
        rw [hchain j2 hj2C] at hpp
        rcases hWC j hjC with hz | hC2
        · rcases hWC j2 hj2C with hz2 | hC22
          · exact hWinj j hjC j2 hj2C (by rw [hz, hz2])
          · have hz2' : t.way.getD j2 0 ≠ 0 := fun hc => h0C (hc ▸ hC22)
            have hb2 := (hQrow j2 hj2C hz2').2
            rw [hz, hinv2.p0] at hpp
            omega
        · rcases hWC j2 hj2C with hz2 | hC22
          · have hz' : t.way.getD j 0 ≠ 0 := fun hc => h0C (hc ▸ hC2)
            have hb1 := (hQrow j hjC hz').2
            rw [hz2, hinv2.p0] at hpp
            omega
          · have hz' : t.way.getD j 0 ≠ 0 := fun hc => h0C (hc ▸ hC2)
            have hz2' : t.way.getD j2 0 ≠ 0 := fun hc => h0C (hc ▸ hC22)
            have hr1 := hQrow j hjC hz'
            have hWb1 := hCb _ hC2
            have hWb2 := hCb _ hC22
            have hWeq := hinv2.mtch.inj (t.way.getD j 0) (t.way.getD j2 0)
              hWb1.1 hWb1.2 hWb2.1 hWb2.2 hr1.1 hpp
            exact hWinj j hjC j2 hj2C hWeq
      · rw [hchain j hjC] at hne hpp
        rw [hunch j2 hj2C] at hpp
        rcases hWC j hjC with hz | hC2
        · rw [hz, hinv2.p0] at hpp
          have hb2 := hinv2.mtch.bound j2 h3 h4
          omega
        · have hz' : t.way.getD j 0 ≠ 0 := fun hc => h0C (hc ▸ hC2)
          have hr1 := hQrow j hjC hz'
          have hWb1 := hCb _ hC2
          have hWeq := hinv2.mtch.inj (t.way.getD j 0) j2
            hWb1.1 hWb1.2 h3 h4 hr1.1 hpp
          exact absurd (hWeq ▸ hC2) hj2C
      · rw [hunch j hjC] at hne hpp
        rw [hchain j2 hj2C] at hpp
        rcases hWC j2 hj2C with hz | hC22
        · rw [hz, hinv2.p0] at hpp
          have hb1 := hinv2.mtch.bound j h1 h2
          omega
        · have hz2' : t.way.getD j2 0 ≠ 0 := fun hc => h0C (hc ▸ hC22)
          have hr2 := hQrow j2 hj2C hz2'
          have hWb2 := hCb _ hC22
          have hWeq := hinv2.mtch.inj j (t.way.getD j2 0)
            h1 h2 hWb2.1 hWb2.2 hne hpp
          rw [hWeq] at hjC
          exact absurd hC22 hjC
      · rw [hunch j hjC] at hne hpp
        rw [hunch j2 hj2C] at hpp
        exact hinv2.mtch.inj j j2 h1 h2 h3 h4 hne hpp
    · intro i h1 h2
      by_cases hik : i = k
      · subst hik
        have hLmem := List.getLast_mem hCne
        refine ⟨C.getLast hCne, (hCb _ hLmem).1, (hCb _ hLmem).2, ?_⟩
        rw [hchain _ hLmem, hlast hCne, hinv2.p0]
      · obtain ⟨j, hj1, hj2, hj3⟩ := hinv2.mtch.surj i h1 (by omega)
        by_cases hjC : j ∈ C
        · obtain ⟨⟨l, hl⟩, hlj⟩ := List.mem_iff_get.mp hjC
          have hl0 : l ≠ 0 := by
            intro h
            subst h
            rw [get_zero_of_head? C t.j0 hh hl] at hlj
            rw [← hlj, hexit] at hj3
            omega
          have hl1 : l - 1 + 1 < C.length := by omega
          have hpred : t.way.getD (C.get ⟨l - 1, by omega⟩) 0 = j := by
            have hstep := hlinks (l - 1) hl1
            rw [show (⟨l - 1 + 1, hl1⟩ : Fin C.length) = ⟨l, hl⟩
              from Fin.ext (by simp; omega)] at hstep
            rw [hstep, hlj]
          refine ⟨C.get ⟨l - 1, by omega⟩,
            (hCb _ (List.get_mem C _ _)).1, (hCb _ (List.get_mem C _ _)).2, ?_⟩
          rw [hchain _ (List.get_mem C _ _), hpred, hj3]
        · exact ⟨j, hj1, hj2, by rw [hunch j hjC]; exact hj3⟩
  have hQd : DualInv cost n k t.u t.v (augmentLoop t.way (n + 1) t.j0 t.p) := by
    refine ⟨hinv2.dual.feas, ?_, hinv2.dual.vnp, hinv2.dual.uhz⟩
    intro j h1 h2 hne
    by_cases hjC : j ∈ C
    · rw [hchain j hjC] at hne ⊢
      rcases hmemC j hjC with rfl | ⟨a, -, c⟩
      · linarith [hreal]
      · exact hinv2.wayt j a c
    · rw [hunch j hjC] at hne ⊢
      exact hinv2.dual.tight j h1 h2 hne
  exact ⟨hinv2.ulen, hinv2.vlen,
    (by rw [hlen2, hinv2.plen] :
      (augmentLoop t.way (n + 1) t.j0 t.p).length = n + 1),
    hinv2.wlen, hQm, hQd⟩

/-- Running the outer loop over the first `k` rows establishes the outer
invariant for `k` matched rows, starting from the all-zero initial state. -/
theorem hungarian_fold_inv (cost : Mat) (n : ℕ)
    (hnn : ∀ i j, 1 ≤ i → i ≤ n → 1 ≤ j → j ≤ n → 0 ≤ cEnt cost i j) :
    ∀ k, k ≤ n → OsInv cost n k
      (((List.range k).map (· + 1)).foldl (hungarianRow cost n)
        ⟨List.replicate (n + 1) 0, List.replicate (n + 1) 0,
          List.replicate (n + 1) 0, List.replicate (n + 1) 0⟩) := by
  intro k
  induction k with
  | zero =>
    intro _
    simp only [List.range_zero, List.map_nil, List.foldl_nil]
    refine ⟨List.length_replicate _ _, List.length_replicate _ _,
      List.length_replicate _ _, List.length_replicate _ _, ?_, ?_⟩
    · refine ⟨?_, ?_, ?_⟩
      · intro j h1 h2
        show (List.replicate (n + 1) (0 : ℕ)).getD j 0 ≤ 0
        rw [getD_replicate _ _ _ _ (by omega)]
      · intro j j2 h1 h2 h3 h4 hne hpp
        exact absurd (getD_replicate (n + 1) j (0 : ℕ) 0 (by omega)) hne
      · intro i h1 h2
        omega
    · refine ⟨?_, ?_, ?_, ?_⟩
      · intro i j h1 h2 h3 h4
        exact absurd h2 (by omega)
      · intro j h1 h2 hne
        exact absurd (getD_replicate (n + 1) j (0 : ℕ) 0 (by omega)) hne
      · intro j hj
        show (List.replicate (n + 1) (0 : ℚ)).getD j 0 ≤ 0
        rw [getD_replicate _ _ _ _ (by omega)]
      · intro i hi
        show (List.replicate (n + 1) (0 : ℚ)).getD i 0 = 0
        by_cases hin : i < n + 1
        · exact getD_replicate _ _ _ _ hin
        · exact List.getD_eq_default _ _ (by rw [List.length_replicate]; omega)
  | succ k ih =>
    intro hk
    rw [show (List.range (k + 1)).map (· + 1) =
        ((List.range k).map (· + 1)) ++ [k + 1] from by
      rw [List.range_succ, List.map_append]
      rfl]
    rw [List.foldl_append]
    exact hungarianRow_inv cost n (k + 1) _ (ih (by omega)) (by omega) hk hnn

/-- Pointwise description of the `rowsol` write-back loop: each column `j`
with a matched row writes `j - 1` at position `row - 1`, rows being
distinct across columns, and untouched positions keep their initial
value. -/
theorem rowsolFold_spec (P : List ℕ) :
    ∀ js : List ℕ, js.Nodup →
      (∀ j ∈ js, ∀ j2 ∈ js, P.getD j 0 ≠ 0 → P.getD j2 0 ≠ 0 →
        P.getD j 0 = P.getD j2 0 → j = j2) →
      ∀ rs0 : List ℤ,
        (js.foldl (fun (rs : List ℤ) j =>
          if P.getD j 0 ≠ 0 then rs.set (P.getD j 0 - 1) (Int.ofNat (j - 1))
          else rs) rs0).length = rs0.length ∧
        (∀ i : ℕ, (∀ j ∈ js, P.getD j 0 ≠ 0 → P.getD j 0 - 1 ≠ i) →
          (js.foldl (fun (rs : List ℤ) j =>
            if P.getD j 0 ≠ 0 then rs.set (P.getD j 0 - 1) (Int.ofNat (j - 1))
            else rs) rs0).getD i 0 = rs0.getD i 0) ∧
        (∀ j ∈ js, P.getD j 0 ≠ 0 → P.getD j 0 - 1 < rs0.length →
          (js.foldl (fun (rs : List ℤ) j =>
            if P.getD j 0 ≠ 0 then rs.set (P.getD j 0 - 1) (Int.ofNat (j - 1))
            else rs) rs0).getD (P.getD j 0 - 1) 0 = Int.ofNat (j - 1)) := by
  intro js
  induction js with
  | nil =>
    intro _ _ rs0
    exact ⟨rfl, fun i _ => rfl, fun j hj => absurd hj (List.not_mem_nil j)⟩
  | cons a rest ih =>
    intro hnd hinj rs0
    have hanr : a ∉ rest := (List.nodup_cons.mp hnd).1
    have hnd' : rest.Nodup := (List.nodup_cons.mp hnd).2
    have hinj' : ∀ j ∈ rest, ∀ j2 ∈ rest, P.getD j 0 ≠ 0 → P.getD j2 0 ≠ 0 →
        P.getD j 0 = P.getD j2 0 → j = j2 :=
      fun j hj j2 hj2 => hinj j (List.mem_cons_of_mem a hj) j2
        (List.mem_cons_of_mem a hj2)
    by_cases ha : P.getD a 0 ≠ 0
    · have hstep : (a :: rest).foldl (fun (rs : List ℤ) j =>
          if P.getD j 0 ≠ 0 then rs.set (P.getD j 0 - 1) (Int.ofNat (j - 1))
          else rs) rs0 =
        rest.foldl (fun (rs : List ℤ) j =>
          if P.getD j 0 ≠ 0 then rs.set (P.getD j 0 - 1) (Int.ofNat (j - 1))
          else rs) (rs0.set (P.getD a 0 - 1) (Int.ofNat (a - 1))) := by
        rw [show (a :: rest).foldl (fun (rs : List ℤ) j =>
            if P.getD j 0 ≠ 0 then rs.set (P.getD j 0 - 1) (Int.ofNat (j - 1))
            else rs) rs0 =
          rest.foldl (fun (rs : List ℤ) j =>
            if P.getD j 0 ≠ 0 then rs.set (P.getD j 0 - 1) (Int.ofNat (j - 1))
            else rs) (if P.getD a 0 ≠ 0
              then rs0.set (P.getD a 0 - 1) (Int.ofNat (a - 1)) else rs0)
          from rfl, if_pos ha]
      obtain ⟨ihl, ihu, ihv⟩ := ih hnd' hinj' (rs0.set (P.getD a 0 - 1) (Int.ofNat (a - 1)))
      refine ⟨by rw [hstep, ihl, List.length_set], ?_, ?_⟩
      · intro i hi
        rw [hstep, ihu i (fun j hj hjz =>
          hi j (List.mem_cons_of_mem a hj) hjz)]
        exact getD_set_ne _ _ _ _ _ (hi a (List.mem_cons_self a rest) ha)
      · intro j hj hjz hjb
        rcases List.mem_cons.mp hj with rfl | hj2
        · rw [hstep, ihu (P.getD j 0 - 1) ?_]
          · exact getD_set_self _ _ _ _ hjb
          · intro j2 hj2 hj2z heq
            have hp1 : 1 ≤ P.getD j 0 := Nat.one_le_iff_ne_zero.mpr hjz
            have hp2 : 1 ≤ P.getD j2 0 := Nat.one_le_iff_ne_zero.mpr hj2z
            have hEq := hinj j2 (List.mem_cons_of_mem j hj2) j
              (List.mem_cons_self j rest) hj2z hjz (by omega)
            rw [hEq] at hj2
            exact hanr hj2
        · rw [hstep]
          exact ihv j hj2 hjz (by rw [List.length_set]; exact hjb)
    · have hstep : (a :: rest).foldl (fun (rs : List ℤ) j =>
          if P.getD j 0 ≠ 0 then rs.set (P.getD j 0 - 1) (Int.ofNat (j - 1))
          else rs) rs0 =
        rest.foldl (fun (rs : List ℤ) j =>
          if P.getD j 0 ≠ 0 then rs.set (P.getD j 0 - 1) (Int.ofNat (j - 1))
          else rs) rs0 := by
        rw [show (a :: rest).foldl (fun (rs : List ℤ) j =>
            if P.getD j 0 ≠ 0 then rs.set (P.getD j 0 - 1) (Int.ofNat (j - 1))
            else rs) rs0 =
          rest.foldl (fun (rs : List ℤ) j =>
            if P.getD j 0 ≠ 0 then rs.set (P.getD j 0 - 1) (Int.ofNat (j - 1))
            else rs) (if P.getD a 0 ≠ 0
              then rs0.set (P.getD a 0 - 1) (Int.ofNat (a - 1)) else rs0)
          from rfl, if_neg ha]
      obtain ⟨ihl, ihu, ihv⟩ := ih hnd' hinj' rs0
      refine ⟨by rw [hstep, ihl], ?_, ?_⟩
      · intro i hi
        rw [hstep]
        exact ihu i (fun j hj hjz => hi j (List.mem_cons_of_mem a hj) hjz)
      · intro j hj hjz hjb
        rcases List.mem_cons.mp hj with rfl | hj2
        · exact absurd hjz ha
        · rw [hstep]
          exact ihv j hj2 hjz hjb

/-- When all `n` rows are inserted, every column of `[1..n]` is matched:
column count equals row count, so the partial matching is a bijection. -/
theorem matching_total (n : ℕ) (P : List ℕ) (hm : MatchInv n n P) :
    ∀ j, 1 ≤ j → j ≤ n → P.getD j 0 ≠ 0 ∧ P.getD j 0 ≤ n := by
  classical
  have hsurj : Set.SurjOn (fun j => P.getD j 0)
      ((Finset.Icc 1 n).filter (fun j => P.getD j 0 ≠ 0))
      (Finset.Icc 1 n) := by
    intro i hi
    have hi2 := Finset.mem_Icc.mp (Finset.mem_coe.mp hi)
    obtain ⟨j, hj1, hj2, hj3⟩ := hm.surj i hi2.1 hi2.2
    refine ⟨j, ?_, hj3⟩
    refine Finset.mem_coe.mpr (Finset.mem_filter.mpr
      ⟨Finset.mem_Icc.mpr ⟨hj1, hj2⟩, ?_⟩)
    rw [hj3]
    omega
  have hcard := Finset.card_le_card_of_surjOn _ hsurj
  have hfle := Finset.card_filter_le (Finset.Icc 1 n) (fun j => P.getD j 0 ≠ 0)
  have hceq : ((Finset.Icc 1 n).filter (fun j => P.getD j 0 ≠ 0)).card =
      (Finset.Icc 1 n).card := by omega
  have hall := Finset.filter_card_eq hceq
  intro j h1 h2
  exact ⟨hall j (Finset.mem_Icc.mpr ⟨h1, h2⟩), hm.bound j h1 h2⟩

/-- C2: on a square matrix of non-negative costs, `hungarian` fills
`rowsol` with a permutation of the columns — one distinct column per
row — whose total cost is minimal over all row-to-column permutations
(the fuelled loops provably reach their exit conditions, so the embedded
solver computes the same answer as the terminating C loops). -/
theorem c2_hungarian_optimal (cost : Mat)
    (hsq : ∀ row ∈ cost, row.length = cost.length)
    (hnn : ∀ i j, i < cost.length → j < cost.length → 0 ≤ getEntry cost i j) :
    (hungarian cost).1.length = cost.length ∧
    ∃ σ : Equiv.Perm (Fin cost.length),
      (∀ i : Fin cost.length,
        (hungarian cost).1.getD (i : ℕ) 0 = ((σ i : ℕ) : ℤ)) ∧
      ∀ τ : Equiv.Perm (Fin cost.length),
        (∑ i : Fin cost.length, getEntry cost (i : ℕ) ((σ i : ℕ))) ≤
          ∑ i : Fin cost.length, getEntry cost (i : ℕ) ((τ i : ℕ)) := by
  classical
  set n := cost.length with hn
  have hnn' : ∀ i j, 1 ≤ i → i ≤ n → 1 ≤ j → j ≤ n → 0 ≤ cEnt cost i j := by
    intro i j h1 h2 h3 h4
    exact hnn (i - 1) (j - 1) (by omega) (by omega)
  have hosF := hungarian_fold_inv cost n hnn' n (le_refl n)
  set osF := ((List.range n).map (· + 1)).foldl (hungarianRow cost n)
    ⟨List.replicate (n + 1) 0, List.replicate (n + 1) 0,
      List.replicate (n + 1) 0, List.replicate (n + 1) 0⟩ with hosFdef
  have htot := matching_total n osF.p hosF.mtch
  obtain ⟨hrsl, hrsu, hrsv⟩ := rowsolFold_spec osF.p
    ((List.range n).map (· + 1)) (nodup_oneTo n)
    (fun j hj j2 hj2 hz hz2 heq => by
      obtain ⟨a1, a2⟩ := (mem_oneTo n j).mp hj
      obtain ⟨b1, b2⟩ := (mem_oneTo n j2).mp hj2
      exact hosF.mtch.inj j j2 a1 a2 b1 b2 hz heq)
    (List.replicate n (-1 : ℤ))
  have hhun1 : (hungarian cost).1 = ((List.range n).map (· + 1)).foldl
      (fun (rs : List ℤ) j => if osF.p.getD j 0 ≠ 0
        then rs.set (osF.p.getD j 0 - 1) (Int.ofNat (j - 1)) else rs)
      (List.replicate n (-1 : ℤ)) := rfl
  have hgb : ∀ j : Fin n, osF.p.getD ((j : ℕ) + 1) 0 - 1 < n := by
    intro j
    have hjl := j.isLt
    have := htot ((j : ℕ) + 1) (by omega) (by omega)
    omega
  have hginj : Function.Injective
      (fun j : Fin n => (⟨osF.p.getD ((j : ℕ) + 1) 0 - 1, hgb j⟩ : Fin n)) := by
    intro j j2 heq
    have hv := congrArg Fin.val heq
    simp only [] at hv
    have hjl := j.isLt
    have hj2l := j2.isLt
    have h1 := htot ((j : ℕ) + 1) (by omega) (by omega)
    have h2 := htot ((j2 : ℕ) + 1) (by omega) (by omega)
    have hPeq : osF.p.getD ((j : ℕ) + 1) 0 = osF.p.getD ((j2 : ℕ) + 1) 0 := by
      omega
    have := hosF.mtch.inj ((j : ℕ) + 1) ((j2 : ℕ) + 1)
      (by omega) (by omega) (by omega) (by omega) h1.1 hPeq
    exact Fin.ext (by omega)
  set e := Equiv.ofBijective _ (Finite.injective_iff_bijective.mp hginj) with hedef
  have hge : ∀ i : Fin n,
      osF.p.getD (((e.symm i : Fin n) : ℕ) + 1) 0 - 1 = (i : ℕ) := by
    intro i
    exact congrArg Fin.val (e.apply_symm_apply i)
  have hPv : ∀ i : Fin n,
      osF.p.getD (((e.symm i : Fin n) : ℕ) + 1) 0 = (i : ℕ) + 1 := by
    intro i
    have hsl := (e.symm i).isLt
    have := htot (((e.symm i : Fin n) : ℕ) + 1) (by omega) (by omega)
    have := hge i
    omega
  refine ⟨?_, e.symm, ?_, ?_⟩
  · rw [hhun1, hrsl, List.length_replicate]
  · intro i
    have hsl := (e.symm i).isLt
    have hPt := htot (((e.symm i : Fin n) : ℕ) + 1) (by omega) (by omega)
    have hval := hrsv (((e.symm i : Fin n) : ℕ) + 1)
      ((mem_oneTo n _).mpr ⟨by omega, by omega⟩) hPt.1
      (by rw [List.length_replicate]; have := hge i; omega)
    rw [hge i] at hval
    rw [hhun1, hval]
    simp
  · intro τ
    have htight : ∀ i : Fin n,
        getEntry cost (i : ℕ) ((e.symm i : Fin n) : ℕ) =
          osF.u.getD ((i : ℕ) + 1) 0 +
            osF.v.getD (((e.symm i : Fin n) : ℕ) + 1) 0 := by
      intro i
      have hsl := (e.symm i).isLt
      have hil := i.isLt
      have hPt := htot (((e.symm i : Fin n) : ℕ) + 1) (by omega) (by omega)
      have ht := hosF.dual.tight (((e.symm i : Fin n) : ℕ) + 1)
        (by omega) (by omega) hPt.1
      rw [hPv i] at ht
      rw [show cEnt cost ((i : ℕ) + 1) (((e.symm i : Fin n) : ℕ) + 1) =
        getEntry cost (i : ℕ) ((e.symm i : Fin n) : ℕ) from rfl] at ht
      exact ht.symm
    have hfeas : ∀ i c : Fin n,
        osF.u.getD ((i : ℕ) + 1) 0 + osF.v.getD ((c : ℕ) + 1) 0 ≤
          getEntry cost (i : ℕ) (c : ℕ) := by
      intro i c
      have hil := i.isLt
      have hcl := c.isLt
      have hf := hosF.dual.feas ((i : ℕ) + 1) ((c : ℕ) + 1)
        (by omega) (by omega) (by omega) (by omega)
      rw [show cEnt cost ((i : ℕ) + 1) ((c : ℕ) + 1) =
        getEntry cost (i : ℕ) (c : ℕ) from rfl] at hf
      exact hf
    calc ∑ i : Fin n, getEntry cost (i : ℕ) ((e.symm i : Fin n) : ℕ)
        = ∑ i : Fin n, (osF.u.getD ((i : ℕ) + 1) 0 +
            osF.v.getD (((e.symm i : Fin n) : ℕ) + 1) 0) :=
          Finset.sum_congr rfl (fun i _ => htight i)
      _ = (∑ i : Fin n, osF.u.getD ((i : ℕ) + 1) 0) +
            ∑ i : Fin n, osF.v.getD (((e.symm i : Fin n) : ℕ) + 1) 0 :=
          Finset.sum_add_distrib
      _ = (∑ i : Fin n, osF.u.getD ((i : ℕ) + 1) 0) +
            ∑ j : Fin n, osF.v.getD ((j : ℕ) + 1) 0 := by
          rw [Equiv.sum_comp e.symm (fun j : Fin n => osF.v.getD ((j : ℕ) + 1) 0)]
      _ = (∑ i : Fin n, osF.u.getD ((i : ℕ) + 1) 0) +
            ∑ i : Fin n, osF.v.getD (((τ i : Fin n) : ℕ) + 1) 0 := by
          rw [Equiv.sum_comp τ (fun j : Fin n => osF.v.getD ((j : ℕ) + 1) 0)]
      _ = ∑ i : Fin n, (osF.u.getD ((i : ℕ) + 1) 0 +
            osF.v.getD (((τ i : Fin n) : ℕ) + 1) 0) :=
          Finset.sum_add_distrib.symm
      _ ≤ ∑ i : Fin n, getEntry cost (i : ℕ) ((τ i : ℕ)) :=
          Finset.sum_le_sum (fun i _ => hfeas i (τ i))

/-- The solver theorem applied to a concrete 2×2 non-negative matrix. -/
theorem c2_hungarian_optimal_witness :
    (∀ row ∈ ccostC2, row.length = ccostC2.length) ∧
    (∀ i j, i < ccostC2.length → j < ccostC2.length →
      0 ≤ getEntry ccostC2 i j) ∧
    ((hungarian ccostC2).1.length = ccostC2.length ∧
      ∃ σ : Equiv.Perm (Fin ccostC2.length),
        (∀ i : Fin ccostC2.length,
          (hungarian ccostC2).1.getD (i : ℕ) 0 = ((σ i : ℕ) : ℤ)) ∧
        ∀ τ : Equiv.Perm (Fin ccostC2.length),
          (∑ i : Fin ccostC2.length, getEntry ccostC2 (i : ℕ) ((σ i : ℕ))) ≤
            ∑ i : Fin ccostC2.length, getEntry ccostC2 (i : ℕ) ((τ i : ℕ))) := by
  have h1 : ∀ row ∈ ccostC2, row.length = ccostC2.length := by
    with_unfolding_all decide
  have h2 : ∀ i j, i < ccostC2.length → j < ccostC2.length →
      0 ≤ getEntry ccostC2 i j := by
    intro i j hi hj
    have hi2 : i < 2 := hi
    have hj2 : j < 2 := hj
    interval_cases i <;> interval_cases j <;> with_unfolding_all decide
  exact ⟨h1, h2, c2_hungarian_optimal ccostC2 h1 h2⟩

end Tracking
